import Mathlib

/-!
Shallow embedding of the three scripts of `bmad-autopilot`:
`validate_metric_keys.py` (reference Validator), `scripts/add-mnemonics.py`
(mnemonic Assigner) and `scripts/remove-alarm-mnemonics.py` (alarm-section
Remover).  Text is modelled as `List Char`; the Python regular expressions
used by the scripts are deterministic on their patterns, so they are embedded
as explicit character-level scanners.  Python's bounded scans are realised
with an explicit fuel argument that is always instantiated with the length of
the scanned text; each step of every scanner consumes at least one character,
so this fuel is sufficient.
-/

namespace Bmad

/-- The character `{` (written via its code so that text stays text). -/
def lbrace : Char := Char.ofNat 123

/-- The character `}`. -/
def rbrace : Char := Char.ofNat 125

/-- The character `[`. -/
def lbrack : Char := Char.ofNat 91

/-- The character `]`. -/
def rbrack : Char := Char.ofNat 93

/-- The character `'` (single quote). -/
def squote : Char := Char.ofNat 39

/-- The character `"` (double quote). -/
def dquote : Char := Char.ofNat 34

/-- The newline character. -/
def nl : Char := Char.ofNat 10

/-- ASCII whitespace, the characters matched by Python's `\s` on ASCII text
(`validate_metric_keys.py` and both scripts operate on ASCII source files). -/
def isWs (c : Char) : Bool :=
  c = ' ' || c = Char.ofNat 9 || c = nl || c = Char.ofNat 13 ||
  c = Char.ofNat 11 || c = Char.ofNat 12

/-- ASCII word characters, Python's `\w` on ASCII text. -/
def isWordChar (c : Char) : Bool :=
  (('a' ≤ c && c ≤ 'z') || ('A' ≤ c && c ≤ 'Z') || ('0' ≤ c && c ≤ '9') || c = '_')

/-- Lower-case ASCII letters, the class `[a-z]`. -/
def isLowerAZ (c : Char) : Bool := 'a' ≤ c && c ≤ 'z'

/-- Either quote character, the class `['"]` of `add-mnemonics.py`. -/
def isQuoteChar (c : Char) : Bool := c = squote || c = dquote

/-- `startsWithL p s` : `p` is a leading run of `s` (Python `startswith`). -/
def startsWithL : List Char → List Char → Bool
  | [], _ => true
  | _ :: _, [] => false
  | p :: ps, s :: ss => p = s && startsWithL ps ss

/-- `containsSub pat s` : `pat` occurs contiguously in `s` (Python `in`). -/
def containsSub (pat : List Char) : List Char → Bool
  | [] => startsWithL pat []
  | s :: ss => startsWithL pat (s :: ss) || containsSub pat ss

/-- Split on newlines, exactly Python's `str.split('\n')` (boundary empties
kept, result never empty). -/
def splitLines : List Char → List (List Char)
  | [] => [[]]
  | c :: rest =>
    if c = nl then [] :: splitLines rest
    else
      match splitLines rest with
      | [] => [[c]]
      | l :: ls => (c :: l) :: ls

/-- Join with newlines, Python's `'\n'.join`. -/
def joinLines : List (List Char) → List Char
  | [] => []
  | [l] => l
  | l :: l2 :: rest => l ++ nl :: joinLines (l2 :: rest)

/-- Python dictionary built from a literal with possibly repeated keys:
lookup returns the value of the *last* binding of the key, `None` otherwise. -/
def pyGet (entries : List (List Char × List Char)) (k : List Char) :
    Option (List Char) :=
  (entries.reverse.find? (fun p => decide (p.1 = k))).map (fun p => p.2)

/-- Python ASCII `str.upper` on one character. -/
def pyUpper (c : Char) : Char :=
  if 'a' ≤ c && c ≤ 'z' then Char.ofNat (c.toNat - 32) else c

/-! ## Reference Validator (`validate_metric_keys.py`) -/

/-- The literal `.min`. -/
def sufMin : List Char := (".min").toList

/-- The literal `.max`. -/
def sufMax : List Char := (".max").toList

/-- The literal `.avg`. -/
def sufAvg : List Char := (".avg").toList

/-- The three virtual-metric suffixes. -/
def vSuffixes : List (List Char) := [sufMin, sufMax, sufAvg]

/-- `re.sub(r'\.(min|max|avg)$', '', key)` : remove one trailing virtual
suffix.  Python's `$` also matches just before a final newline, hence the
second group of cases. -/
def stripVirtual (k : List Char) : List Char :=
  if sufMin.isSuffixOf k || sufMax.isSuffixOf k || sufAvg.isSuffixOf k then
    k.take (k.length - 4)
  else if (sufMin ++ [nl]).isSuffixOf k || (sufMax ++ [nl]).isSuffixOf k ||
      (sufAvg ++ [nl]).isSuffixOf k then
    k.take (k.length - 5) ++ [nl]
  else k

/-- The literal `sensorType="`. -/
def stLit : List Char := ("sensorType=").toList ++ [dquote]

/-- The literal `metricKey="`. -/
def mkLit : List Char := ("metricKey=").toList ++ [dquote]

/-- Try the tail of the pattern at one position: literal `metricKey="`,
then `([^"]+)`, then `"`.  Returns the captured value and the rest after
the closing quote. -/
def mkHere (s : List Char) : Option (List Char × List Char) :=
  if startsWithL mkLit s then
    let r := s.drop mkLit.length
    let v := r.takeWhile (fun c => !(c = dquote))
    let r2 := r.dropWhile (fun c => !(c = dquote))
    if v.isEmpty then none
    else
      match r2 with
      | c :: rest => if c = dquote then some (v, rest) else none
      | [] => none
  else none

/-- Greedy `[^>]*` followed by `metricKey="([^"]+)"`: the regex engine
backtracks from the longest run, so the *last* viable occurrence of the
literal inside the `[^>]*` run wins.  `fuel` is the length of that run. -/
def pickLastMK : Nat → List Char → Option (List Char × List Char)
  | 0, _ => none
  | _ + 1, [] => none
  | n + 1, c :: rest =>
    match pickLastMK n rest with
    | some r => some r
    | none => mkHere (c :: rest)

/-- One attempt of `sensorType="([a-z]+)"[^>]*metricKey="([^"]+)"` at the
head of `s`; on success returns the sensor type, the raw metric key and the
rest of the text after the match. -/
def tryRefMatch (s : List Char) : Option (List Char × List Char × List Char) :=
  if startsWithL stLit s then
    let r := s.drop stLit.length
    let sensor := r.takeWhile isLowerAZ
    let r2 := r.dropWhile isLowerAZ
    if sensor.isEmpty then none
    else
      match r2 with
      | c :: rest =>
        if c = dquote then
          let region := rest.takeWhile (fun c => !(c = '>'))
          match pickLastMK region.length rest with
          | some p => some (sensor, p.1, p.2)
          | none => none
        else none
      | [] => none
  else none

/-- One widget reference: source file, sensor type, and the metric key
*after* suffix normalisation (the validator stores the stripped key). -/
structure Ref where
  file : List Char
  sensor : List Char
  metric : List Char
deriving DecidableEq, Repr

/-- `re.finditer` scan of one widget file: at each position try the pattern;
on success record the (suffix-stripped) reference and resume after the match. -/
def goScanRefs (file : List Char) : Nat → List Char → List Ref
  | 0, _ => []
  | _ + 1, [] => []
  | n + 1, c :: r =>
    match tryRefMatch (c :: r) with
    | some (sensor, v, after) =>
      ⟨file, sensor, stripVirtual v⟩ :: goScanRefs file n after
    | none => goScanRefs file n r

/-- All references extracted from one consumer file. -/
def scanRefs (file content : List Char) : List Ref :=
  goScanRefs file content.length content

/-- The glob `*Widget.tsx` on a file name (no separators in names). -/
def globWidget (name : List Char) : Bool := (("Widget.tsx").toList).isSuffixOf name

/-- A consumer directory: list of (file name, file content). -/
abbrev FileSet := List (List Char × List Char)

/-- References of every file matching the glob, in directory order. -/
def allRefs (files : FileSet) : List Ref :=
  (files.filter (fun f => globWidget f.1)).flatMap (fun f => scanRefs f.1 f.2)

/-- Schema map: sensor type to its field-key list. -/
abbrev Schemas := List (List Char × List (List Char))

/-- Schema lookup (Python dict: last binding wins). -/
def schemaGet (schemas : Schemas) (k : List Char) : Option (List (List Char)) :=
  ((schemas : List _).reverse.find? (fun p => decide (p.1 = k))).map (fun p => p.2)

/-- The error line `❌ {file}: Unknown sensor type '{sensorType}'`. -/
def msgUnknownSensor (r : Ref) : List Char :=
  ("❌ ").toList ++ r.file ++ (": Unknown sensor type ").toList ++
    [squote] ++ r.sensor ++ [squote]

/-- The error line `❌ {file}: {sensorType}.{metricKey} does NOT exist in schema`. -/
def msgUnknownKey (r : Ref) : List Char :=
  ("❌ ").toList ++ r.file ++ (": ").toList ++ r.sensor ++ (".").toList ++
    r.metric ++ (" does NOT exist in schema").toList

/-- The follow-up line `   Schema has: {', '.join(fields)}`. -/
def msgSchemaHas (fields : List (List Char)) : List Char :=
  ("   Schema has: ").toList ++ List.intercalate ((", ").toList) fields

/-- The deduplication key `f"{file}|{sensorType}|{metricKey}"`. -/
def dedupKey (r : Ref) : List Char := r.file ++ ('|' :: r.sensor) ++ ('|' :: r.metric)

/-- The validation loop with its `seen` set: skip seen keys, report unknown
sensor types, then unknown base keys (two lines, the second listing the
sensor's known fields). -/
def validGo (schemas : Schemas) : List (List Char) → List Ref → List (List Char)
  | _, [] => []
  | seen, r :: rs =>
    if dedupKey r ∈ seen then validGo schemas seen rs
    else
      match schemaGet schemas r.sensor with
      | none => msgUnknownSensor r :: validGo schemas (dedupKey r :: seen) rs
      | some fields =>
        if r.metric ∈ fields then validGo schemas (dedupKey r :: seen) rs
        else msgUnknownKey r :: msgSchemaHas fields ::
          validGo schemas (dedupKey r :: seen) rs

/-- All error lines produced for a reference list. -/
def validatorErrors (schemas : Schemas) (refs : List Ref) : List (List Char) :=
  validGo schemas [] refs

/-- The designated generic consumer file name. -/
def customName : List Char := ("CustomWidget.tsx").toList

/-- The single dynamic-key warning line. -/
def customWarnMsg : List Char :=
  ("⚠️  CustomWidget.tsx uses dynamic metricKey - cannot validate statically").toList

/-- Warnings of a run: one fixed warning iff `CustomWidget.tsx` is present. -/
def warningsOf (files : FileSet) : List (List Char) :=
  if (files : List _).any (fun f => decide (f.1 = customName)) then [customWarnMsg]
  else []

/-- Errors of a run over a consumer directory. -/
def errorsOf (schemas : Schemas) (files : FileSet) : List (List Char) :=
  validatorErrors schemas (allRefs files)

/-- Specification-side first-occurrence deduplication on `dedupKey`. -/
def dedupGo : List (List Char) → List Ref → List Ref
  | _, [] => []
  | seen, r :: rs =>
    if dedupKey r ∈ seen then dedupGo seen rs
    else r :: dedupGo (dedupKey r :: seen) rs

/-- Deduplicated reference list (first occurrences kept). -/
def dedupRefs (refs : List Ref) : List Ref := dedupGo [] refs

/-- Specification-side per-reference rule: unknown sensor type, else unknown
base key (with the field list in the message), else nothing. -/
def checkRef (schemas : Schemas) (r : Ref) : List (List Char) :=
  match schemaGet schemas r.sensor with
  | none => [msgUnknownSensor r]
  | some fields =>
    if r.metric ∈ fields then [] else [msgUnknownKey r, msgSchemaHas fields]

/-! ## Mnemonic Assigner (`scripts/add-mnemonics.py`) -/

/-- The `MNEMONICS` dictionary literal, entry by entry in source order.  The
literal repeats some keys (`trueSpeed`, `capacity`, `rudderAngle`); as a
Python dict literal the later binding wins (see `pyGet`). -/
def mnemonicEntries : List (List Char × List Char) :=
  [ (("name").toList, ("NAME").toList),
    (("chemistry").toList, ("CHEM").toList),
    (("capacity").toList, ("CAP").toList),
    (("voltage").toList, ("VLT").toList),
    (("nominalVoltage").toList, ("NOM").toList),
    (("current").toList, ("AMP").toList),
    (("temperature").toList, ("TMP").toList),
    (("stateOfCharge").toList, ("SOC").toList),
    (("depth").toList, ("DPT").toList),
    (("depthSource").toList, ("SRC").toList),
    (("depthReferencePoint").toList, ("REF").toList),
    (("offset").toList, ("OFS").toList),
    (("engineType").toList, ("TYPE").toList),
    (("maxRpm").toList, ("MAX").toList),
    (("rpm").toList, ("RPM").toList),
    (("coolantTemp").toList, ("ECT").toList),
    (("oilPressure").toList, ("EOP").toList),
    (("alternatorVoltage").toList, ("ALT").toList),
    (("fuelRate").toList, ("FLOW").toList),
    (("hours").toList, ("EHR").toList),
    (("shaftRpm").toList, ("SRPM").toList),
    (("engineEfficiency").toList, ("EFF").toList),
    (("speed").toList, ("SPD").toList),
    (("direction").toList, ("DIR").toList),
    (("trueSpeed").toList, ("TWS").toList),
    (("trueDirection").toList, ("TWD").toList),
    (("apparentSpeed").toList, ("AWS").toList),
    (("apparentDirection").toList, ("AWA").toList),
    (("throughWater").toList, ("STW").toList),
    (("overGround").toList, ("SOG").toList),
    (("trueSpeed").toList, ("TS").toList),
    (("value").toList, ("VAL").toList),
    (("source").toList, ("SRC").toList),
    (("location").toList, ("LOC").toList),
    (("heading").toList, ("HDG").toList),
    (("magneticHeading").toList, ("HDM").toList),
    (("trueHeading").toList, ("HDT").toList),
    (("variation").toList, ("VAR").toList),
    (("deviation").toList, ("DEV").toList),
    (("pitch").toList, ("PTCH").toList),
    (("roll").toList, ("ROLL").toList),
    (("rateOfTurn").toList, ("ROT").toList),
    (("latitude").toList, ("LAT").toList),
    (("longitude").toList, ("LON").toList),
    (("altitude").toList, ("ALT").toList),
    (("speedOverGround").toList, ("SOG").toList),
    (("courseOverGround").toList, ("COG").toList),
    (("numberOfSatellites").toList, ("SATS").toList),
    (("horizontalDilutionOfPrecision").toList, ("HDOP").toList),
    (("fixQuality").toList, ("FIX").toList),
    (("positionMode").toList, ("MODE").toList),
    (("mode").toList, ("MODE").toList),
    (("state").toList, ("STAT").toList),
    (("headingTarget").toList, ("TGT").toList),
    (("headingLocked").toList, ("LCK").toList),
    (("rudderAngle").toList, ("RUD").toList),
    (("rudderDirection").toList, ("RDIR").toList),
    (("offCourse").toList, ("XTE").toList),
    (("offCourseDirection").toList, ("XDIR").toList),
    (("crossTrackError").toList, ("XTE").toList),
    (("bearingToWaypoint").toList, ("BTW").toList),
    (("distanceToWaypoint").toList, ("DTW").toList),
    (("bearingOriginToDestination").toList, ("BOD").toList),
    (("waypointId").toList, ("WPT").toList),
    (("eta").toList, ("ETA").toList),
    (("airTemperature").toList, ("ATMP").toList),
    (("barometricPressure").toList, ("BARO").toList),
    (("humidity").toList, ("HUM").toList),
    (("dewPoint").toList, ("DEW").toList),
    (("waterTemperature").toList, ("WTMP").toList),
    (("windSpeed").toList, ("WSPD").toList),
    (("windDirection").toList, ("WDIR").toList),
    (("apparentWindSpeed").toList, ("AWS").toList),
    (("apparentWindDirection").toList, ("AWA").toList),
    (("trueWindSpeed").toList, ("TWS").toList),
    (("trueWindDirection").toList, ("TWD").toList),
    (("gustSpeed").toList, ("GUST").toList),
    (("gustDirection").toList, ("GDIR").toList),
    (("visibility").toList, ("VIS").toList),
    (("cloudCoverage").toList, ("CLDS").toList),
    (("precipitation").toList, ("PRCP").toList),
    (("tankType").toList, ("TYPE").toList),
    (("level").toList, ("LVL").toList),
    (("capacity").toList, ("CAP").toList),
    (("volume").toList, ("VOL").toList),
    (("remaining").toList, ("REM").toList),
    (("rudderAngle").toList, ("RUD").toList),
    (("rudderPosition").toList, ("POS").toList) ]

/-- The marker `mnemonic:` whose presence makes a field block be skipped. -/
def mnemMark : List Char := ("mnemonic:").toList

/-- The marker `label:` after whose line the mnemonic is inserted. -/
def labelMark : List Char := ("label:").toList

/-- The literal `key:` of the field-block pattern. -/
def keyLit : List Char := ("key:").toList

/-- Fallback mnemonic: `key_name.upper()[:5]`. -/
def fallbackMnem (key : List Char) : List Char := (key.map pyUpper).take 5

/-- Mnemonic resolution: table lookup, else fallback (Python's
`if not mnemonic` also treats an empty table value as missing). -/
def resolveMnem (key : List Char) : List Char :=
  match pyGet mnemonicEntries key with
  | none => fallbackMnem key
  | some v => if v.isEmpty then fallbackMnem key else v

/-- The console warning for a key missing from the table. -/
def warnMsg (key : List Char) : List Char :=
  ("WARNING: No mnemonic defined for key ").toList ++ [squote] ++ key ++
    [squote] ++ (" - using uppercase key").toList

/-- Indentation width of a line: `len(line) - len(line.lstrip())`. -/
def indentLen (line : List Char) : Nat := (line.takeWhile isWs).length

/-- The inserted line `' ' * indent + f"mnemonic: '{m}',"`. -/
def mnemLineOf (line m : List Char) : List Char :=
  List.replicate (indentLen line) ' ' ++ ("mnemonic: ").toList ++ [squote] ++ m ++
    [squote, ',']

/-- Walk the lines of a field block, appending a mnemonic line after every
line that contains `label:` and is not the last line. -/
def insertLines (m : List Char) : List (List Char) → List (List Char)
  | [] => []
  | [l] => [l]
  | l :: l2 :: rest =>
    if containsSub labelMark l then l :: mnemLineOf l m :: insertLines m (l2 :: rest)
    else l :: insertLines m (l2 :: rest)

/-- `add_mnemonic_to_field`, text part: skip blocks already containing
`mnemonic:`, otherwise insert the resolved mnemonic after each label line. -/
def addMnemText (fieldText key : List Char) : List Char :=
  if containsSub mnemMark fieldText then fieldText
  else joinLines (insertLines (resolveMnem key) (splitLines fieldText))

/-- `add_mnemonic_to_field`, console part: the warning printed when the key
is not in the table (and the block is processed at all). -/
def addMnemWarnings (fieldText key : List Char) : List (List Char) :=
  if containsSub mnemMark fieldText then []
  else
    match pyGet mnemonicEntries key with
    | none => [warnMsg key]
    | some v => if v.isEmpty then [warnMsg key] else []

/-- Head of the field pattern `\{[\s]*key:\s*['"](\w+)['"],` — deterministic:
every greedy class is followed by a character it cannot match.  On success
returns the consumed head, the captured key and the rest. -/
def parseKeyHead (s : List Char) : Option (List Char × List Char × List Char) :=
  match s with
  | [] => none
  | c :: r0 =>
    if c = lbrace then
      let w1 := r0.takeWhile isWs
      let r1 := r0.dropWhile isWs
      if startsWithL keyLit r1 then
        let r2 := r1.drop keyLit.length
        let w2 := r2.takeWhile isWs
        let r3 := r2.dropWhile isWs
        match r3 with
        | q1 :: r4 =>
          if isQuoteChar q1 then
            let key := r4.takeWhile isWordChar
            let r5 := r4.dropWhile isWordChar
            if key.isEmpty then none
            else
              match r5 with
              | q2 :: c2 :: rest =>
                if isQuoteChar q2 && c2 = ',' then
                  some (c :: (w1 ++ keyLit ++ w2 ++ q1 :: (key ++ [q2, ','])), key, rest)
                else none
              | _ => none
          else none
        | [] => none
      else none
    else none

/-- No adjacent occurrence of `cl` immediately followed by `,`. -/
def noClosePair (cl : Char) : List Char → Bool
  | [] => true
  | [_] => true
  | c :: d :: rest => !(c = cl && d = ',') && noClosePair cl (d :: rest)

/-- Some adjacent occurrence of `cl` immediately followed by `,`. -/
def hasClosePair (cl : Char) : List Char → Bool
  | [] => false
  | [_] => false
  | c :: d :: rest => (c = cl && d = ',') || hasClosePair cl (d :: rest)

/-- Split at the first `cl` immediately followed by `,` (the non-greedy
`[\s\S]*?` / `.*?` up to the closing delimiter): returns the part strictly
before the `cl` and the part strictly after the `,`. -/
def splitAtClose (cl : Char) : List Char → Option (List Char × List Char)
  | [] => none
  | [_] => none
  | c :: d :: rest =>
    if c = cl && d = ',' then some ([], rest)
    else (splitAtClose cl (d :: rest)).map (fun p => (c :: p.1, p.2))

/-- One attempt of the field pattern at the head of `s`: on success returns
group 1 (`{ key: 'x', ... }` up to and including the closing brace), the key,
and the rest beginning with the comma after the closing brace. -/
def tryMatch (s : List Char) : Option (List Char × List Char × List Char) :=
  match parseKeyHead s with
  | none => none
  | some (h, key, rest) =>
    match splitAtClose rbrace rest with
    | none => none
    | some (b, t) => some (h ++ b ++ [rbrace], key, ',' :: t)

/-- `process_file` text scan: at each position try the field pattern; on a
match emit the processed block and resume after it, otherwise copy one
character.  Also accumulates the printed warnings in order. -/
def goProcess : Nat → List Char → List Char × List (List Char)
  | 0, s => (s, [])
  | _ + 1, [] => ([], [])
  | n + 1, c :: r =>
    match tryMatch (c :: r) with
    | some (g1, key, after) =>
      let p := goProcess n after
      (addMnemText g1 key ++ p.1, addMnemWarnings g1 key ++ p.2)
    | none =>
      let p := goProcess n r
      (c :: p.1, p.2)

/-- The Assigner as a text transform (the content written back to the file). -/
def processText (s : List Char) : List Char := (goProcess s.length s).1

/-- The warnings printed by one Assigner run, in order. -/
def processWarns (s : List Char) : List (List Char) := (goProcess s.length s).2

/-- A piece of the Assigner's scan decomposition: a run of characters where
every attempt of the field pattern fails, or one matched field block with its
captured key. -/
inductive PPiece where
  | plain (u : List Char)
  | block (g1 key : List Char)
deriving DecidableEq, Repr

/-- Original text of an Assigner piece. -/
def origPieceP : PPiece → List Char
  | .plain u => u
  | .block g1 _ => g1

/-- Rewritten text of an Assigner piece. -/
def renderPieceP : PPiece → List Char
  | .plain u => u
  | .block g1 key => addMnemText g1 key

/-- Prepend one unmatched character to an Assigner piece list. -/
def consPlainP (c : Char) : List PPiece → List PPiece
  | .plain u :: ps => .plain (c :: u) :: ps
  | ps => .plain [c] :: ps

/-- The Assigner's scan, recorded as a piece decomposition. -/
def goPiecesP : Nat → List Char → List PPiece
  | 0, [] => []
  | 0, c :: r => [.plain (c :: r)]
  | _ + 1, [] => []
  | n + 1, c :: r =>
    match tryMatch (c :: r) with
    | some (g1, key, after) => .block g1 key :: goPiecesP n after
    | none => consPlainP c (goPiecesP n r)

/-- The decomposition of a text into field blocks and plain runs. -/
def piecesP (s : List Char) : List PPiece := goPiecesP s.length s

/-- Concatenation of the original Assigner pieces. -/
def origAllP (ps : List PPiece) : List Char := (ps.map origPieceP).flatten

/-- Concatenation of the rewritten Assigner pieces. -/
def renderAllP (ps : List PPiece) : List Char := (ps.map renderPieceP).flatten

/-- Well-formedness of an Assigner decomposition: plain runs are nonempty,
fail the field pattern at each of their positions, and are followed by a
block or nothing; blocks carry the matched structure and are followed by a
plain run starting with the comma the pattern re-emits. -/
def wfPiecesP : List PPiece → Prop
  | [] => True
  | .plain u :: ps =>
    u ≠ [] ∧ (∀ i < u.length, tryMatch (u.drop i ++ origAllP ps) = none) ∧
    (ps = [] ∨ ∃ g1 key ps2, ps = .block g1 key :: ps2) ∧ wfPiecesP ps
  | .block g1 key :: ps =>
    (∃ hd b w1 w2 q1 q2,
      g1 = hd ++ b ++ [rbrace] ∧
      hd = lbrace :: (w1 ++ keyLit ++ w2 ++ q1 :: (key ++ [q2, ','])) ∧
      w1.all isWs = true ∧ w2.all isWs = true ∧
      isQuoteChar q1 = true ∧ isQuoteChar q2 = true ∧
      key ≠ [] ∧ key.all isWordChar = true ∧
      noClosePair rbrace b = true) ∧
    (∃ u ps2, ps = .plain (',' :: u) :: ps2) ∧ wfPiecesP ps

/-- One inserted mnemonic line together with its trailing newline: it ends in
a newline and contains no close pair. -/
def isChunk (ch : List Char) : Prop :=
  ∃ ch2, ch = ch2 ++ [nl] ∧ noClosePair rbrace ch2 = true

/-- `Ins s t` : `t` is `s` with some chunks inserted, each directly after a
newline of `s`. -/
inductive Ins : List Char → List Char → Prop
  | nil : Ins [] []
  | cons (c : Char) {s t : List Char} : Ins s t → Ins (c :: s) (c :: t)
  | chunk {s t ch : List Char} : isChunk ch → Ins s t →
      Ins (nl :: s) (nl :: (ch ++ t))

/-! ## Mnemonic Remover (`scripts/remove-alarm-mnemonics.py`) -/

/-- The literal `alarmMetrics:`. -/
def alarmLit : List Char := ("alarmMetrics:").toList

/-- The closing delimiter `],` of an alarm-metrics block. -/
def closeLit : List Char := [rbrack, ',']

/-- Head of the pattern `alarmMetrics:\s*\[`: on success returns the consumed
prefix (group 1) and the rest. -/
def parseAlarmHead (s : List Char) : Option (List Char × List Char) :=
  if startsWithL alarmLit s then
    let r0 := s.drop alarmLit.length
    let w := r0.takeWhile isWs
    let r1 := r0.dropWhile isWs
    match r1 with
    | c :: rest => if c = lbrack then some (alarmLit ++ w ++ [lbrack], rest) else none
    | [] => none
  else none

/-- One attempt of `(alarmMetrics:\s*\[)(.*?)(\],)` at the head of `s`:
returns group 1, group 2 (the body) and the rest after the `],`. -/
def tryAlarm (s : List Char) : Option (List Char × List Char × List Char) :=
  match parseAlarmHead s with
  | none => none
  | some (pfx, rest) =>
    match splitAtClose rbrack rest with
    | none => none
    | some (b, t) => some (pfx, b, t)

/-- Drop every body line containing `mnemonic:` and re-join. -/
def filterMnemLines (body : List Char) : List Char :=
  joinLines ((splitLines body).filter (fun l => !(containsSub mnemMark l)))

/-- `re.sub` scan of the Remover: replace each alarm block by its filtered
form, copy everything else. -/
def goRemove : Nat → List Char → List Char
  | 0, s => s
  | _ + 1, [] => []
  | n + 1, c :: r =>
    match tryAlarm (c :: r) with
    | some (pfx, body, after) =>
      pfx ++ filterMnemLines body ++ closeLit ++ goRemove n after
    | none => c :: goRemove n r

/-- The Remover as a text transform. -/
def removeText (s : List Char) : List Char := goRemove s.length s

/-- Scan a text for alarm blocks and check that none of their body lines
contains `mnemonic:`. -/
def cleanGo : Nat → List Char → Bool
  | 0, _ => true
  | _ + 1, [] => true
  | n + 1, c :: r =>
    match tryAlarm (c :: r) with
    | some (_, body, after) =>
      ((splitLines body).all (fun l => !(containsSub mnemMark l))) && cleanGo n after
    | none => cleanGo n r

/-- No alarm block of `s` contains a mnemonic line. -/
def alarmClean (s : List Char) : Bool := cleanGo s.length s

/-- A piece of the Remover's decomposition of its input: either a run of
characters outside every alarm block, or one matched alarm block given by
its group 1 and its body. -/
inductive RPiece where
  | plain (u : List Char)
  | span (pfx body : List Char)
deriving DecidableEq, Repr

/-- The original text of a piece. -/
def origPiece : RPiece → List Char
  | .plain u => u
  | .span pfx body => pfx ++ body ++ closeLit

/-- The rewritten text of a piece. -/
def renderPiece : RPiece → List Char
  | .plain u => u
  | .span pfx body => pfx ++ filterMnemLines body ++ closeLit

/-- Prepend one unmatched character to a piece list. -/
def consPlain (c : Char) : List RPiece → List RPiece
  | .plain u :: ps => .plain (c :: u) :: ps
  | ps => .plain [c] :: ps

/-- The Remover's scan, recorded as a piece decomposition. -/
def goPieces : Nat → List Char → List RPiece
  | 0, [] => []
  | 0, c :: r => [.plain (c :: r)]
  | _ + 1, [] => []
  | n + 1, c :: r =>
    match tryAlarm (c :: r) with
    | some (pfx, body, after) => .span pfx body :: goPieces n after
    | none => consPlain c (goPieces n r)

/-- The decomposition of a text into alarm blocks and plain runs. -/
def pieces (s : List Char) : List RPiece := goPieces s.length s

/-- Concatenation of the original pieces. -/
def origAll (ps : List RPiece) : List Char := (ps.map origPiece).flatten

/-- Concatenation of the rewritten pieces. -/
def renderAll (ps : List RPiece) : List Char := (ps.map renderPiece).flatten

/-- Line-level merge of two split-line lists of adjacent texts: the last line
of the first merges with the first line of the second. -/
def joinLL (xs ys : List (List Char)) : List (List Char) :=
  match xs.getLast?, ys with
  | some la, y :: yt => xs.dropLast ++ (la ++ y) :: yt
  | _, _ => xs ++ ys

/-- Same merge, on lines carrying an intersects-an-alarm-block flag. -/
def mergeM (xs ys : List (List Char × Bool)) : List (List Char × Bool) :=
  match xs.getLast?, ys with
  | some la, y :: yt => xs.dropLast ++ (la.1 ++ y.1, la.2 || y.2) :: yt
  | _, _ => xs ++ ys

/-- The lines of `origAll ps`, each flagged with whether it intersects an
alarm block (a line partially inside a block is flagged). -/
def mlineP : List RPiece → List (List Char × Bool)
  | [] => [([], false)]
  | .plain u :: ps => mergeM ((splitLines u).map (fun l => (l, false))) (mlineP ps)
  | .span pfx body :: ps =>
    mergeM ((splitLines (pfx ++ body ++ closeLit)).map (fun l => (l, true))) (mlineP ps)

/-- The lines of `s` flagged by alarm-block intersection. -/
def markedLines (s : List Char) : List (List Char × Bool) := mlineP (pieces s)

/-- Well-formedness of a piece decomposition: plain runs are nonempty, fail
to match at each of their positions (with the original continuation), and
are followed by a span or nothing; spans carry the matched structure. -/
def wfPieces : List RPiece → Prop
  | [] => True
  | .plain u :: ps =>
    u ≠ [] ∧ (∀ i < u.length, tryAlarm (u.drop i ++ origAll ps) = none) ∧
    (ps = [] ∨ ∃ pfx body ps2, ps = .span pfx body :: ps2) ∧ wfPieces ps
  | .span pfx body :: ps =>
    (∃ w, pfx = alarmLit ++ w ++ [lbrack] ∧ w.all isWs = true) ∧
    noClosePair rbrack body = true ∧ wfPieces ps

/-- A piece list containing at least one alarm block. -/
def hasSpanP (ps : List RPiece) : Prop := ∃ pfx body, RPiece.span pfx body ∈ ps

/-! ## Concrete inputs used by counterexamples and witnesses -/

/-- A consumer directory containing only `CustomWidget.tsx`, whose single
tag carries a literal reference with an unknown sensor type. -/
def c1files : FileSet :=
  [(customName, ("<G sensorType=\"radar\" metricKey=\"x\" />").toList)]

/-- A schema map without the sensor type `radar`. -/
def c1schemas : Schemas := [(("depth").toList, [("depth").toList])]

/-- A registry text with one field block whose label line is the last line
of the matched block. -/
def c3ex : List Char :=
  ("\x7b key: \x27depth\x27,\n  label: \x27Depth\x27 \x7d,").toList

/-- Group 1 of the field pattern on `c3ex`. -/
def c3g1 : List Char :=
  ("\x7b key: \x27depth\x27,\n  label: \x27Depth\x27 \x7d").toList

/-- A normal multi-line field block with key `trueSpeed`. -/
def c9ex : List Char :=
  ("\x7b\n  key: \x27trueSpeed\x27,\n  label: \x27T\x27,\n\x7d,").toList

/-- `c9ex` after the Assigner: the mnemonic `TS` (not `TWS`) is inserted. -/
def c9out : List Char :=
  ("\x7b\n  key: \x27trueSpeed\x27,\n  label: \x27T\x27,\n  mnemonic: \x27TS\x27,\n\x7d,").toList

/-- A normal multi-line field block with the unmapped key `fooBar`. -/
def c8ex : List Char :=
  ("\x7b\n  key: \x27fooBar\x27,\n  label: \x27Foo\x27,\n\x7d,").toList

/-- A widget tag with `sensorType` first, then `metricKey`. -/
def fwdTag (s k : List Char) : List Char :=
  ("<W sensorType=").toList ++ dquote :: s ++ dquote :: (" metricKey=").toList ++
    dquote :: k ++ dquote :: (" />").toList

/-- The same tag with the two attributes in the opposite order. -/
def revTag (s k : List Char) : List Char :=
  ("<W metricKey=").toList ++ dquote :: k ++ dquote :: (" sensorType=").toList ++
    dquote :: s ++ dquote :: (" />").toList

/-! # Theorems -/

/-- A list of fixed length is a suffix of `y ++ q` with `q` of the same
length exactly when it equals `q`. -/
theorem isSuffixOf_append_same_length (y p q : List Char)
    (hl : p.length = q.length) : p.isSuffixOf (y ++ q) = true ↔ p = q := by
  rw [List.isSuffixOf_iff_suffix]
  constructor
  · rintro ⟨t, ht⟩
    have hlen : t.length = y.length := by
      have := congrArg List.length ht
      simp [List.length_append, hl] at this
      omega
    exact ((List.append_inj ht hlen).2)
  · intro h
    subst h
    exact List.suffix_append _ _

/-- Each virtual suffix has length 4 and appending one of them makes the
first branch of `stripVirtual` fire and remove exactly it. -/
theorem stripVirtual_append (s u : List Char) (hu : u ∈ vSuffixes) :
    stripVirtual (s ++ u) = s := by
  have hu2 : u = sufMin ∨ u = sufMax ∨ u = sufAvg := by
    simpa [vSuffixes] using hu
  have h4 : u.length = 4 := by
    rcases hu2 with h | h | h <;> subst h <;> decide
  have hcond : (sufMin.isSuffixOf (s ++ u) || sufMax.isSuffixOf (s ++ u) ||
      sufAvg.isSuffixOf (s ++ u)) = true := by
    rcases hu2 with h | h | h <;> subst h <;>
      simp [List.isSuffixOf_iff_suffix, List.suffix_append]
  rw [stripVirtual, if_pos hcond]
  have : (s ++ u).length - 4 = s.length := by
    simp [List.length_append, h4]
  rw [this]
  exact List.take_left s u

/-- C10: suffix normalisation strips at most one trailing virtual suffix:
on a key ending in two stacked suffixes only the last one is removed
(`speed.min.avg` normalises to `speed.min`, not `speed`), so the
normalisation is not idempotent on such inputs. -/
theorem c10_strip_at_most_one_suffix :
    (∀ (s a b : List Char), a ∈ vSuffixes → b ∈ vSuffixes →
      stripVirtual (s ++ a ++ b) = s ++ a)
    ∧ stripVirtual (("speed.min.avg").toList) = ("speed.min").toList
    ∧ stripVirtual (stripVirtual (("speed.min.avg").toList)) ≠
        stripVirtual (("speed.min.avg").toList) := by
  refine ⟨fun s a b _ hb => ?_, by decide, by decide⟩
  exact stripVirtual_append (s ++ a) b hb

/-- Witness for C10 at `s = "speed"`, `a = ".min"`, `b = ".avg"`. -/
theorem c10_strip_at_most_one_suffix_witness :
    sufMin ∈ vSuffixes ∧ sufAvg ∈ vSuffixes ∧
      stripVirtual ((("speed").toList ++ sufMin) ++ sufAvg) =
        ("speed").toList ++ sufMin :=
  ⟨by decide, by decide,
    c10_strip_at_most_one_suffix.1 (("speed").toList) sufMin sufAvg
      (by decide) (by decide)⟩

/-- C9: the `MNEMONICS` literal repeats keys — `trueSpeed` bound to `TWS`
and later to `TS`, and `capacity` and `rudderAngle` bound twice — the
effective dictionary keeps the later binding, so a mnemonic-less
`trueSpeed` field receives `TS`, not `TWS`. -/
theorem c9_duplicate_keys_last_binding_wins :
    ((mnemonicEntries.filter (fun p => decide (p.1 = ("trueSpeed").toList))).map
        (fun p => p.2)) = [("TWS").toList, ("TS").toList]
    ∧ (mnemonicEntries.filter
        (fun p => decide (p.1 = ("capacity").toList))).length = 2
    ∧ (mnemonicEntries.filter
        (fun p => decide (p.1 = ("rudderAngle").toList))).length = 2
    ∧ pyGet mnemonicEntries (("trueSpeed").toList) = some (("TS").toList)
    ∧ resolveMnem (("trueSpeed").toList) = ("TS").toList
    ∧ processText c9ex = c9out :=
  ⟨by decide, by decide, by decide, by decide, by decide, by decide⟩

/-- The validation loop with its `seen` set equals first-occurrence
deduplication followed by the per-reference rule, for any starting set. -/
theorem validGo_eq_dedup (schemas : Schemas) :
    ∀ (rs : List Ref) (seen : List (List Char)),
      validGo schemas seen rs = ((dedupGo seen rs).map (checkRef schemas)).flatten := by
  intro rs
  induction rs with
  | nil => intro seen; rfl
  | cons r rs ih =>
    intro seen
    by_cases h : dedupKey r ∈ seen
    · simp [validGo, dedupGo, h, ih]
    · simp only [validGo, dedupGo, if_neg h]
      cases hg : schemaGet schemas r.sensor with
      | none => simp [checkRef, hg, ih]
      | some fields =>
        by_cases hm : r.metric ∈ fields
        · simp [checkRef, hg, hm, ih]
        · simp [checkRef, hg, hm, ih]

/-- C5: the emitted error lines are exactly, for every reference surviving
first-occurrence deduplication on `(file, sensorType, baseMetricKey)`:
one `Unknown sensor type` line when the sensor type is absent from the
schema map; otherwise, when the base key is absent from the sensor's
field-key list, one `does NOT exist` line followed by the line listing the
full known field-key list; otherwise nothing. -/
theorem c5_validation_rule (schemas : Schemas) (files : FileSet) :
    errorsOf schemas files =
      ((dedupRefs (allRefs files)).map (checkRef schemas)).flatten :=
  validGo_eq_dedup schemas (allRefs files) []

/-- C8: for a processed field block whose key has no table entry, the
Assigner resolves the mnemonic to the first five characters of the
uppercased key, prints exactly one warning naming the key, and inserts that
fallback value. -/
theorem c8_fallback_mnemonic (ft key : List Char)
    (h1 : pyGet mnemonicEntries key = none)
    (h2 : containsSub mnemMark ft = false) :
    resolveMnem key = (key.map pyUpper).take 5
    ∧ addMnemWarnings ft key = [warnMsg key]
    ∧ addMnemText ft key =
        joinLines (insertLines ((key.map pyUpper).take 5) (splitLines ft)) := by
  refine ⟨?_, ?_, ?_⟩
  · simp [resolveMnem, h1, fallbackMnem]
  · simp [addMnemWarnings, h2, h1]
  · simp [addMnemText, h2, resolveMnem, h1, fallbackMnem]

/-- Witness for C8 at key `fooBar` (absent from the table): the fallback is
`FOOBA` and the warning names `fooBar`. -/
theorem c8_fallback_mnemonic_witness :
    pyGet mnemonicEntries (("fooBar").toList) = none
    ∧ containsSub mnemMark c8ex = false
    ∧ resolveMnem (("fooBar").toList) = ("FOOBA").toList
    ∧ addMnemWarnings c8ex (("fooBar").toList) = [warnMsg (("fooBar").toList)]
    ∧ addMnemText c8ex (("fooBar").toList) =
        joinLines (insertLines (("FOOBA").toList) (splitLines c8ex)) := by
  have h := c8_fallback_mnemonic c8ex (("fooBar").toList) (by decide) (by decide)
  exact ⟨by decide, by decide, h.1.trans (by decide), h.2.1, h.2.2.trans (by decide)⟩

/-- Counterexample to C1: `CustomWidget.tsx` is matched by the widget glob
and its literal references are validated like any other file's — here a
reference with unknown sensor type `radar` inside `CustomWidget.tsx`
produces an `Unknown sensor type` finding, contradicting the claimed
exemption (while exactly one dynamic-key warning is indeed emitted). -/
theorem c1_counterexample :
    warningsOf c1files = [customWarnMsg]
    ∧ errorsOf c1schemas c1files =
        [msgUnknownSensor ⟨customName, ("radar").toList, ("x").toList⟩] :=
  ⟨by decide, by decide⟩

/-- C1 as amended: when the scanned set contains `CustomWidget.tsx` the
Validator emits exactly one dynamic-key warning, but the file is *not*
exempted from per-reference checking: its references are extracted and
validated exactly like every other matching file's. -/
theorem c1_amended_one_warning_no_exemption (schemas : Schemas)
    (pre post : FileSet) (c : List Char) :
    warningsOf (pre ++ (customName, c) :: post) = [customWarnMsg]
    ∧ errorsOf schemas (pre ++ (customName, c) :: post)
      = validatorErrors schemas
          (allRefs pre ++ (scanRefs customName c ++ allRefs post)) := by
  constructor
  · have hany : ((pre ++ (customName, c) :: post).any
        (fun f => decide (f.1 = customName))) = true := by
      simp
    rw [warningsOf, if_pos hany]
  · have hglob : globWidget customName = true := by decide
    simp only [errorsOf, allRefs, List.filter_append, List.filter_cons, hglob,
      if_true, List.flatMap_append, List.flatMap_cons]

/-! ## Scan infrastructure: decompositions and fuel invariance -/

/-- A successful `startsWithL` splits the scanned list. -/
theorem startsWithL_decomp : ∀ (p s : List Char), startsWithL p s = true →
    s = p ++ s.drop p.length := by
  intro p
  induction p with
  | nil => intro s _; rfl
  | cons a p ih =>
    intro s h
    cases s with
    | nil => simp [startsWithL] at h
    | cons b t =>
      simp only [startsWithL, Bool.and_eq_true, decide_eq_true_eq] at h
      obtain ⟨rfl, h2⟩ := h
      simpa using congrArg (a :: ·) (ih t h2)

/-- Membership form of `List.all`. -/
theorem all_iff_mem {p : Char → Bool} {l : List Char} :
    l.all p = true ↔ ∀ c ∈ l, p c = true := by
  simp [List.all_eq_true]

/-- A `takeWhile` run satisfies its predicate throughout. -/
theorem takeWhile_all {p : Char → Bool} (l : List Char) :
    (l.takeWhile p).all p = true := by
  rw [all_iff_mem]
  exact fun c hc => List.mem_takeWhile_imp hc

/-- A successful `parseKeyHead` exposes the full structure of the matched
pattern head. -/
theorem parseKeyHead_decompS {s h key rest : List Char}
    (hp : parseKeyHead s = some (h, key, rest)) :
    ∃ w1 w2 q1 q2,
      h = lbrace :: (w1 ++ keyLit ++ w2 ++ q1 :: (key ++ [q2, ','])) ∧
      s = h ++ rest ∧
      w1.all isWs = true ∧ w2.all isWs = true ∧
      isQuoteChar q1 = true ∧ isQuoteChar q2 = true ∧
      key ≠ [] ∧ key.all isWordChar = true := by
  cases s with
  | nil => exact absurd hp (by simp [parseKeyHead])
  | cons c r0 =>
    simp only [parseKeyHead] at hp
    split at hp
    case isFalse => exact absurd hp (by simp)
    case isTrue hc =>
      split at hp
      case isFalse => exact absurd hp (by simp)
      case isTrue hk =>
        split at hp
        case h_2 => exact absurd hp (by simp)
        case h_1 q1 r4 hr3 =>
          split at hp
          case isFalse => exact absurd hp (by simp)
          case isTrue hq1 =>
            split at hp
            case isTrue => exact absurd hp (by simp)
            case isFalse hkey =>
              split at hp
              case h_2 => exact absurd hp (by simp)
              case h_1 q2 c2 rest2 hr5 =>
                split at hp
                case isFalse => exact absurd hp (by simp)
                case isTrue hq2 =>
                  simp only [Option.some.injEq, Prod.mk.injEq] at hp
                  obtain ⟨hh, hkey2, hrest⟩ := hp
                  have hb : (isQuoteChar q2 && decide (c2 = ',')) = true := hq2
                  simp only [Bool.and_eq_true, decide_eq_true_eq] at hb
                  have b1 : r0 = r0.takeWhile isWs ++ r0.dropWhile isWs :=
                    (List.takeWhile_append_dropWhile isWs r0).symm
                  have b2 : r0.dropWhile isWs =
                      keyLit ++ (r0.dropWhile isWs).drop keyLit.length :=
                    startsWithL_decomp _ _ hk
                  have b3 : (r0.dropWhile isWs).drop keyLit.length =
                      ((r0.dropWhile isWs).drop keyLit.length).takeWhile isWs ++
                      ((r0.dropWhile isWs).drop keyLit.length).dropWhile isWs :=
                    (List.takeWhile_append_dropWhile isWs _).symm
                  have b5 : r4 = r4.takeWhile isWordChar ++ r4.dropWhile isWordChar :=
                    (List.takeWhile_append_dropWhile isWordChar r4).symm
                  refine ⟨r0.takeWhile isWs,
                    ((r0.dropWhile isWs).drop keyLit.length).takeWhile isWs,
                    q1, q2, ?_, ?_, takeWhile_all _, takeWhile_all _,
                    hq1, hb.1, ?_, ?_⟩
                  · rw [← hh, hc, ← hkey2]
                  · rw [← hh, hc]
                    simp only [List.cons_append]
                    refine congrArg (lbrace :: ·) ?_
                    conv_lhs => rw [b1, b2, b3, hr3, b5, hr5]
                    rw [hb.2, hrest]
                    simp [List.append_assoc]
                  · rw [← hkey2]
                    intro hfalse
                    rw [← List.isEmpty_iff] at hfalse
                    exact hkey hfalse
                  · rw [← hkey2]
                    exact takeWhile_all _

/-- A successful `parseKeyHead` splits the scanned list, with nonempty head. -/
theorem parseKeyHead_decomp {s h key rest : List Char}
    (hp : parseKeyHead s = some (h, key, rest)) : s = h ++ rest ∧ h ≠ [] := by
  obtain ⟨w1, w2, q1, q2, hh, hs, -⟩ := parseKeyHead_decompS hp
  exact ⟨hs, by rw [hh]; simp⟩

/-- A successful `splitAtClose` splits at the first close pair, and the part
before it contains no close pair. -/
theorem splitAtClose_decomp {cl : Char} : ∀ {u b t : List Char},
    splitAtClose cl u = some (b, t) →
    u = b ++ cl :: ',' :: t ∧ noClosePair cl b = true := by
  intro u
  induction u with
  | nil => intro b t h; simp [splitAtClose] at h
  | cons c u ih =>
    intro b t h
    cases u with
    | nil => simp [splitAtClose] at h
    | cons d rest =>
      simp only [splitAtClose] at h
      split at h
      case isTrue hcd =>
        simp only [Option.some.injEq, Prod.mk.injEq] at h
        obtain ⟨rfl, rfl⟩ := h
        simp only [Bool.and_eq_true, decide_eq_true_eq] at hcd
        obtain ⟨rfl, rfl⟩ := hcd
        exact ⟨rfl, rfl⟩
      case isFalse hcd =>
        cases hsc : splitAtClose cl (d :: rest) with
        | none => rw [hsc] at h; simp at h
        | some p =>
          rw [hsc] at h
          simp only [Option.map_some', Option.some.injEq, Prod.mk.injEq] at h
          obtain ⟨rfl, rfl⟩ := h
          obtain ⟨h1, h2⟩ := ih hsc
          constructor
          · rw [List.cons_append, ← h1]
          · cases hp1 : p.1 with
            | nil => simp [noClosePair]
            | cons e tail =>
              have hd : d = e := by
                rw [hp1, List.cons_append] at h1
                exact ((List.cons.injEq _ _ _ _).mp h1).1
              rw [hp1] at h2
              simp only [noClosePair, Bool.and_eq_true, Bool.not_eq_true',
                Bool.and_eq_false_iff]
              refine ⟨?_, h2⟩
              by_cases hcc : c = cl
              · subst hcc hd
                right
                simp only [decide_eq_false_iff_not]
                intro he
                exact hcd (by simp [he])
              · left; simp [hcc]

/-- A successful field match splits the scanned list, with nonempty group 1. -/
theorem tryMatch_decomp {s g1 key after : List Char}
    (h : tryMatch s = some (g1, key, after)) : s = g1 ++ after ∧ g1 ≠ [] := by
  simp only [tryMatch] at h
  split at h
  case h_1 => exact absurd h (by simp)
  case h_2 hd key0 rest hp =>
    split at h
    case h_1 => exact absurd h (by simp)
    case h_2 b t hs =>
      simp only [Option.some.injEq, Prod.mk.injEq] at h
      obtain ⟨rfl, rfl, rfl⟩ := h
      obtain ⟨hs1, hne⟩ := parseKeyHead_decomp hp
      obtain ⟨hs2, -⟩ := splitAtClose_decomp hs
      constructor
      · rw [hs1, hs2]
        simp
      · cases hd with
        | nil => exact absurd rfl hne
        | cons x xs => simp

/-- The Assigner's scan does not depend on the fuel once the fuel reaches
the length of the scanned text. -/
theorem goProcess_fuel : ∀ (n : Nat) (s : List Char), s.length ≤ n →
    goProcess n s = goProcess s.length s := by
  intro n
  induction n using Nat.strong_induction_on with
  | _ n ih =>
    intro s hle
    cases s with
    | nil => cases n <;> rfl
    | cons c r =>
      cases n with
      | zero => simp at hle
      | succ n =>
        have hr : r.length ≤ n := by
          simpa [Nat.succ_le_succ_iff] using hle
        cases ht : tryMatch (c :: r) with
        | some trip =>
          obtain ⟨g1, key, after⟩ := trip
          obtain ⟨hdec, hne⟩ := tryMatch_decomp ht
          have hlen : after.length ≤ r.length := by
            have := congrArg List.length hdec
            simp only [List.length_cons, List.length_append] at this
            have hg : 1 ≤ g1.length := by
              cases g1 with
              | nil => exact absurd rfl hne
              | cons x xs => simp
            omega
          simp only [List.length_cons, goProcess, ht]
          rw [ih n (Nat.lt_succ_self n) after (le_trans hlen hr),
            ih r.length (Nat.lt_succ_of_le hr) after hlen]
        | none =>
          simp only [List.length_cons, goProcess, ht]
          rw [ih n (Nat.lt_succ_self n) r hr,
            ih r.length (Nat.lt_succ_of_le hr) r (le_refl _)]

/-- `insertLines` leaves a line list without label lines unchanged. -/
theorem insertLines_no_label {m : List Char} : ∀ {ls : List (List Char)},
    (∀ l ∈ ls, containsSub labelMark l = false) → insertLines m ls = ls := by
  intro ls
  induction ls with
  | nil => intro _; rfl
  | cons l ls ih =>
    intro h
    cases ls with
    | nil => rfl
    | cons l2 rest =>
      have hl : containsSub labelMark l = false := h l (by simp)
      simp only [insertLines, hl, Bool.false_eq_true, if_false]
      rw [ih (fun x hx => h x (by simp [hx]))]

/-- `insertLines` passes over a label-free, non-final segment unchanged. -/
theorem insertLines_append_of_no_label {m : List Char} : ∀ (A B : List (List Char)),
    (∀ l ∈ A, containsSub labelMark l = false) → B ≠ [] →
    insertLines m (A ++ B) = A ++ insertLines m B := by
  intro A
  induction A with
  | nil => intro B _ _; rfl
  | cons a A ih =>
    intro B hA hB
    have hne : A ++ B ≠ [] := by
      cases A <;> cases B <;> simp_all
    have ha : containsSub labelMark a = false := hA a (by simp)
    cases hAB : A ++ B with
    | nil => exact absurd hAB hne
    | cons x xs =>
      rw [List.cons_append, hAB]
      simp only [insertLines, ha, Bool.false_eq_true, if_false]
      rw [← hAB, ih B (fun l hl => hA l (by simp [hl])) hB, List.cons_append]

/-- Counterexample to C3: a field block whose label line is the final line
of the matched group never gains a mnemonic line — the Assigner leaves this
registry text unchanged although its (mnemonic-free) block has a label
line. -/
theorem c3_counterexample :
    tryMatch c3ex = some (c3g1, ("depth").toList, [','])
    ∧ containsSub mnemMark c3ex = false
    ∧ containsSub labelMark c3g1 = true
    ∧ processText c3ex = c3ex
    ∧ containsSub mnemMark (processText c3ex) = false :=
  ⟨by decide, by decide, by decide, by decide, by decide⟩

/-- C3 as amended: a matched field block without a mnemonic declaration
gains exactly one mnemonic line after its unique label line *provided that
line is not the last line of the block*; the inserted line sits immediately
after the label line at the label line's indentation width (rendered as
spaces).  A block whose label line is its last line gains nothing
(`c3_counterexample`).  The second conjunct ties this block transform to
the Assigner's output. -/
theorem c3_amended_insert_after_nonfinal_label
    (ft key : List Char) (pre post : List (List Char)) (lab : List Char)
    (h0 : containsSub mnemMark ft = false)
    (h1 : splitLines ft = pre ++ lab :: post)
    (h2 : post ≠ [])
    (h3 : containsSub labelMark lab = true)
    (h4 : ∀ l ∈ pre, containsSub labelMark l = false)
    (h5 : ∀ l ∈ post, containsSub labelMark l = false) :
    addMnemText ft key =
      joinLines (pre ++ lab :: mnemLineOf lab (resolveMnem key) :: post)
    ∧ ∀ content g1 k rest, tryMatch content = some (g1, k, rest) →
        processText content = addMnemText g1 k ++ processText rest := by
  constructor
  · simp only [addMnemText, h0, Bool.false_eq_true, if_false, h1]
    rw [insertLines_append_of_no_label pre (lab :: post) h4 (by simp)]
    cases post with
    | nil => exact absurd rfl h2
    | cons p0 ps =>
      simp only [insertLines, h3, if_true]
      rw [insertLines_no_label h5]
  · intro content g1 k rest h
    obtain ⟨hdec, hne⟩ := tryMatch_decomp h
    cases content with
    | nil => exact absurd h (by simp [tryMatch, parseKeyHead])
    | cons c r =>
      have hlen : rest.length ≤ r.length := by
        have := congrArg List.length hdec
        simp only [List.length_cons, List.length_append] at this
        have hg : 1 ≤ g1.length := by
          cases g1 with
          | nil => exact absurd rfl hne
          | cons x xs => simp
        omega
      simp only [processText, List.length_cons, goProcess, h]
      rw [goProcess_fuel r.length rest hlen]

/-- Witness for the amended C3 on a normal multi-line block with key
`depth`: exactly one mnemonic line `  mnemonic: 'DPT',` appears right after
the label line. -/
theorem c3_amended_insert_after_nonfinal_label_witness :
    containsSub mnemMark
      (("\x7b\n  key: \x27depth\x27,\n  label: \x27Depth\x27,\n\x7d").toList) = false
    ∧ addMnemText
        (("\x7b\n  key: \x27depth\x27,\n  label: \x27Depth\x27,\n\x7d").toList)
        (("depth").toList) =
      (("\x7b\n  key: \x27depth\x27,\n  label: \x27Depth\x27,\n  mnemonic: \x27DPT\x27,\n\x7d").toList) := by
  have h := c3_amended_insert_after_nonfinal_label
    (("\x7b\n  key: \x27depth\x27,\n  label: \x27Depth\x27,\n\x7d").toList)
    (("depth").toList)
    [("\x7b").toList, ("  key: \x27depth\x27,").toList]
    [("\x7d").toList]
    (("  label: \x27Depth\x27,").toList)
    (by decide) (by decide) (by decide) (by decide) (by decide) (by decide)
  exact ⟨by decide, h.1.trans (by decide)⟩

/-! ## Lemmas on the reference scanner, towards C2 -/

/-- `startsWithL` succeeds exactly on extensions of the literal. -/
theorem startsWithL_iff {p s : List Char} :
    startsWithL p s = true ↔ ∃ t, s = p ++ t := by
  constructor
  · intro h
    exact ⟨s.drop p.length, startsWithL_decomp p s h⟩
  · rintro ⟨t, rfl⟩
    induction p with
    | nil => rfl
    | cons a p ih => simpa [startsWithL] using ih

/-- `takeWhile` over an append whose first part satisfies the predicate and
whose junction character does not. -/
theorem takeWhile_append_not {p : Char → Bool} {u : List Char} {c : Char}
    {w : List Char} (hu : ∀ x ∈ u, p x = true) (hc : p c = false) :
    (u ++ c :: w).takeWhile p = u := by
  induction u with
  | nil => simp [List.takeWhile, hc]
  | cons a u ih =>
    have ha : p a = true := hu a (by simp)
    simp only [List.cons_append, List.takeWhile, ha]
    exact congrArg (a :: ·) (ih (fun x hx => hu x (by simp [hx])))

/-- `dropWhile` counterpart of `takeWhile_append_not`. -/
theorem dropWhile_append_not {p : Char → Bool} {u : List Char} {c : Char}
    {w : List Char} (hu : ∀ x ∈ u, p x = true) (hc : p c = false) :
    (u ++ c :: w).dropWhile p = c :: w := by
  induction u with
  | nil => simp [List.dropWhile, hc]
  | cons a u ih =>
    have ha : p a = true := hu a (by simp)
    simp only [List.cons_append, List.dropWhile, ha]
    exact ih (fun x hx => hu x (by simp [hx]))

/-- A successful `mkHere` exposes the matched structure. -/
theorem mkHere_decomp {s v rest : List Char}
    (h : mkHere s = some (v, rest)) :
    s = mkLit ++ (v ++ dquote :: rest) ∧ v ≠ [] := by
  simp only [mkHere] at h
  split at h
  case isFalse => exact absurd h (by simp)
  case isTrue hst =>
    split at h
    case isTrue => exact absurd h (by simp)
    case isFalse hv =>
      split at h
      case h_2 => exact absurd h (by simp)
      case h_1 c rest2 hr2 =>
        split at h
        case isFalse => exact absurd h (by simp)
        case isTrue hc =>
          simp only [Option.some.injEq, Prod.mk.injEq] at h
          obtain ⟨rfl, rfl⟩ := h
          constructor
          · have e0 : s = mkLit ++ s.drop mkLit.length := startsWithL_decomp _ _ hst
            have e1 : s.drop mkLit.length =
                (s.drop mkLit.length).takeWhile (fun c => !(c = dquote)) ++
                (s.drop mkLit.length).dropWhile (fun c => !(c = dquote)) :=
              (List.takeWhile_append_dropWhile _ _).symm
            conv_lhs => rw [e0, e1, hr2]
            rw [hc]
          · intro hfalse
            rw [← List.isEmpty_iff] at hfalse
            exact hv hfalse

/-- A successful `pickLastMK` consumes a nonempty part of the scanned list. -/
theorem pickLastMK_decomp : ∀ {n : Nat} {r v after : List Char},
    pickLastMK n r = some (v, after) → ∃ u, r = u ++ after ∧ u ≠ [] := by
  intro n
  induction n with
  | zero => intro r v after h; simp [pickLastMK] at h
  | succ n ih =>
    intro r v after h
    cases r with
    | nil => simp [pickLastMK] at h
    | cons c rest =>
      simp only [pickLastMK] at h
      split at h
      case h_1 p hp =>
        rw [Option.some.injEq] at h
        obtain ⟨u, hu, -⟩ := ih (h ▸ hp)
        exact ⟨c :: u, by rw [List.cons_append, ← hu], by simp⟩
      case h_2 hp =>
        obtain ⟨hs, hv⟩ := mkHere_decomp h
        exact ⟨mkLit ++ v ++ [dquote], by rw [hs]; simp, by simp [mkLit]⟩

/-- A successful reference match consumes a nonempty part of the text. -/
theorem tryRefMatch_decomp {s sensor v after : List Char}
    (h : tryRefMatch s = some (sensor, v, after)) :
    ∃ u, s = u ++ after ∧ u ≠ [] := by
  simp only [tryRefMatch] at h
  split at h
  case isFalse => exact absurd h (by simp)
  case isTrue hst =>
    split at h
    case isTrue => exact absurd h (by simp)
    case isFalse hsen =>
      split at h
      case h_2 => exact absurd h (by simp)
      case h_1 c rest hr2 =>
        split at h
        case isFalse => exact absurd h (by simp)
        case isTrue hc =>
          split at h
          case h_2 => exact absurd h (by simp)
          case h_1 p hp =>
            obtain ⟨pv, pafter⟩ := p
            simp only [Option.some.injEq, Prod.mk.injEq] at h
            obtain ⟨rfl, rfl, rfl⟩ := h
            obtain ⟨u, hu, -⟩ := pickLastMK_decomp hp
            refine ⟨stLit ++ (s.drop stLit.length).takeWhile isLowerAZ ++ c :: u,
              ?_, by simp [stLit]⟩
            have e0 : s = stLit ++ s.drop stLit.length := startsWithL_decomp _ _ hst
            have e1 : s.drop stLit.length =
                (s.drop stLit.length).takeWhile isLowerAZ ++
                (s.drop stLit.length).dropWhile isLowerAZ :=
              (List.takeWhile_append_dropWhile _ _).symm
            conv_lhs => rw [e0, e1, hr2, hu]
            simp

/-- The reference scan does not depend on the fuel once it reaches the
length of the scanned text. -/
theorem goScanRefs_fuel (f : List Char) : ∀ (n : Nat) (s : List Char),
    s.length ≤ n → goScanRefs f n s = goScanRefs f s.length s := by
  intro n
  induction n using Nat.strong_induction_on with
  | _ n ih =>
    intro s hle
    cases s with
    | nil => cases n <;> rfl
    | cons c r =>
      cases n with
      | zero => simp at hle
      | succ n =>
        have hr : r.length ≤ n := by
          simpa [Nat.succ_le_succ_iff] using hle
        cases ht : tryRefMatch (c :: r) with
        | some trip =>
          obtain ⟨sensor, v, after⟩ := trip
          obtain ⟨u, hdec, hne⟩ := tryRefMatch_decomp ht
          have hlen : after.length ≤ r.length := by
            have := congrArg List.length hdec
            simp only [List.length_cons, List.length_append] at this
            have hg : 1 ≤ u.length := by
              cases u with
              | nil => exact absurd rfl hne
              | cons x xs => simp
            omega
          simp only [List.length_cons, goScanRefs, ht]
          rw [ih n (Nat.lt_succ_self n) after (le_trans hlen hr),
            ih r.length (Nat.lt_succ_of_le hr) after hlen]
        | none =>
          simp only [List.length_cons, goScanRefs, ht]
          rw [ih n (Nat.lt_succ_self n) r hr,
            ih r.length (Nat.lt_succ_of_le hr) r (le_refl _)]

/-- One unmatched character is skipped by the scan. -/
theorem scanRefs_cons_of_none {f : List Char} {c : Char} {r : List Char}
    (h : tryRefMatch (c :: r) = none) :
    scanRefs f (c :: r) = scanRefs f r := by
  simp only [scanRefs, List.length_cons, goScanRefs, h]

/-- A region whose every position fails to match is skipped entirely. -/
theorem scanRefs_append_none {f : List Char} : ∀ (u v : List Char),
    (∀ i, i < u.length → tryRefMatch (u.drop i ++ v) = none) →
    scanRefs f (u ++ v) = scanRefs f v := by
  intro u
  induction u with
  | nil => intro v _; rfl
  | cons c u ih =>
    intro v h
    have h0 : tryRefMatch (c :: (u ++ v)) = none := by
      have := h 0 (by simp)
      simpa using this
    rw [List.cons_append, scanRefs_cons_of_none h0]
    exact ih v (fun i hi => by
      have := h (i + 1) (by simpa using Nat.succ_lt_succ hi)
      simpa using this)

/-- A text whose every position fails to match scans to no references. -/
theorem scanRefs_eq_nil {f : List Char} : ∀ (v : List Char),
    (∀ i, i < v.length → tryRefMatch (v.drop i) = none) →
    scanRefs f v = [] := by
  intro v
  induction v with
  | nil => intro _; rfl
  | cons c r ih =>
    intro h
    have h0 : tryRefMatch (c :: r) = none := by simpa using h 0 (by simp)
    rw [scanRefs_cons_of_none h0]
    exact ih (fun i hi => by simpa using h (i + 1) (by simpa using Nat.succ_lt_succ hi))

/-- A literal ending in `"` that matches across a quote-free run followed by
a `"` must end exactly at that `"`. -/
theorem lit_straddle (L u w : List Char)
    (honly : ∀ j < L.length - 1, ¬ (L.take (j + 1)).getLast? = some dquote)
    (hdq : dquote ∈ L)
    (hu : ∀ c ∈ u, ¬ c = dquote)
    (h : startsWithL L (u ++ dquote :: w) = true) :
    u ++ [dquote] = L := by
  obtain ⟨t, ht⟩ := startsWithL_iff.mp h
  by_cases hlen : L.length ≤ u.length
  · exfalso
    have htake : (u ++ dquote :: w).take L.length = (L ++ t).take L.length := by
      rw [ht]
    rw [List.take_append_of_le_length hlen, List.take_left] at htake
    exact hu dquote (List.mem_of_mem_take (htake ▸ hdq)) rfl
  · push_neg at hlen
    have hle : u.length + 1 ≤ L.length := hlen
    have htake : (u ++ dquote :: w).take (u.length + 1) =
        (L ++ t).take (u.length + 1) := by rw [ht]
    have hL1 : (u ++ dquote :: w).take (u.length + 1) = u ++ [dquote] := by
      have : u.length + 1 = u.length + 1 := rfl
      rw [show u.length + 1 = u.length + 1 from rfl, List.take_append]
      simp [List.take]
    have hR1 : (L ++ t).take (u.length + 1) = L.take (u.length + 1) :=
      List.take_append_of_le_length hle
    rw [hL1, hR1] at htake
    by_cases heq : u.length + 1 = L.length
    · rw [heq, List.take_length] at htake
      exact htake
    · exfalso
      have hj : u.length < L.length - 1 := by omega
      refine honly u.length hj ?_
      rw [← htake]
      simp

/-- A match attempt fails immediately unless the text starts with `s`. -/
theorem tryRef_none_head {c : Char} {w : List Char} (h : ¬ c = 's') :
    tryRefMatch (c :: w) = none := by
  cases hsw : startsWithL stLit (c :: w) with
  | false => simp [tryRefMatch, hsw]
  | true =>
    exfalso
    obtain ⟨t, ht⟩ := startsWithL_iff.mp hsw
    have hst : stLit = 's' :: (("ensorType=").toList ++ [dquote]) := by decide
    rw [hst, List.cons_append] at ht
    exact h ((List.cons.injEq _ _ _ _).mp ht).1

/-- A match attempt fails unless the text starts with `se`. -/
theorem tryRef_none_two {c1 c2 : Char} {w : List Char}
    (h : ¬ (c1 = 's' ∧ c2 = 'e')) : tryRefMatch (c1 :: c2 :: w) = none := by
  cases hsw : startsWithL stLit (c1 :: c2 :: w) with
  | false => simp [tryRefMatch, hsw]
  | true =>
    exfalso
    obtain ⟨t, ht⟩ := startsWithL_iff.mp hsw
    have hst : stLit = 's' :: 'e' :: (("nsorType=").toList ++ [dquote]) := by decide
    rw [hst, List.cons_append, List.cons_append] at ht
    have h1 := ((List.cons.injEq _ _ _ _).mp ht).1
    have h2 := ((List.cons.injEq _ _ _ _).mp ((List.cons.injEq _ _ _ _).mp ht).2).1
    exact h ⟨h1, h2⟩

/-- The `sensorType="` literal-versus-quote straddle, specialised. -/
theorem stLit_straddle {u w : List Char} (hu : ∀ c ∈ u, ¬ c = dquote)
    (h : startsWithL stLit (u ++ dquote :: w) = true) : u ++ [dquote] = stLit :=
  lit_straddle stLit u w (by decide) (by decide) hu h

/-- The `metricKey="` literal-versus-quote straddle, specialised. -/
theorem mkLit_straddle {u w : List Char} (hu : ∀ c ∈ u, ¬ c = dquote)
    (h : startsWithL mkLit (u ++ dquote :: w) = true) : u ++ [dquote] = mkLit :=
  lit_straddle mkLit u w (by decide) (by decide) hu h

/-- No match can start inside a quote-free run whose closing quote is
followed by a space: even when the run ends with `sensorType=`, the captured
`[a-z]+` group would be empty. -/
theorem tryRef_none_in_k {u : List Char} {w : List Char}
    (hu : ∀ c ∈ u, ¬ c = dquote) :
    tryRefMatch (u ++ dquote :: ' ' :: w) = none := by
  cases hsw : startsWithL stLit (u ++ dquote :: ' ' :: w) with
  | false => simp [tryRefMatch, hsw]
  | true =>
    have heq : u ++ [dquote] = stLit := stLit_straddle hu hsw
    have hs : u ++ dquote :: ' ' :: w = stLit ++ (' ' :: w) := by
      rw [← heq]; simp
    rw [hs]
    have hsw2 : startsWithL stLit (stLit ++ (' ' :: w)) = true :=
      startsWithL_iff.mpr ⟨_, rfl⟩
    simp only [tryRefMatch, hsw2, if_true, List.drop_left]
    simp [List.takeWhile, isLowerAZ]

/-- No match can start inside an all-lowercase run followed by a quote: the
literal `sensorType="` contains the non-lowercase `T`. -/
theorem tryRef_none_in_s {u : List Char} {w : List Char}
    (hu : ∀ c ∈ u, isLowerAZ c = true) :
    tryRefMatch (u ++ dquote :: w) = none := by
  cases hsw : startsWithL stLit (u ++ dquote :: w) with
  | false => simp [tryRefMatch, hsw]
  | true =>
    exfalso
    have hnd : ∀ c ∈ u, ¬ c = dquote := by
      intro c hc he
      have := hu c hc
      rw [he] at this
      exact absurd this (by decide)
    have heq : u ++ [dquote] = stLit := stLit_straddle hnd hsw
    have hT : 'T' ∈ u ++ [dquote] := by rw [heq]; decide
    rcases List.mem_append.mp hT with h1 | h2
    · exact absurd (hu 'T' h1) (by decide)
    · exact absurd h2 (by decide)

/-- Positions whose character differs from `s` never start a match. -/
theorem tryRef_none_all_no_s {u v : List Char} (hu : ∀ c ∈ u, ¬ c = 's') :
    ∀ i, i < u.length → tryRefMatch (u.drop i ++ v) = none := by
  intro i hi
  rw [List.drop_eq_getElem_cons hi, List.cons_append]
  exact tryRef_none_head (hu _ (List.getElem_mem hi))

/-- A text without the character `s` scans to no references at all. -/
theorem scanRefs_eq_nil_no_s {f v : List Char} (hv : ∀ c ∈ v, ¬ c = 's') :
    scanRefs f v = [] := by
  refine scanRefs_eq_nil v (fun i hi => ?_)
  have := @tryRef_none_all_no_s _ [] hv i hi
  simpa using this

/-- Stepping `pickLastMK` when the deeper positions already produced a
match. -/
theorem pickLastMK_cons_inner {n : Nat} {c : Char} {rest : List Char}
    {r : List Char × List Char} (hin : pickLastMK n rest = some r) :
    pickLastMK (n + 1) (c :: rest) = some r := by
  simp [pickLastMK, hin]

/-- Stepping `pickLastMK` when deeper positions and the current one fail. -/
theorem pickLastMK_cons_none {n : Nat} {c : Char} {rest : List Char}
    (hin : pickLastMK n rest = none) (hm : mkHere (c :: rest) = none) :
    pickLastMK (n + 1) (c :: rest) = none := by
  simp [pickLastMK, hin, hm]

/-- Stepping `pickLastMK` when deeper positions fail but the current one
matches. -/
theorem pickLastMK_cons_found {n : Nat} {c : Char} {rest : List Char}
    {r : List Char × List Char} (hin : pickLastMK n rest = none)
    (hm : mkHere (c :: rest) = some r) :
    pickLastMK (n + 1) (c :: rest) = some r := by
  simp [pickLastMK, hin, hm]

/-- `mkHere` fails unless the text starts with `m`. -/
theorem mkHere_none_head {c : Char} {w : List Char} (h : ¬ c = 'm') :
    mkHere (c :: w) = none := by
  cases hsw : startsWithL mkLit (c :: w) with
  | false => simp [mkHere, hsw]
  | true =>
    exfalso
    obtain ⟨t, ht⟩ := startsWithL_iff.mp hsw
    have hst : mkLit = 'm' :: (("etricKey=").toList ++ [dquote]) := by decide
    rw [hst, List.cons_append] at ht
    exact h ((List.cons.injEq _ _ _ _).mp ht).1

/-- `mkHere` at the position of the literal captures exactly the quote-free
value. -/
theorem mkHere_at {k C : List Char} (hk1 : k ≠ [])
    (hk2 : ∀ c ∈ k, ¬ c = dquote) :
    mkHere (mkLit ++ (k ++ dquote :: C)) = some (k, C) := by
  have hsw : startsWithL mkLit (mkLit ++ (k ++ dquote :: C)) = true :=
    startsWithL_iff.mpr ⟨_, rfl⟩
  have htw : (k ++ dquote :: C).takeWhile (fun c => !(c = dquote)) = k :=
    takeWhile_append_not (fun x hx => by simp [hk2 x hx]) (by simp)
  have hdw : (k ++ dquote :: C).dropWhile (fun c => !(c = dquote)) = dquote :: C :=
    dropWhile_append_not (fun x hx => by simp [hk2 x hx]) (by simp)
  have hke : k.isEmpty = false := by
    cases k with
    | nil => exact absurd rfl hk1
    | cons x xs => rfl
  simp [mkHere, hsw, List.drop_left, htw, hdw, hke]

/-- `pickLastMK` fails along a run of characters different from `m` above a
failing deeper scan. -/
theorem pickLast_none_chain {rest : List Char} : ∀ (p : List Char) (n : Nat),
    (∀ c ∈ p, ¬ c = 'm') → pickLastMK n rest = none →
    pickLastMK (n + p.length) (p ++ rest) = none := by
  intro p
  induction p with
  | nil => intro n _ h; simpa using h
  | cons c p ih =>
    intro n hp h
    have : n + (c :: p).length = (n + p.length) + 1 := by simp; omega
    rw [this, List.cons_append]
    exact pickLastMK_cons_none (ih n (fun x hx => hp x (by simp [hx])) h)
      (mkHere_none_head (hp c (by simp)))

/-- `pickLastMK` finds nothing inside the metric-key value or in the closing
`" />` of a widget tag. -/
theorem pickLast_none_tail : ∀ (u : List Char) (n : Nat),
    (∀ c ∈ u, ¬ c = dquote) → n ≤ u.length + 3 →
    pickLastMK n (u ++ dquote :: (" />").toList) = none := by
  intro u
  induction u with
  | nil =>
    intro n _ hn
    have hn3 : n ≤ 3 := by simpa using hn
    interval_cases n <;> decide
  | cons c u ih =>
    intro n hu hn
    cases n with
    | zero => rfl
    | succ m =>
      have hmle : m ≤ u.length + 3 := by
        simp only [List.length_cons] at hn
        omega
      have hin : pickLastMK m (u ++ dquote :: (" />").toList) = none :=
        ih m (fun x hx => hu x (by simp [hx])) hmle
      rw [List.cons_append]
      refine pickLastMK_cons_none hin ?_
      have hgoal : mkHere ((c :: u) ++ dquote :: (" />").toList) = none := by
        cases hsw : startsWithL mkLit ((c :: u) ++ dquote :: (" />").toList) with
        | false => simp only [mkHere, hsw, Bool.false_eq_true, if_false]
        | true =>
          have heq : (c :: u) ++ [dquote] = mkLit := mkLit_straddle hu hsw
          rw [show (c :: u) ++ dquote :: (" />").toList = mkLit ++ (" />").toList by
            rw [← heq]; simp]
          decide
      simpa using hgoal

/-- The match at the true position of a forward tag: sensor type first, then
metric key; the last viable `metricKey="` occurrence is the real one. -/
theorem tryRef_fwd (s k : List Char) (hs1 : s ≠ [])
    (hs2 : ∀ c ∈ s, isLowerAZ c = true) (hk1 : k ≠ [])
    (hk2 : ∀ c ∈ k, ¬ c = dquote) (hk3 : ∀ c ∈ k, ¬ c = '>') :
    tryRefMatch (stLit ++ (s ++ dquote ::
        ((" metricKey=").toList ++ dquote :: (k ++ dquote :: (" />").toList))))
      = some (s, k, (" />").toList) := by
  have hsw : startsWithL stLit (stLit ++ (s ++ dquote ::
      ((" metricKey=").toList ++ dquote :: (k ++ dquote :: (" />").toList)))) = true :=
    startsWithL_iff.mpr ⟨_, rfl⟩
  have htw : (s ++ dquote ::
      ((" metricKey=").toList ++ dquote :: (k ++ dquote :: (" />").toList))).takeWhile
        isLowerAZ = s :=
    takeWhile_append_not hs2 (by decide)
  have hdw : (s ++ dquote ::
      ((" metricKey=").toList ++ dquote :: (k ++ dquote :: (" />").toList))).dropWhile
        isLowerAZ = dquote ::
      ((" metricKey=").toList ++ dquote :: (k ++ dquote :: (" />").toList)) :=
    dropWhile_append_not hs2 (by decide)
  have hse : s.isEmpty = false := by
    cases s with
    | nil => exact absurd rfl hs1
    | cons x xs => rfl
  have hall : ∀ x ∈ (" metricKey=").toList ++ dquote :: (k ++ [dquote, ' ', '/']),
      (!(x = '>')) = true := by
    intro x hx
    simp only [List.mem_append, List.mem_cons] at hx
    rcases hx with hx | hx | hx | hx | hx | hx | hx
    · rw [show (" metricKey=").toList =
        [' ', 'm', 'e', 't', 'r', 'i', 'c', 'K', 'e', 'y', '='] from by decide] at hx
      fin_cases hx <;> decide
    · subst hx; decide
    · simp [hk3 x hx]
    · subst hx; decide
    · subst hx; decide
    · subst hx; decide
    · exact absurd hx (List.not_mem_nil x)
  have hreg : (((" metricKey=").toList ++ dquote ::
      (k ++ dquote :: (" />").toList)).takeWhile (fun c => !(c = '>'))).length
      = k.length + 15 := by
    have hsplit : (" metricKey=").toList ++ dquote :: (k ++ dquote :: (" />").toList)
        = ((" metricKey=").toList ++ dquote :: (k ++ [dquote, ' ', '/'])) ++ '>' :: [] := by
      simp [show (" />").toList = [' ', '/', '>'] from by decide]
    rw [hsplit, takeWhile_append_not hall (by decide)]
    simp [show ((" metricKey=").toList).length = 11 from by decide]
  have h1 : pickLastMK (k.length + 3) (k ++ dquote :: (" />").toList) = none :=
    pickLast_none_tail k _ hk2 (by omega)
  have h2 : pickLastMK ((k.length + 3) + 10)
      ((("etricKey=").toList ++ [dquote]) ++ (k ++ dquote :: (" />").toList)) = none := by
    have := @pickLast_none_chain (k ++ dquote :: (" />").toList)
      (("etricKey=").toList ++ [dquote]) (k.length + 3) (by decide) h1
    simpa using this
  have h3 : mkHere ('m' :: ((("etricKey=").toList ++ [dquote]) ++
      (k ++ dquote :: (" />").toList))) = some (k, (" />").toList) := by
    rw [show 'm' :: ((("etricKey=").toList ++ [dquote]) ++
        (k ++ dquote :: (" />").toList)) = mkLit ++ (k ++ dquote :: (" />").toList) by
      simp [show mkLit = 'm' :: (("etricKey=").toList ++ [dquote]) from by decide]]
    exact mkHere_at hk1 hk2
  have h4 : pickLastMK ((k.length + 13) + 1) ('m' :: ((("etricKey=").toList ++ [dquote]) ++
      (k ++ dquote :: (" />").toList))) = some (k, (" />").toList) :=
    pickLastMK_cons_found (by simpa using h2) h3
  have h5 : pickLastMK ((k.length + 14) + 1) (' ' :: 'm' ::
      ((("etricKey=").toList ++ [dquote]) ++ (k ++ dquote :: (" />").toList)))
      = some (k, (" />").toList) :=
    pickLastMK_cons_inner h4
  have hM : (" metricKey=").toList ++ dquote :: (k ++ dquote :: (" />").toList)
      = ' ' :: 'm' :: ((("etricKey=").toList ++ [dquote]) ++
        (k ++ dquote :: (" />").toList)) := by
    simp [show (" metricKey=").toList = ' ' :: 'm' :: ("etricKey=").toList from by decide]
  simp only [tryRefMatch, hsw, if_true, List.drop_left, htw, hdw, hse,
    Bool.false_eq_true, if_false]
  rw [hreg, hM]
  rw [show k.length + 15 = (k.length + 14) + 1 from rfl, h5]

/-- At the true `sensorType="` position of a reversed tag nothing follows
but `" />`, so no `metricKey="` is found and the match fails. -/
theorem tryRef_none_rev_true {s : List Char}
    (hs2 : ∀ c ∈ s, isLowerAZ c = true) :
    tryRefMatch (stLit ++ (s ++ dquote :: (" />").toList)) = none := by
  have hsw : startsWithL stLit (stLit ++ (s ++ dquote :: (" />").toList)) = true :=
    startsWithL_iff.mpr ⟨_, rfl⟩
  have htw : (s ++ dquote :: (" />").toList).takeWhile isLowerAZ = s :=
    takeWhile_append_not hs2 (by decide)
  have hdw : (s ++ dquote :: (" />").toList).dropWhile isLowerAZ
      = dquote :: (" />").toList :=
    dropWhile_append_not hs2 (by decide)
  simp only [tryRefMatch, hsw, if_true, List.drop_left, htw, hdw]
  cases hse : s.isEmpty with
  | true => simp
  | false =>
    simp only [Bool.false_eq_true, if_false]
    have hpk : pickLastMK 2 [' ', '/', '>'] = none := by decide
    simp [hpk]

/-- A matched position contributes one (suffix-stripped) reference and the
scan resumes after the match. -/
theorem scanRefs_cons_of_some {f s sensor v after : List Char}
    (h : tryRefMatch s = some (sensor, v, after)) :
    scanRefs f s = ⟨f, sensor, stripVirtual v⟩ :: scanRefs f after := by
  obtain ⟨u, hdec, hne⟩ := tryRefMatch_decomp h
  cases s with
  | nil =>
    have hnil : tryRefMatch ([] : List Char) = none := by decide
    rw [hnil] at h
    exact absurd h (by simp)
  | cons c r =>
    have hlen : after.length ≤ r.length := by
      have := congrArg List.length hdec
      simp only [List.length_cons, List.length_append] at this
      have hg : 1 ≤ u.length := by
        cases u with
        | nil => exact absurd rfl hne
        | cons x xs => simp
      omega
    simp only [scanRefs, List.length_cons, goScanRefs, h]
    rw [goScanRefs_fuel f r.length after hlen]

/-- Counterexample to C2: a single tag carrying both attributes with the
metric key first yields no extracted reference at all, while the same tag
with the attributes in the other order yields the pair. -/
theorem c2_counterexample :
    scanRefs (("AWidget.tsx").toList)
        (("<W metricKey=\"speed\" sensorType=\"wind\" />").toList) = []
    ∧ scanRefs (("AWidget.tsx").toList)
        (("<W sensorType=\"wind\" metricKey=\"speed\" />").toList)
      = [⟨("AWidget.tsx").toList, ("wind").toList, ("speed").toList⟩] :=
  ⟨by decide, by decide⟩

/-- C2 as amended: the extractor is order sensitive.  For a well-formed tag
it extracts the `(sensorType, baseMetricKey)` pair when the sensor-type
attribute precedes the metric-key attribute, and extracts nothing when the
metric-key attribute comes first. -/
theorem c2_amended_order_sensitive (file s k : List Char) (hs1 : s ≠ [])
    (hs2 : ∀ c ∈ s, isLowerAZ c = true) (hk1 : k ≠ [])
    (hk2 : ∀ c ∈ k, ¬ c = dquote) (hk3 : ∀ c ∈ k, ¬ c = '>') :
    scanRefs file (fwdTag s k) = [⟨file, s, stripVirtual k⟩]
    ∧ scanRefs file (revTag s k) = [] := by
  constructor
  · have hfwd : fwdTag s k = ("<W ").toList ++ (stLit ++ (s ++ dquote ::
        ((" metricKey=").toList ++ dquote :: (k ++ dquote :: (" />").toList)))) := by
      simp [fwdTag, stLit,
        show ("<W sensorType=").toList = ("<W ").toList ++ ("sensorType=").toList
          from by decide]
    rw [hfwd]
    rw [scanRefs_append_none (("<W ").toList) _ (tryRef_none_all_no_s (by
      intro c hc
      rw [show ("<W ").toList = ['<', 'W', ' '] from by decide] at hc
      fin_cases hc <;> decide))]
    rw [scanRefs_cons_of_some (tryRef_fwd s k hs1 hs2 hk1 hk2 hk3)]
    rw [scanRefs_eq_nil_no_s (by
      intro c hc
      rw [show (" />").toList = [' ', '/', '>'] from by decide] at hc
      fin_cases hc <;> decide)]
  · have hrev : revTag s k = ("<W metricKey=").toList ++ ((dquote :: k) ++
        (dquote :: ' ' :: (stLit ++ (s ++ dquote :: (" />").toList)))) := by
      simp [revTag, stLit,
        show (" sensorType=").toList = ' ' :: ("sensorType=").toList from by decide]
    rw [hrev]
    rw [scanRefs_append_none (("<W metricKey=").toList) _ (tryRef_none_all_no_s (by
      intro c hc
      rw [show ("<W metricKey=").toList =
        ['<', 'W', ' ', 'm', 'e', 't', 'r', 'i', 'c', 'K', 'e', 'y', '='] from by decide] at hc
      fin_cases hc <;> decide))]
    rw [scanRefs_append_none (dquote :: k) _ ?hk]
    case hk =>
      intro i hi
      cases i with
      | zero =>
        simp only [List.drop_zero, List.cons_append]
        exact tryRef_none_head (by decide)
      | succ j =>
        rw [List.drop_succ_cons]
        have hj : j < k.length := by simpa using hi
        rw [show k.drop j ++ (dquote :: ' ' :: (stLit ++ (s ++ dquote :: (" />").toList)))
            = k.drop j ++ dquote :: ' ' :: (stLit ++ (s ++ dquote :: (" />").toList))
          from rfl]
        exact tryRef_none_in_k (fun c hc => hk2 c (List.mem_of_mem_drop hc))
    rw [show (dquote :: ' ' :: (stLit ++ (s ++ dquote :: (" />").toList)))
        = (dquote :: ' ' :: stLit) ++ (s ++ dquote :: (" />").toList) from by simp]
    rw [scanRefs_append_none (dquote :: ' ' :: stLit) _ ?hmid]
    case hmid =>
      intro i hi
      cases i with
      | zero =>
        simp only [List.drop_zero, List.cons_append]
        exact tryRef_none_head (by decide)
      | succ i =>
        cases i with
        | zero =>
          simp only [List.drop_succ_cons, List.drop_zero, List.cons_append]
          exact tryRef_none_head (by decide)
        | succ i =>
          cases i with
          | zero =>
            simp only [List.drop_succ_cons, List.drop_zero]
            exact tryRef_none_rev_true hs2
          | succ j =>
            simp only [List.drop_succ_cons]
            have hj : j < 11 := by
              simp only [List.length_cons,
                show stLit.length = 12 from by decide] at hi
              omega
            rw [show stLit = 's' :: 'e' :: 'n' :: 's' :: 'o' :: 'r' :: 'T' :: 'y' ::
                'p' :: 'e' :: '=' :: dquote :: [] from by decide]
            interval_cases j <;>
              simp only [List.drop_succ_cons, List.drop_zero, List.cons_append,
                List.nil_append] <;>
              first
                | exact tryRef_none_head (by decide)
                | exact tryRef_none_two (by decide)
    rw [scanRefs_append_none s _ (fun i hi =>
      tryRef_none_in_s (fun c hc => hs2 c (List.mem_of_mem_drop hc)))]
    rw [scanRefs_eq_nil_no_s (by
      intro c hc
      simp only [List.mem_cons] at hc
      rcases hc with hc | hc
      · subst hc; decide
      · rw [show (" />").toList = [' ', '/', '>'] from by decide] at hc
        fin_cases hc <;> decide)]

/-- Witness for the amended C2 at `s = "wind"`, `k = "speed.avg"`: the
forward tag extracts `(wind, speed)` (suffix stripped), the reversed tag
extracts nothing. -/
theorem c2_amended_order_sensitive_witness :
    scanRefs (("AWidget.tsx").toList)
        (fwdTag (("wind").toList) (("speed.avg").toList))
      = [⟨("AWidget.tsx").toList, ("wind").toList, ("speed").toList⟩]
    ∧ scanRefs (("AWidget.tsx").toList)
        (revTag (("wind").toList) (("speed.avg").toList)) = [] := by
  have h := c2_amended_order_sensitive (("AWidget.tsx").toList) (("wind").toList)
    (("speed.avg").toList) (by decide) (by decide) (by decide) (by decide) (by decide)
  exact ⟨h.1.trans (by decide), h.2⟩

/-! ## Lemmas on the alarm remover, towards C6 and C7 -/

/-- Reconstruction form of `splitAtClose`. -/
theorem splitAtClose_intro {cl : Char} (hcl : ¬ cl = ',') : ∀ {b t : List Char},
    noClosePair cl b = true → splitAtClose cl (b ++ cl :: ',' :: t) = some (b, t) := by
  intro b
  induction b with
  | nil => intro t _; simp [splitAtClose]
  | cons c b' ih =>
    intro t hb
    cases b' with
    | nil =>
      simp only [List.nil_append, List.cons_append, splitAtClose]
      rw [if_neg (by simp [hcl])]
      simp [splitAtClose]
    | cons e b'' =>
      have hb2 := hb
      simp only [noClosePair, Bool.and_eq_true, Bool.not_eq_true',
        Bool.and_eq_false_iff] at hb2
      obtain ⟨hpair, htail⟩ := hb2
      simp only [List.cons_append, splitAtClose]
      rw [if_neg (by
        simp only [Bool.and_eq_true, decide_eq_true_eq]
        rintro ⟨rfl, rfl⟩
        rcases hpair with h1 | h2
        · simp at h1
        · simp at h2)]
      have := @ih t htail
      show Option.map (fun p => (c :: p.1, p.2))
        (splitAtClose cl ((e :: b'') ++ cl :: ',' :: t)) = some (c :: e :: b'', t)
      rw [this]
      rfl

/-- `splitAtClose` fails exactly when no close pair exists. -/
theorem splitAtClose_none_iff {cl : Char} : ∀ {u : List Char},
    splitAtClose cl u = none ↔ hasClosePair cl u = false := by
  intro u
  induction u with
  | nil => simp [splitAtClose, hasClosePair]
  | cons c u ih =>
    cases u with
    | nil => simp [splitAtClose, hasClosePair]
    | cons d rest =>
      simp only [splitAtClose, hasClosePair]
      by_cases hcd : (c = cl && d = ',') = true
      · simp [hcd]
      · rw [if_neg hcd]
        rw [Bool.not_eq_true] at hcd
        simp only [hcd, Bool.false_or]
        cases hsc : splitAtClose cl (d :: rest) with
        | none => simpa [hsc] using ih.mp hsc ▸ (by simp [ih.mp hsc])
        | some p => simp [hsc, ← ih, hsc]

/-- A close pair inside the text guarantees a successful split. -/
theorem splitAtClose_isSome {cl : Char} {u : List Char}
    (h : hasClosePair cl u = true) : ∃ p, splitAtClose cl u = some p := by
  cases hs : splitAtClose cl u with
  | none => rw [splitAtClose_none_iff.mp hs] at h; exact absurd h (by simp)
  | some p => exact ⟨p, rfl⟩

/-- An explicit close pair witnesses `hasClosePair`. -/
theorem hasClosePair_of_pair (cl : Char) : ∀ (y z : List Char),
    hasClosePair cl (y ++ cl :: ',' :: z) = true := by
  intro y
  induction y with
  | nil => intro z; simp [hasClosePair]
  | cons a y ih =>
    intro z
    cases hy : y ++ cl :: ',' :: z with
    | nil => exact absurd hy (by cases y <;> simp)
    | cons b w =>
      rw [List.cons_append, hy]
      simp only [hasClosePair, Bool.or_eq_true]
      right
      rw [← hy]
      exact ih z

/-- A successful `parseAlarmHead` exposes the head structure. -/
theorem parseAlarmHead_decompS {s pfx rest : List Char}
    (h : parseAlarmHead s = some (pfx, rest)) :
    ∃ w, pfx = alarmLit ++ w ++ [lbrack] ∧ w.all isWs = true ∧ s = pfx ++ rest := by
  simp only [parseAlarmHead] at h
  split at h
  case isFalse => exact absurd h (by simp)
  case isTrue hst =>
    split at h
    case h_2 => exact absurd h (by simp)
    case h_1 c rest2 hr1 =>
      split at h
      case isFalse => exact absurd h (by simp)
      case isTrue hc =>
        simp only [Option.some.injEq, Prod.mk.injEq] at h
        obtain ⟨hpfx, hrest⟩ := h
        refine ⟨(s.drop alarmLit.length).takeWhile isWs, ?_, takeWhile_all _, ?_⟩
        · rw [← hpfx]
        · have e0 : s = alarmLit ++ s.drop alarmLit.length :=
            startsWithL_decomp _ _ hst
          have e1 : s.drop alarmLit.length =
              (s.drop alarmLit.length).takeWhile isWs ++
              (s.drop alarmLit.length).dropWhile isWs :=
            (List.takeWhile_append_dropWhile _ _).symm
          rw [← hpfx, ← hrest, e0]
          have e2 : List.dropWhile isWs (List.drop alarmLit.length s) = lbrack :: rest2 := by
            rw [hr1, hc]
          conv_lhs => rw [e1, e2]
          simp

/-- Reconstruction form of `parseAlarmHead`. -/
theorem parseAlarmHead_intro {w rest : List Char} (hw : w.all isWs = true) :
    parseAlarmHead (alarmLit ++ (w ++ lbrack :: rest))
      = some (alarmLit ++ w ++ [lbrack], rest) := by
  have hst : startsWithL alarmLit (alarmLit ++ (w ++ lbrack :: rest)) = true :=
    startsWithL_iff.mpr ⟨_, rfl⟩
  have hwmem : ∀ x ∈ w, isWs x = true := all_iff_mem.mp hw
  have htw : (w ++ lbrack :: rest).takeWhile isWs = w :=
    takeWhile_append_not hwmem (by decide)
  have hdw : (w ++ lbrack :: rest).dropWhile isWs = lbrack :: rest :=
    dropWhile_append_not hwmem (by decide)
  simp only [parseAlarmHead, hst, if_true, List.drop_left, htw, hdw]

/-- A successful `tryAlarm` exposes the full matched structure. -/
theorem tryAlarm_decomp {s pfx body after : List Char}
    (h : tryAlarm s = some (pfx, body, after)) :
    s = pfx ++ body ++ closeLit ++ after ∧ pfx ≠ [] ∧
    (∃ w, pfx = alarmLit ++ w ++ [lbrack] ∧ w.all isWs = true) ∧
    noClosePair rbrack body = true := by
  simp only [tryAlarm] at h
  split at h
  case h_1 => exact absurd h (by simp)
  case h_2 pfx0 rest0 hp =>
    split at h
    case h_1 => exact absurd h (by simp)
    case h_2 b t hs =>
      simp only [Option.some.injEq, Prod.mk.injEq] at h
      obtain ⟨rfl, rfl, rfl⟩ := h
      obtain ⟨w, hpfx, hw, hdec⟩ := parseAlarmHead_decompS hp
      obtain ⟨hrest, hnc⟩ := splitAtClose_decomp hs
      refine ⟨?_, ?_, ⟨w, hpfx, hw⟩, hnc⟩
      · rw [hdec, hrest, closeLit]
        simp
      · rw [hpfx]
        simp

/-- Reconstruction form of `tryAlarm`. -/
theorem tryAlarm_intro {w body after : List Char} (hw : w.all isWs = true)
    (hb : noClosePair rbrack body = true) :
    tryAlarm (alarmLit ++ (w ++ lbrack :: (body ++ rbrack :: ',' :: after)))
      = some (alarmLit ++ w ++ [lbrack], body, after) := by
  simp only [tryAlarm, parseAlarmHead_intro hw]
  rw [splitAtClose_intro (by decide) hb]

/-- Length bound for a successful alarm match. -/
theorem tryAlarm_len {c : Char} {r pfx body after : List Char}
    (h : tryAlarm (c :: r) = some (pfx, body, after)) :
    after.length ≤ r.length := by
  obtain ⟨hdec, hne, -, -⟩ := tryAlarm_decomp h
  have := congrArg List.length hdec
  simp only [List.length_cons, List.length_append, closeLit] at this
  have hg : 1 ≤ pfx.length := by
    cases pfx with
    | nil => exact absurd rfl hne
    | cons x xs => simp
  omega

/-- The Remover's scan does not depend on surplus fuel. -/
theorem goRemove_fuel : ∀ (n : Nat) (s : List Char), s.length ≤ n →
    goRemove n s = goRemove s.length s := by
  intro n
  induction n using Nat.strong_induction_on with
  | _ n ih =>
    intro s hle
    cases s with
    | nil => cases n <;> rfl
    | cons c r =>
      cases n with
      | zero => simp at hle
      | succ n =>
        have hr : r.length ≤ n := by simpa [Nat.succ_le_succ_iff] using hle
        cases ht : tryAlarm (c :: r) with
        | some trip =>
          obtain ⟨pfx, body, after⟩ := trip
          have hlen := tryAlarm_len ht
          simp only [List.length_cons, goRemove, ht]
          rw [ih n (Nat.lt_succ_self n) after (le_trans hlen hr),
            ih r.length (Nat.lt_succ_of_le hr) after hlen]
        | none =>
          simp only [List.length_cons, goRemove, ht]
          rw [ih n (Nat.lt_succ_self n) r hr,
            ih r.length (Nat.lt_succ_of_le hr) r (le_refl _)]

/-- The cleanliness scan does not depend on surplus fuel. -/
theorem cleanGo_fuel : ∀ (n : Nat) (s : List Char), s.length ≤ n →
    cleanGo n s = cleanGo s.length s := by
  intro n
  induction n using Nat.strong_induction_on with
  | _ n ih =>
    intro s hle
    cases s with
    | nil => cases n <;> rfl
    | cons c r =>
      cases n with
      | zero => simp at hle
      | succ n =>
        have hr : r.length ≤ n := by simpa [Nat.succ_le_succ_iff] using hle
        cases ht : tryAlarm (c :: r) with
        | some trip =>
          obtain ⟨pfx, body, after⟩ := trip
          have hlen := tryAlarm_len ht
          simp only [List.length_cons, cleanGo, ht]
          rw [ih n (Nat.lt_succ_self n) after (le_trans hlen hr),
            ih r.length (Nat.lt_succ_of_le hr) after hlen]
        | none =>
          simp only [List.length_cons, cleanGo, ht]
          rw [ih n (Nat.lt_succ_self n) r hr,
            ih r.length (Nat.lt_succ_of_le hr) r (le_refl _)]

/-- The piece decomposition does not depend on surplus fuel. -/
theorem goPieces_fuel : ∀ (n : Nat) (s : List Char), s.length ≤ n →
    goPieces n s = goPieces s.length s := by
  intro n
  induction n using Nat.strong_induction_on with
  | _ n ih =>
    intro s hle
    cases s with
    | nil => cases n <;> rfl
    | cons c r =>
      cases n with
      | zero => simp at hle
      | succ n =>
        have hr : r.length ≤ n := by simpa [Nat.succ_le_succ_iff] using hle
        cases ht : tryAlarm (c :: r) with
        | some trip =>
          obtain ⟨pfx, body, after⟩ := trip
          have hlen := tryAlarm_len ht
          simp only [List.length_cons, goPieces, ht]
          rw [ih n (Nat.lt_succ_self n) after (le_trans hlen hr),
            ih r.length (Nat.lt_succ_of_le hr) after hlen]
        | none =>
          simp only [List.length_cons, goPieces, ht]
          rw [ih n (Nat.lt_succ_self n) r hr,
            ih r.length (Nat.lt_succ_of_le hr) r (le_refl _)]

/-- Step equations of the three scans, in canonical-fuel form. -/
theorem removeText_cons_none {c : Char} {r : List Char}
    (h : tryAlarm (c :: r) = none) : removeText (c :: r) = c :: removeText r := by
  simp only [removeText, List.length_cons, goRemove, h]

/-- Matched step of the Remover. -/
theorem removeText_cons_some {c : Char} {r pfx body after : List Char}
    (h : tryAlarm (c :: r) = some (pfx, body, after)) :
    removeText (c :: r) = pfx ++ filterMnemLines body ++ closeLit ++ removeText after := by
  simp only [removeText, List.length_cons, goRemove, h]
  rw [goRemove_fuel r.length after (tryAlarm_len h)]

/-- Unmatched step of the cleanliness scan. -/
theorem alarmClean_cons_none {c : Char} {r : List Char}
    (h : tryAlarm (c :: r) = none) : alarmClean (c :: r) = alarmClean r := by
  simp only [alarmClean, List.length_cons, cleanGo, h]

/-- Matched step of the cleanliness scan. -/
theorem alarmClean_cons_some {c : Char} {r pfx body after : List Char}
    (h : tryAlarm (c :: r) = some (pfx, body, after)) :
    alarmClean (c :: r) =
      (((splitLines body).all (fun l => !(containsSub mnemMark l))) && alarmClean after) := by
  simp only [alarmClean, List.length_cons, cleanGo, h]
  rw [cleanGo_fuel r.length after (tryAlarm_len h)]

/-- Unmatched step of the decomposition. -/
theorem pieces_cons_none {c : Char} {r : List Char}
    (h : tryAlarm (c :: r) = none) : pieces (c :: r) = consPlain c (pieces r) := by
  simp only [pieces, List.length_cons, goPieces, h]

/-- Matched step of the decomposition. -/
theorem pieces_cons_some {c : Char} {r pfx body after : List Char}
    (h : tryAlarm (c :: r) = some (pfx, body, after)) :
    pieces (c :: r) = .span pfx body :: pieces after := by
  simp only [pieces, List.length_cons, goPieces, h]
  rw [goPieces_fuel r.length after (tryAlarm_len h)]

/-- `origAll` over a prepended plain character. -/
theorem origAll_consPlain (c : Char) (ps : List RPiece) :
    origAll (consPlain c ps) = c :: origAll ps := by
  cases ps with
  | nil => rfl
  | cons p ps =>
    cases p with
    | plain u => simp [consPlain, origAll, origPiece]
    | span pfx body => simp [consPlain, origAll, origPiece]

/-- `renderAll` over a prepended plain character. -/
theorem renderAll_consPlain (c : Char) (ps : List RPiece) :
    renderAll (consPlain c ps) = c :: renderAll ps := by
  cases ps with
  | nil => rfl
  | cons p ps =>
    cases p with
    | plain u => simp [consPlain, renderAll, renderPiece]
    | span pfx body => simp [consPlain, renderAll, renderPiece]

/-- The decomposition reconstructs its input. -/
theorem origAll_pieces : ∀ (s : List Char), origAll (pieces s) = s := by
  suffices h : ∀ (n : Nat) (s : List Char), s.length ≤ n → origAll (pieces s) = s by
    intro s
    exact h s.length s (le_refl _)
  intro n
  induction n using Nat.strong_induction_on with
  | _ n ih =>
    intro s hle
    cases s with
    | nil => rfl
    | cons c r =>
      have hr : r.length + 1 ≤ n := by simpa using hle
      cases ht : tryAlarm (c :: r) with
      | some trip =>
        obtain ⟨pfx, body, after⟩ := trip
        obtain ⟨hdec, -, -, -⟩ := tryAlarm_decomp ht
        have hlen := tryAlarm_len ht
        rw [pieces_cons_some ht]
        have := ih r.length (by omega) after (by omega)
        simp only [origAll, List.map_cons, List.flatten_cons, origPiece]
        rw [show (List.map origPiece (pieces after)).flatten = origAll (pieces after) from rfl,
          this]
        exact hdec.symm
      | none =>
        rw [pieces_cons_none ht, origAll_consPlain]
        have := ih r.length (by omega) r (le_refl _)
        rw [this]

/-- The rendered decomposition is exactly the Remover's output. -/
theorem renderAll_pieces : ∀ (s : List Char), renderAll (pieces s) = removeText s := by
  suffices h : ∀ (n : Nat) (s : List Char), s.length ≤ n →
      renderAll (pieces s) = removeText s by
    intro s
    exact h s.length s (le_refl _)
  intro n
  induction n using Nat.strong_induction_on with
  | _ n ih =>
    intro s hle
    cases s with
    | nil => rfl
    | cons c r =>
      have hr : r.length + 1 ≤ n := by simpa using hle
      cases ht : tryAlarm (c :: r) with
      | some trip =>
        obtain ⟨pfx, body, after⟩ := trip
        have hlen := tryAlarm_len ht
        rw [pieces_cons_some ht, removeText_cons_some ht]
        have := ih r.length (by omega) after (by omega)
        simp only [renderAll, List.map_cons, List.flatten_cons, renderPiece]
        rw [show (List.map renderPiece (pieces after)).flatten = renderAll (pieces after) from rfl,
          this]
      | none =>
        rw [pieces_cons_none ht, renderAll_consPlain, removeText_cons_none ht]
        have := ih r.length (by omega) r (le_refl _)
        rw [this]

/-- Prepending a failing plain character preserves well-formedness. -/
theorem wfPieces_consPlain {c : Char} {ps : List RPiece}
    (h0 : tryAlarm (c :: origAll ps) = none) (h : wfPieces ps) :
    wfPieces (consPlain c ps) := by
  cases ps with
  | nil =>
    refine ⟨by simp, ?_, Or.inl rfl, trivial⟩
    intro i hi
    have hi0 : i = 0 := by simpa using hi
    subst hi0
    simpa using h0
  | cons p ps2 =>
    cases p with
    | plain u =>
      obtain ⟨hne, hfail, hguard, hwf⟩ := h
      refine ⟨by simp, ?_, hguard, hwf⟩
      intro i hi
      cases i with
      | zero =>
        have : origAll (RPiece.plain u :: ps2) = u ++ origAll ps2 := by
          simp [origAll, origPiece]
        rw [this] at h0
        simpa using h0
      | succ j =>
        have hj : j < u.length := by simpa using hi
        simpa using hfail j hj
    | span pfx body =>
      refine ⟨by simp, ?_, Or.inr ⟨pfx, body, ps2, rfl⟩, h⟩
      intro i hi
      have hi0 : i = 0 := by simpa using hi
      subst hi0
      simpa using h0

/-- The decomposition of any text is well formed. -/
theorem wfPieces_pieces : ∀ (s : List Char), wfPieces (pieces s) := by
  suffices h : ∀ (n : Nat) (s : List Char), s.length ≤ n → wfPieces (pieces s) by
    intro s
    exact h s.length s (le_refl _)
  intro n
  induction n using Nat.strong_induction_on with
  | _ n ih =>
    intro s hle
    cases s with
    | nil => exact trivial
    | cons c r =>
      have hr : r.length + 1 ≤ n := by simpa using hle
      cases ht : tryAlarm (c :: r) with
      | some trip =>
        obtain ⟨pfx, body, after⟩ := trip
        obtain ⟨-, -, hstru, hnc⟩ := tryAlarm_decomp ht
        have hlen := tryAlarm_len ht
        rw [pieces_cons_some ht]
        exact ⟨hstru, hnc, ih r.length (by omega) after (by omega)⟩
      | none =>
        rw [pieces_cons_none ht]
        refine wfPieces_consPlain ?_ (ih r.length (by omega) r (le_refl _))
        rw [origAll_pieces r]
        exact ht

/-- `noClosePair` is closed under dropping the head. -/
theorem noClosePair_tail {cl c : Char} : ∀ {r : List Char},
    noClosePair cl (c :: r) = true → noClosePair cl r = true := by
  intro r h
  cases r with
  | nil => rfl
  | cons d rest =>
    simp only [noClosePair, Bool.and_eq_true] at h
    exact h.2

/-- `splitLines` on a newline head. -/
theorem splitLines_cons_nl (rest : List Char) :
    splitLines (nl :: rest) = [] :: splitLines rest := by
  simp [splitLines]

/-- `splitLines` on a non-newline head prepends to the first line. -/
theorem splitLines_cons_of_ne {c : Char} (hc : ¬ c = nl) {rest l : List Char}
    {ls : List (List Char)} (h : splitLines rest = l :: ls) :
    splitLines (c :: rest) = (c :: l) :: ls := by
  simp only [splitLines]
  rw [if_neg hc, h]

/-- `splitLines` never returns the empty list. -/
theorem splitLines_ne_nil : ∀ (s : List Char), splitLines s ≠ [] := by
  intro s
  induction s with
  | nil => simp [splitLines]
  | cons c rest ih =>
    by_cases hc : c = nl
    · subst hc
      rw [splitLines_cons_nl]
      simp
    · cases h : splitLines rest with
      | nil => exact absurd h ih
      | cons l ls =>
        rw [splitLines_cons_of_ne hc h]
        simp

/-- Every line produced by `splitLines` is newline-free. -/
theorem splitLines_no_nl : ∀ (s : List Char), ∀ l ∈ splitLines s,
    l.all (fun c => c != nl) = true := by
  intro s
  induction s with
  | nil =>
    intro l hl
    simp [splitLines] at hl
    subst hl
    rfl
  | cons c rest ih =>
    intro l hl
    by_cases hc : c = nl
    · subst hc
      rw [splitLines_cons_nl] at hl
      rcases List.mem_cons.1 hl with h1 | h2
      · subst h1; rfl
      · exact ih l h2
    · cases h : splitLines rest with
      | nil => exact absurd h (splitLines_ne_nil rest)
      | cons l1 ls =>
        rw [splitLines_cons_of_ne hc h] at hl
        rcases List.mem_cons.1 hl with h1 | h2
        · subst h1
          have h1all : l1.all (fun c => c != nl) = true :=
            ih l1 (by rw [h]; exact List.mem_cons_self _ _)
          simp [List.all_cons, h1all, hc]
        · exact ih l (by rw [h]; exact List.mem_cons_of_mem _ h2)

/-- A newline-free text is a single line. -/
theorem splitLines_of_no_nl : ∀ (l : List Char),
    l.all (fun c => c != nl) = true → splitLines l = [l] := by
  intro l
  induction l with
  | nil => intro _; rfl
  | cons c r ih =>
    intro h
    simp only [List.all_cons, Bool.and_eq_true] at h
    have hc : ¬ c = nl := by simpa using h.1
    rw [splitLines_cons_of_ne hc (ih h.2)]

/-- Splitting after a newline-free first segment. -/
theorem splitLines_append_nl : ∀ (u z : List Char),
    u.all (fun c => c != nl) = true → splitLines (u ++ nl :: z) = u :: splitLines z := by
  intro u
  induction u with
  | nil => intro z _; simpa using splitLines_cons_nl z
  | cons c r ih =>
    intro z h
    simp only [List.all_cons, Bool.and_eq_true] at h
    have hc : ¬ c = nl := by simpa using h.1
    rw [List.cons_append, splitLines_cons_of_ne hc (ih z h.2)]

/-- `splitLines` inverts `joinLines` on nonempty lists of newline-free lines. -/
theorem splitLines_joinLines : ∀ (L : List (List Char)), L ≠ [] →
    (∀ l ∈ L, l.all (fun c => c != nl) = true) → splitLines (joinLines L) = L := by
  intro L
  induction L with
  | nil => intro h _; exact absurd rfl h
  | cons l L2 ih =>
    intro _ hall
    cases L2 with
    | nil =>
      rw [show joinLines [l] = l from rfl]
      exact splitLines_of_no_nl l (hall l (List.mem_cons_self _ _))
    | cons l2 L3 =>
      rw [show joinLines (l :: l2 :: L3) = l ++ nl :: joinLines (l2 :: L3) from rfl]
      rw [splitLines_append_nl l _ (hall l (List.mem_cons_self _ _))]
      rw [ih (by simp) (fun x hx => hall x (List.mem_cons_of_mem _ hx))]

/-- A newline head never opens a close pair other than through its tail. -/
theorem noClosePair_cons_nl {cl : Char} (hcl : ¬ cl = nl) {z : List Char}
    (hz : noClosePair cl z = true) : noClosePair cl (nl :: z) = true := by
  cases z with
  | nil => rfl
  | cons d rest =>
    simp only [noClosePair, Bool.and_eq_true]
    refine ⟨?_, hz⟩
    have : ¬ nl = cl := fun hh => hcl hh.symm
    simp [this]

/-- Gluing two close-pair-free texts with a newline stays close-pair-free. -/
theorem noClosePair_append_nl {cl : Char} (hcl : ¬ cl = nl) : ∀ (u z : List Char),
    noClosePair cl u = true → noClosePair cl z = true →
    noClosePair cl (u ++ nl :: z) = true := by
  intro u
  induction u with
  | nil => intro z _ hz; exact noClosePair_cons_nl hcl hz
  | cons a u' ih =>
    intro z hu hz
    cases u' with
    | nil =>
      simp only [List.cons_append, List.nil_append, noClosePair, Bool.and_eq_true]
      refine ⟨?_, noClosePair_cons_nl hcl hz⟩
      have : ¬ nl = ',' := by decide
      simp [this]
    | cons b u'' =>
      simp only [List.cons_append, noClosePair, Bool.and_eq_true] at hu ⊢
      exact ⟨hu.1, ih z hu.2 hz⟩

/-- Each line of a close-pair-free text is close-pair-free. -/
theorem noClosePair_splitLines {cl : Char} : ∀ (s : List Char),
    noClosePair cl s = true → ∀ l ∈ splitLines s, noClosePair cl l = true := by
  intro s
  induction s with
  | nil =>
    intro _ l hl
    simp [splitLines] at hl
    subst hl
    rfl
  | cons c rest ih =>
    intro h l hl
    have hrest : noClosePair cl rest = true := noClosePair_tail h
    by_cases hc : c = nl
    · subst hc
      rw [splitLines_cons_nl] at hl
      rcases List.mem_cons.1 hl with h1 | h2
      · subst h1; rfl
      · exact ih hrest l h2
    · cases hs : splitLines rest with
      | nil => exact absurd hs (splitLines_ne_nil rest)
      | cons l1 ls =>
        rw [splitLines_cons_of_ne hc hs] at hl
        rcases List.mem_cons.1 hl with h1 | h2
        · subst h1
          have hl1 : noClosePair cl l1 = true :=
            ih hrest l1 (by rw [hs]; exact List.mem_cons_self _ _)
          cases rest with
          | nil =>
            simp only [splitLines] at hs
            injection hs with ha hb
            subst ha
            rfl
          | cons r0 rest2 =>
            by_cases hr0 : r0 = nl
            · subst hr0
              rw [splitLines_cons_nl] at hs
              injection hs with ha hb
              subst ha
              rfl
            · cases hs2 : splitLines rest2 with
              | nil => exact absurd hs2 (splitLines_ne_nil rest2)
              | cons l2 ls2 =>
                rw [splitLines_cons_of_ne hr0 hs2] at hs
                injection hs with ha hb
                subst ha
                simp only [noClosePair, Bool.and_eq_true] at h ⊢
                exact ⟨h.1, hl1⟩
        · exact ih hrest l (by rw [hs]; exact List.mem_cons_of_mem _ h2)

/-- Joining close-pair-free lines yields a close-pair-free text, as long as the
delimiter is not the newline itself. -/
theorem noClosePair_joinLines {cl : Char} (hcl : ¬ cl = nl) :
    ∀ (L : List (List Char)), (∀ l ∈ L, noClosePair cl l = true) →
    noClosePair cl (joinLines L) = true := by
  intro L
  induction L with
  | nil => intro _; rfl
  | cons l L2 ih =>
    intro hall
    cases L2 with
    | nil => exact hall l (List.mem_cons_self _ _)
    | cons l2 L3 =>
      rw [show joinLines (l :: l2 :: L3) = l ++ nl :: joinLines (l2 :: L3) from rfl]
      exact noClosePair_append_nl hcl l _ (hall l (List.mem_cons_self _ _))
        (ih (fun x hx => hall x (List.mem_cons_of_mem _ hx)))

/-- Filtering the mnemonic lines of a block body keeps it close-pair-free. -/
theorem noClosePair_filterMnem {body : List Char}
    (h : noClosePair rbrack body = true) :
    noClosePair rbrack (filterMnemLines body) = true := by
  show noClosePair rbrack
    (joinLines ((splitLines body).filter (fun l => !(containsSub mnemMark l)))) = true
  refine noClosePair_joinLines (by decide) _ ?_
  intro l hl
  exact noClosePair_splitLines body h l (List.mem_filter.1 hl).1

/-- The filtered body splits into lines none of which contains `mnemonic:`. -/
theorem filterMnem_lines_clean : ∀ (body : List Char),
    (splitLines (filterMnemLines body)).all
      (fun l => !(containsSub mnemMark l)) = true := by
  intro body
  cases hF : (splitLines body).filter (fun l => !(containsSub mnemMark l)) with
  | nil =>
    rw [show filterMnemLines body
        = joinLines ((splitLines body).filter (fun l => !(containsSub mnemMark l)))
      from rfl, hF]
    decide
  | cons l0 L0 =>
    have hmem : ∀ l ∈ l0 :: L0, l.all (fun c => c != nl) = true := by
      intro l hl
      rw [← hF] at hl
      exact splitLines_no_nl body l (List.mem_filter.1 hl).1
    rw [show filterMnemLines body
        = joinLines ((splitLines body).filter (fun l => !(containsSub mnemMark l)))
      from rfl, hF]
    rw [splitLines_joinLines (l0 :: L0) (by simp) hmem]
    simp only [List.all_eq_true]
    intro l hl
    rw [← hF] at hl
    exact (List.mem_filter.1 hl).2

/-- `hasClosePair` is preserved by prepending. -/
theorem hasClosePair_append_right {cl : Char} : ∀ (x y : List Char),
    hasClosePair cl y = true → hasClosePair cl (x ++ y) = true := by
  intro x
  induction x with
  | nil => intro y h; exact h
  | cons a x' ih =>
    intro y h
    have h2 := ih y h
    cases hxy : x' ++ y with
    | nil =>
      rw [hxy] at h2
      simp [hasClosePair] at h2
    | cons b z =>
      rw [List.cons_append, hxy]
      rw [hxy] at h2
      simp only [hasClosePair, Bool.or_eq_true]
      exact Or.inr h2

/-- Components of a successful alarm match. -/
theorem tryAlarm_some_parts {s p bb tt : List Char}
    (h : tryAlarm s = some (p, bb, tt)) :
    ∃ rest, parseAlarmHead s = some (p, rest) ∧
      splitAtClose rbrack rest = some (bb, tt) := by
  simp only [tryAlarm] at h
  split at h
  case h_1 => exact absurd h (by simp)
  case h_2 p0 r0 hp =>
    split at h
    case h_1 => exact absurd h (by simp)
    case h_2 b0 t0 hs =>
      simp only [Option.some.injEq, Prod.mk.injEq] at h
      obtain ⟨h1, h2, h3⟩ := h
      subst h1
      subst h2
      subst h3
      exact ⟨r0, hp, hs⟩

/-- The rewrite the Remover performs on later pieces cannot create an alarm
match starting inside a plain run where the original text had none. -/
theorem tryAlarm_transfer {v : List Char} {ps2 : List RPiece}
    (hv : v ≠ [])
    (hg : ps2 = [] ∨ ∃ pfx body ps3, ps2 = RPiece.span pfx body :: ps3)
    (hwf : wfPieces ps2)
    (hno : tryAlarm (v ++ origAll ps2) = none) :
    tryAlarm (v ++ renderAll ps2) = none := by
  rcases hg with hnil | ⟨pfx2, body2, ps3, hsp⟩
  · subst hnil
    simpa [origAll, renderAll] using hno
  · subst hsp
    obtain ⟨⟨w2, hpfx2, hw2⟩, hb2, hwf3⟩ := hwf
    cases ht : tryAlarm (v ++ renderAll (RPiece.span pfx2 body2 :: ps3)) with
    | none => rfl
    | some trip =>
      exfalso
      obtain ⟨p, bb, tt⟩ := trip
      obtain ⟨rest, hph, hsc⟩ := tryAlarm_some_parts ht
      obtain ⟨w, hpw, hww, hsplit⟩ := parseAlarmHead_decompS hph
      have hv1 : 0 < v.length := List.length_pos.2 hv
      by_cases hlen : p.length ≤ v.length
      · obtain ⟨v2, hv2⟩ : ∃ v2, List.drop p.length v = v2 := ⟨_, rfl⟩
        have htake : v.take p.length = p := by
          have hc := congrArg (List.take p.length) hsplit
          rwa [List.take_append_of_le_length hlen, List.take_left] at hc
        have hvsplit : v = p ++ v2 := by
          conv_lhs => rw [← List.take_append_drop p.length v]
          rw [htake, hv2]
        have hOA : origAll (RPiece.span pfx2 body2 :: ps3)
            = (pfx2 ++ body2) ++ rbrack :: ',' :: origAll ps3 := by
          simp [origAll, origPiece, closeLit, List.append_assoc]
        have hha : hasClosePair rbrack
            (v2 ++ origAll (RPiece.span pfx2 body2 :: ps3)) = true := by
          rw [hOA, show v2 ++ ((pfx2 ++ body2) ++ rbrack :: ',' :: origAll ps3)
              = (v2 ++ (pfx2 ++ body2)) ++ rbrack :: ',' :: origAll ps3
            from by simp [List.append_assoc]]
          exact hasClosePair_of_pair rbrack _ _
        obtain ⟨⟨b1, t1⟩, hs1⟩ := splitAtClose_isSome hha
        have hshape : v ++ origAll (RPiece.span pfx2 body2 :: ps3)
            = alarmLit ++ (w ++ lbrack ::
              (v2 ++ origAll (RPiece.span pfx2 body2 :: ps3))) := by
          conv_lhs => rw [hvsplit, hpw]
          simp [List.append_assoc]
        rw [hshape] at hno
        simp only [tryAlarm, parseAlarmHead_intro hww] at hno
        rw [hs1] at hno
        exact Option.noConfusion hno
      · push_neg at hlen
        have hRrest : renderAll (RPiece.span pfx2 body2 :: ps3)
            = p.drop v.length ++ rest := by
          have hc := congrArg (List.drop v.length) hsplit
          rw [List.drop_left, List.drop_append_of_le_length (le_of_lt hlen)] at hc
          exact hc
        have hrne : p.drop v.length ≠ [] := by
          intro hempty
          have hl2 := congrArg List.length hempty
          rw [List.length_drop] at hl2
          simp at hl2
          omega
        obtain ⟨Rt, hRshape⟩ : ∃ Rt, renderAll (RPiece.span pfx2 body2 :: ps3)
            = 'a' :: 'l' :: Rt := by
          refine ⟨("armMetrics:").toList ++ w2 ++ lbrack ::
            (filterMnemLines body2 ++ rbrack :: ',' :: renderAll ps3), ?_⟩
          rw [show renderAll (RPiece.span pfx2 body2 :: ps3)
              = pfx2 ++ filterMnemLines body2 ++ closeLit ++ renderAll ps3 from by
            simp [renderAll, renderPiece, List.append_assoc]]
          rw [hpfx2, show alarmLit = 'a' :: 'l' :: ("armMetrics:").toList from by decide]
          simp [closeLit, List.append_assoc]
        have hKey : p.drop v.length ++ rest = 'a' :: 'l' :: Rt := by
          rw [← hRrest, hRshape]
        by_cases hk13 : v.length ≤ 13
        · have hdropp : p.drop v.length = alarmLit.drop v.length ++ (w ++ [lbrack]) := by
            rw [hpw, List.append_assoc]
            exact List.drop_append_of_le_length
              (by rw [show alarmLit.length = 13 from by decide]; exact hk13)
          rw [hdropp] at hKey
          rw [show alarmLit = ['a','l','a','r','m','M','e','t','r','i','c','s',':']
            from by decide] at hKey
          have hv13 : 1 ≤ v.length := hv1
          obtain ⟨k, hk⟩ : ∃ k, v.length = k := ⟨v.length, rfl⟩
          rw [hk] at hKey hk13 hv13
          interval_cases k <;>
            simp only [List.drop_succ_cons, List.drop_zero, List.cons_append,
              List.nil_append] at hKey <;>
            first
              | (injection hKey with h1 h2; exact absurd h1 (by decide))
              | (injection hKey with h1 h2; injection h2 with h3 h4
                 exact absurd h3 (by decide))
              | skip
          rw [List.append_assoc, List.singleton_append] at hKey
          cases w with
          | nil =>
            rw [List.nil_append] at hKey
            injection hKey with h1 h2
            exact absurd h1 (by decide)
          | cons cw w' =>
            rw [List.cons_append] at hKey
            injection hKey with h1 h2
            have hcw : isWs cw = true := all_iff_mem.mp hww cw (List.mem_cons_self _ _)
            rw [h1] at hcw
            exact absurd hcw (by decide)
        · push_neg at hk13
          obtain ⟨m, hm⟩ : ∃ m, v.length = 13 + m := ⟨v.length - 13, by omega⟩
          have h13 : (alarmLit ++ (w ++ [lbrack])).drop 13 = w ++ [lbrack] := by
            rw [show (13 : Nat) = alarmLit.length from by decide]
            exact List.drop_left _ _
          have hdropp : p.drop v.length = (w ++ [lbrack]).drop m := by
            rw [hpw, List.append_assoc, hm]
            conv_rhs => rw [← h13]
            rw [List.drop_drop]
          rw [hdropp] at hKey hrne
          cases hwl : (w ++ [lbrack]).drop m with
          | nil => exact hrne hwl
          | cons cw u =>
            rw [hwl, List.cons_append] at hKey
            injection hKey with h1 h2
            have hmem : cw ∈ w ++ [lbrack] :=
              List.drop_subset m _ (by rw [hwl]; exact List.mem_cons_self _ _)
            rcases List.mem_append.1 hmem with hcw | hcb
            · have hws : isWs cw = true := all_iff_mem.mp hww cw hcw
              rw [h1] at hws
              exact absurd hws (by decide)
            · have hcl2 : cw = lbrack := by simpa using hcb
              rw [hcl2] at h1
              exact absurd h1 (by decide)

/-- Matched step of the cleanliness scan, for an arbitrary text. -/
theorem alarmClean_some {s pfx body after : List Char}
    (h : tryAlarm s = some (pfx, body, after)) :
    alarmClean s =
      (((splitLines body).all (fun l => !(containsSub mnemMark l))) && alarmClean after) := by
  cases s with
  | nil =>
    rw [show tryAlarm [] = none from by decide] at h
    exact absurd h (by simp)
  | cons c r => exact alarmClean_cons_some h

/-- A run on which every attempt of the alarm pattern fails contributes nothing
to the cleanliness scan. -/
theorem alarmClean_append_of_fail : ∀ (u R : List Char),
    (∀ i, i < u.length → tryAlarm (u.drop i ++ R) = none) →
    alarmClean (u ++ R) = alarmClean R := by
  intro u
  induction u with
  | nil => intro R _; rfl
  | cons c u' ih =>
    intro R hfail
    have h0 : tryAlarm (c :: (u' ++ R)) = none := by
      simpa using hfail 0 (by simp)
    rw [List.cons_append, alarmClean_cons_none h0]
    refine ih R (fun i hi => ?_)
    have := hfail (i + 1) (by simpa using Nat.succ_lt_succ hi)
    simpa [List.drop_succ_cons] using this

/-- The rendering of a well-formed piece list passes the cleanliness scan. -/
theorem alarmClean_renderAll : ∀ (ps : List RPiece), wfPieces ps →
    alarmClean (renderAll ps) = true := by
  intro ps
  induction ps with
  | nil => intro _; rfl
  | cons p ps2 ih =>
    intro hwf
    cases p with
    | plain u =>
      obtain ⟨hne, hfail, hguard, hwf2⟩ := hwf
      have hRA : renderAll (RPiece.plain u :: ps2) = u ++ renderAll ps2 := by
        simp [renderAll, renderPiece]
      have hdropne : ∀ i, i < u.length → u.drop i ≠ [] := by
        intro i hi h
        have hlen := congrArg List.length h
        rw [List.length_drop] at hlen
        simp at hlen
        omega
      rw [hRA, alarmClean_append_of_fail u (renderAll ps2)
        (fun i hi => tryAlarm_transfer (hdropne i hi) hguard hwf2 (hfail i hi))]
      exact ih hwf2
    | span pfx body =>
      obtain ⟨⟨w, hpfx, hw⟩, hb, hwf2⟩ := hwf
      have hnc : noClosePair rbrack (filterMnemLines body) = true :=
        noClosePair_filterMnem hb
      have hRA : renderAll (RPiece.span pfx body :: ps2)
          = alarmLit ++ (w ++ lbrack ::
            (filterMnemLines body ++ rbrack :: ',' :: renderAll ps2)) := by
        simp [renderAll, renderPiece, hpfx, closeLit, List.append_assoc]
      rw [hRA, alarmClean_some (tryAlarm_intro hw hnc)]
      rw [filterMnem_lines_clean body, ih hwf2]
      rfl

/-- C6: for every registry text, scanning the Remover's output with the alarm
pattern finds no block whose body still contains a `mnemonic:` line; in
particular this also holds for the Remover run on the Assigner's output. -/
theorem c6_remover_output_no_alarm_mnemonics (s : List Char) :
    alarmClean (removeText s) = true ∧
    alarmClean (removeText (processText s)) = true := by
  constructor
  · rw [← renderAll_pieces s]
    exact alarmClean_renderAll (pieces s) (wfPieces_pieces s)
  · rw [← renderAll_pieces (processText s)]
    exact alarmClean_renderAll (pieces (processText s)) (wfPieces_pieces (processText s))

/-- A nonempty list has a last element. -/
theorem getLast?_some_of_ne_nil {α : Type} (l : List α) (h : l ≠ []) :
    ∃ a, l.getLast? = some a := by
  cases hl : l.getLast? with
  | none => exact absurd (List.getLast?_eq_none_iff.1 hl) h
  | some a => exact ⟨a, rfl⟩

/-- Computation rule for `joinLL` when the left part has a last line. -/
theorem joinLL_eq {xs : List (List Char)} {la y : List Char}
    {yt : List (List Char)} (h : xs.getLast? = some la) :
    joinLL xs (y :: yt) = xs.dropLast ++ (la ++ y) :: yt := by
  simp only [joinLL, h]

/-- Computation rule for `mergeM` when the left part has a last line. -/
theorem mergeM_eq {xs : List (List Char × Bool)} {la y : List Char × Bool}
    {yt : List (List Char × Bool)} (h : xs.getLast? = some la) :
    mergeM xs (y :: yt) = xs.dropLast ++ (la.1 ++ y.1, la.2 || y.2) :: yt := by
  simp only [mergeM, h]

/-- `joinLL` peels a line off a left part with at least two lines. -/
theorem joinLL_cons_left : ∀ {xs : List (List Char)} (x : List Char)
    (ys : List (List Char)), xs ≠ [] → joinLL (x :: xs) ys = x :: joinLL xs ys := by
  intro xs x ys hxs
  cases xs with
  | nil => exact absurd rfl hxs
  | cons x2 xs2 =>
    obtain ⟨la, hla⟩ := getLast?_some_of_ne_nil (x2 :: xs2) (by simp)
    have hla2 : (x :: x2 :: xs2).getLast? = some la := by
      rw [List.getLast?_cons_cons]
      exact hla
    cases ys with
    | nil => simp [joinLL, hla, hla2]
    | cons y yt =>
      rw [joinLL_eq hla2, joinLL_eq hla]
      rfl

/-- Splitting a concatenation merges the line lists at the seam. -/
theorem splitLines_append : ∀ (a b : List Char),
    splitLines (a ++ b) = joinLL (splitLines a) (splitLines b) := by
  intro a
  induction a with
  | nil =>
    intro b
    cases hb : splitLines b with
    | nil => exact absurd hb (splitLines_ne_nil b)
    | cons y yt =>
      rw [List.nil_append, hb,
        show splitLines ([] : List Char) = [[]] from rfl,
        joinLL_eq (show ([[]] : List (List Char)).getLast? = some [] from by simp)]
      simp
  | cons c a' ih =>
    intro b
    by_cases hc : c = nl
    · subst hc
      rw [List.cons_append, splitLines_cons_nl, splitLines_cons_nl, ih b,
        joinLL_cons_left _ _ (splitLines_ne_nil a')]
    · cases hsb : splitLines b with
      | nil => exact absurd hsb (splitLines_ne_nil b)
      | cons y yt =>
      cases ha : splitLines a' with
      | nil => exact absurd ha (splitLines_ne_nil a')
      | cons l ls =>
        cases ls with
        | nil =>
          have hj : splitLines (a' ++ b) = (l ++ y) :: yt := by
            rw [ih b, ha, hsb,
              joinLL_eq (show ([l] : List (List Char)).getLast? = some l from by simp)]
            simp
          rw [List.cons_append, splitLines_cons_of_ne hc hj,
            splitLines_cons_of_ne hc ha,
            joinLL_eq (show ([c :: l] : List (List Char)).getLast? = some (c :: l)
              from by simp)]
          simp
        | cons l2 ls2 =>
          have hj : splitLines (a' ++ b) = l :: joinLL (l2 :: ls2) (splitLines b) := by
            rw [ih b, ha, joinLL_cons_left _ _ (by simp)]
          rw [List.cons_append, splitLines_cons_of_ne hc hj,
            splitLines_cons_of_ne hc ha,
            joinLL_cons_left _ _ (show (l2 :: ls2 : List (List Char)) ≠ [] from by simp),
            hsb]

/-- The first components of a `mergeM` are the `joinLL` of the first
components. -/
theorem mergeM_fst : ∀ (xs ys : List (List Char × Bool)),
    (mergeM xs ys).map Prod.fst = joinLL (xs.map Prod.fst) (ys.map Prod.fst) := by
  intro xs ys
  cases hgl : xs.getLast? with
  | none =>
    have hgl2 : (xs.map Prod.fst).getLast? = none := by
      rw [List.getLast?_map, hgl]
      rfl
    cases ys with
    | nil => simp [mergeM, joinLL, hgl, hgl2]
    | cons y yt => simp [mergeM, joinLL, hgl, hgl2]
  | some la =>
    have hgl2 : (xs.map Prod.fst).getLast? = some la.1 := by
      rw [List.getLast?_map, hgl]
      rfl
    cases ys with
    | nil => simp [mergeM, joinLL, hgl, hgl2]
    | cons y yt => simp [mergeM, joinLL, hgl, hgl2, List.map_dropLast]

/-- Tagging lines and projecting back is the identity. -/
theorem map_pair_fst : ∀ (L : List (List Char)) (b : Bool),
    (L.map (fun l => (l, b))).map Prod.fst = L := by
  intro L b
  induction L with
  | nil => rfl
  | cons x xs ih => simp [ih]

/-- The flagged lines carry exactly the lines of the original text. -/
theorem mlineP_fst : ∀ (ps : List RPiece),
    (mlineP ps).map Prod.fst = splitLines (origAll ps) := by
  intro ps
  induction ps with
  | nil => rfl
  | cons p ps ih =>
    cases p with
    | plain u =>
      rw [show mlineP (RPiece.plain u :: ps)
          = mergeM ((splitLines u).map (fun l => (l, false))) (mlineP ps) from rfl,
        mergeM_fst, map_pair_fst, ih,
        show origAll (RPiece.plain u :: ps) = u ++ origAll ps from by
          simp [origAll, origPiece],
        splitLines_append u (origAll ps)]
    | span pfx body =>
      rw [show mlineP (RPiece.span pfx body :: ps)
          = mergeM ((splitLines (pfx ++ body ++ closeLit)).map (fun l => (l, true)))
            (mlineP ps) from rfl,
        mergeM_fst, map_pair_fst, ih,
        show origAll (RPiece.span pfx body :: ps)
            = (pfx ++ body ++ closeLit) ++ origAll ps from by
          simp [origAll, origPiece, List.append_assoc],
        splitLines_append (pfx ++ body ++ closeLit) (origAll ps)]

/-- `mergeM` of a nonempty left part is nonempty. -/
theorem mergeM_ne_nil {xs ys : List (List Char × Bool)} (hx : xs ≠ []) :
    mergeM xs ys ≠ [] := by
  cases hgl : xs.getLast? with
  | none =>
    cases ys with
    | nil => simpa [mergeM, hgl] using hx
    | cons y yt => simp [mergeM, hgl]
  | some la =>
    cases ys with
    | nil => simpa [mergeM, hgl] using hx
    | cons y yt => simp [mergeM, hgl]

/-- The flagged-line list is never empty. -/
theorem mlineP_ne_nil : ∀ (ps : List RPiece), mlineP ps ≠ [] := by
  intro ps
  cases ps with
  | nil => simp [mlineP]
  | cons p ps =>
    cases p with
    | plain u =>
      rw [show mlineP (RPiece.plain u :: ps)
          = mergeM ((splitLines u).map (fun l => (l, false))) (mlineP ps) from rfl]
      refine mergeM_ne_nil ?_
      intro hcon
      exact splitLines_ne_nil u (List.map_eq_nil_iff.1 hcon)
    | span pfx body =>
      rw [show mlineP (RPiece.span pfx body :: ps)
          = mergeM ((splitLines (pfx ++ body ++ closeLit)).map (fun l => (l, true)))
            (mlineP ps) from rfl]
      refine mergeM_ne_nil ?_
      intro hcon
      exact splitLines_ne_nil _ (List.map_eq_nil_iff.1 hcon)

/-- Membership in the tail is preserved by gluing a seam line in front. -/
theorem mem_tail_append_cons {l : List Char} {t : List (List Char)}
    (A : List (List Char)) (b : List Char) (h : l ∈ t) :
    l ∈ (A ++ b :: t).tail := by
  cases A with
  | nil => simpa using h
  | cons a A' =>
    simp only [List.cons_append, List.tail_cons]
    exact List.mem_append.2 (Or.inr (List.mem_cons_of_mem b h))

/-- Structural invariant of the flagged lines against the rendered text: an
untagged first line is the rendered first line, and untagged tail lines occur
among the rendered tail lines. -/
theorem mlineP_inv : ∀ (ps : List RPiece),
    (∀ l, (mlineP ps).head? = some (l, false) →
      (splitLines (renderAll ps)).head? = some l) ∧
    (∀ l, (l, false) ∈ (mlineP ps).tail → l ∈ (splitLines (renderAll ps)).tail) := by
  intro ps
  induction ps with
  | nil =>
    constructor
    · intro l hl
      simp [mlineP] at hl
      rw [show renderAll [] = [] from rfl]
      simp [splitLines, hl]
    · intro l hl
      simp [mlineP] at hl
  | cons p ps ih =>
    obtain ⟨ihB, ihC⟩ := ih
    cases hM : mlineP ps with
    | nil => exact absurd hM (mlineP_ne_nil ps)
    | cons m mt =>
    cases hL : splitLines (renderAll ps) with
    | nil => exact absurd hL (splitLines_ne_nil _)
    | cons lh lt =>
    cases p with
    | plain u =>
      obtain ⟨laU, hlaU⟩ := getLast?_some_of_ne_nil (splitLines u) (splitLines_ne_nil u)
      have hlaX : ((splitLines u).map (fun l => (l, false))).getLast?
          = some (laU, false) := by
        rw [List.getLast?_map, hlaU]
        rfl
      have hMM : mlineP (RPiece.plain u :: ps)
          = ((splitLines u).dropLast.map (fun l => (l, false)))
            ++ (laU ++ m.1, m.2) :: mt := by
        rw [show mlineP (RPiece.plain u :: ps)
            = mergeM ((splitLines u).map (fun l => (l, false))) (mlineP ps) from rfl,
          hM, mergeM_eq hlaX, List.map_dropLast]
        simp
      have hLL : splitLines (renderAll (RPiece.plain u :: ps))
          = (splitLines u).dropLast ++ (laU ++ lh) :: lt := by
        rw [show renderAll (RPiece.plain u :: ps) = u ++ renderAll ps from by
            simp [renderAll, renderPiece],
          splitLines_append u (renderAll ps), hL, joinLL_eq hlaU]
      constructor
      · intro l hl
        rw [hMM] at hl
        rw [hLL]
        cases hUd : (splitLines u).dropLast with
        | nil =>
          rw [hUd] at hl
          simp only [List.map_nil, List.nil_append, List.head?_cons,
            Option.some.injEq, Prod.mk.injEq] at hl
          obtain ⟨hl1, hl2⟩ := hl
          have hB := ihB m.1 (by rw [hM, List.head?_cons]; exact congrArg some (Prod.ext_iff.2 ⟨rfl, hl2⟩))
          rw [hL] at hB
          have hlh : lh = m.1 := by simpa using hB
          simp [hlh, hl1]
        | cons d ds =>
          rw [hUd] at hl
          simp only [List.map_cons, List.cons_append, List.head?_cons,
            Option.some.injEq, Prod.mk.injEq] at hl
          simp [hl.1]
      · intro l hl
        rw [hMM] at hl
        rw [hLL]
        cases hUd : (splitLines u).dropLast with
        | nil =>
          rw [hUd] at hl
          simp only [List.map_nil, List.nil_append, List.tail_cons] at hl ⊢
          have hc := ihC l (by rw [hM]; exact hl)
          rw [hL] at hc
          simpa using hc
        | cons d ds =>
          rw [hUd] at hl
          simp only [List.map_cons, List.cons_append, List.tail_cons] at hl ⊢
          rcases List.mem_append.1 hl with h1 | h2
          · obtain ⟨x, hx, hxe⟩ := List.mem_map.1 h1
            have hxl : x = l := congrArg Prod.fst hxe
            exact List.mem_append.2 (Or.inl (hxl ▸ hx))
          · rcases List.mem_cons.1 h2 with h3 | h4
            · have hl1 : l = laU ++ m.1 := congrArg Prod.fst h3
              have hm2 : false = m.2 := congrArg Prod.snd h3
              have hB := ihB m.1 (by rw [hM, List.head?_cons]; exact congrArg some (Prod.ext_iff.2 ⟨rfl, hm2.symm⟩))
              rw [hL] at hB
              have hlh : lh = m.1 := by simpa using hB
              exact List.mem_append.2 (Or.inr (List.mem_cons.2 (Or.inl
                (by rw [hl1, hlh]))))
            · have hc := ihC l (by rw [hM]; simpa using h4)
              rw [hL] at hc
              exact List.mem_append.2 (Or.inr (List.mem_cons.2 (Or.inr
                (by simpa using hc))))
    | span pfx body =>
      obtain ⟨laV0, hlaV0⟩ := getLast?_some_of_ne_nil
        (splitLines (pfx ++ body ++ closeLit)) (splitLines_ne_nil _)
      have hlaX : ((splitLines (pfx ++ body ++ closeLit)).map
          (fun l => (l, true))).getLast? = some (laV0, true) := by
        rw [List.getLast?_map, hlaV0]
        rfl
      obtain ⟨laV, hlaV⟩ := getLast?_some_of_ne_nil
        (splitLines (pfx ++ filterMnemLines body ++ closeLit)) (splitLines_ne_nil _)
      have hMM : mlineP (RPiece.span pfx body :: ps)
          = ((splitLines (pfx ++ body ++ closeLit)).dropLast.map (fun l => (l, true)))
            ++ (laV0 ++ m.1, true) :: mt := by
        rw [show mlineP (RPiece.span pfx body :: ps)
            = mergeM ((splitLines (pfx ++ body ++ closeLit)).map (fun l => (l, true)))
              (mlineP ps) from rfl,
          hM, mergeM_eq hlaX, List.map_dropLast]
        simp
      have hLL : splitLines (renderAll (RPiece.span pfx body :: ps))
          = (splitLines (pfx ++ filterMnemLines body ++ closeLit)).dropLast
            ++ (laV ++ lh) :: lt := by
        rw [show renderAll (RPiece.span pfx body :: ps)
            = (pfx ++ filterMnemLines body ++ closeLit) ++ renderAll ps from by
            simp [renderAll, renderPiece, List.append_assoc],
          splitLines_append (pfx ++ filterMnemLines body ++ closeLit) (renderAll ps),
          hL, joinLL_eq hlaV]
      constructor
      · intro l hl
        rw [hMM] at hl
        cases hUd : (splitLines (pfx ++ body ++ closeLit)).dropLast with
        | nil =>
          rw [hUd] at hl
          simp only [List.map_nil, List.nil_append, List.head?_cons,
            Option.some.injEq, Prod.mk.injEq] at hl
          exact absurd hl.2 (by decide)
        | cons d ds =>
          rw [hUd] at hl
          simp only [List.map_cons, List.cons_append, List.head?_cons,
            Option.some.injEq, Prod.mk.injEq] at hl
          exact absurd hl.2 (by decide)
      · intro l hl
        rw [hMM] at hl
        rw [hLL]
        cases hUd : (splitLines (pfx ++ body ++ closeLit)).dropLast with
        | nil =>
          rw [hUd] at hl
          simp only [List.map_nil, List.nil_append, List.tail_cons] at hl
          have hc := ihC l (by rw [hM]; exact hl)
          rw [hL] at hc
          exact mem_tail_append_cons _ _ (by simpa using hc)
        | cons d ds =>
          rw [hUd] at hl
          simp only [List.map_cons, List.cons_append, List.tail_cons] at hl
          rcases List.mem_append.1 hl with h1 | h2
          · obtain ⟨x, hx, hxe⟩ := List.mem_map.1 h1
            exact absurd (congrArg Prod.snd hxe) (show ¬ (true = false) from by decide)
          · rcases List.mem_cons.1 h2 with h3 | h4
            · exact absurd (congrArg Prod.snd h3) (show ¬ (false = true) from by decide)
            · have hc := ihC l (by rw [hM]; simpa using h4)
              rw [hL] at hc
              refine mem_tail_append_cons _ _ ?_
              simpa using hc

/-- C7: the flagged-line decomposition lists exactly the lines of the input,
and every line not intersecting any matched alarm block occurs verbatim among
the lines of the Remover's output. -/
theorem c7_lines_outside_alarm_blocks_preserved (s : List Char) :
    (markedLines s).map Prod.fst = splitLines s ∧
    (∀ l, (l, false) ∈ markedLines s → l ∈ splitLines (removeText s)) := by
  constructor
  · rw [show markedLines s = mlineP (pieces s) from rfl, mlineP_fst, origAll_pieces]
  · intro l hl
    rw [show markedLines s = mlineP (pieces s) from rfl] at hl
    obtain ⟨hB, hC⟩ := mlineP_inv (pieces s)
    rw [← renderAll_pieces s]
    cases hM : mlineP (pieces s) with
    | nil => exact absurd hM (mlineP_ne_nil _)
    | cons m mt =>
      rw [hM] at hl
      rcases List.mem_cons.1 hl with h1 | h2
      · have hhead := hB l (by rw [hM, List.head?_cons, ← h1])
        cases hLr : splitLines (renderAll (pieces s)) with
        | nil => exact absurd hLr (splitLines_ne_nil _)
        | cons a t =>
          rw [hLr] at hhead
          simp only [List.head?_cons, Option.some.injEq] at hhead
          rw [← hhead]
          exact List.mem_cons_self _ _
      · have hc := hC l (by rw [hM]; simpa using h2)
        exact List.mem_of_mem_tail hc

/-- Witness: a text with no alarm block has its (untagged) single line kept
verbatim by the Remover. -/
theorem c7_lines_outside_alarm_blocks_preserved_witness :
    (("hi").toList, false) ∈ markedLines (("hi").toList) ∧
    ("hi").toList ∈ splitLines (removeText (("hi").toList)) :=
  ⟨by decide,
    (c7_lines_outside_alarm_blocks_preserved (("hi").toList)).2
      (("hi").toList) (by decide)⟩

/-- Components of a successful field match. -/
theorem tryMatch_some_parts {s g1 key after : List Char}
    (h : tryMatch s = some (g1, key, after)) :
    ∃ hd b t, parseKeyHead s = some (hd, key, b ++ rbrace :: ',' :: t) ∧
      splitAtClose rbrace (b ++ rbrace :: ',' :: t) = some (b, t) ∧
      g1 = hd ++ b ++ [rbrace] ∧ after = ',' :: t ∧
      noClosePair rbrace b = true := by
  simp only [tryMatch] at h
  split at h
  case h_1 => exact absurd h (by simp)
  case h_2 hd0 key0 rest0 hp =>
    split at h
    case h_1 => exact absurd h (by simp)
    case h_2 b0 t0 hs =>
      simp only [Option.some.injEq, Prod.mk.injEq] at h
      obtain ⟨h1, h2, h3⟩ := h
      subst h1
      subst h2
      subst h3
      obtain ⟨hdec, hnc⟩ := splitAtClose_decomp hs
      subst hdec
      exact ⟨hd0, b0, t0, hp, hs, rfl, rfl, hnc⟩

/-- Full structural decomposition of a successful field match. -/
theorem tryMatch_decompS {s g1 key after : List Char}
    (h : tryMatch s = some (g1, key, after)) :
    ∃ hd b t w1 w2 q1 q2,
      g1 = hd ++ b ++ [rbrace] ∧ after = ',' :: t ∧
      s = hd ++ (b ++ rbrace :: ',' :: t) ∧
      hd = lbrace :: (w1 ++ keyLit ++ w2 ++ q1 :: (key ++ [q2, ','])) ∧
      w1.all isWs = true ∧ w2.all isWs = true ∧
      isQuoteChar q1 = true ∧ isQuoteChar q2 = true ∧
      key ≠ [] ∧ key.all isWordChar = true ∧
      noClosePair rbrace b = true := by
  obtain ⟨hd, b, t, hp, hs, hg, ha, hnc⟩ := tryMatch_some_parts h
  obtain ⟨w1, w2, q1, q2, hh, hsplit, hw1, hw2, hq1, hq2, hk, hkw⟩ :=
    parseKeyHead_decompS hp
  exact ⟨hd, b, t, w1, w2, q1, q2, hg, ha, hsplit, hh, hw1, hw2, hq1, hq2, hk, hkw, hnc⟩

/-- Length bound for a successful field match. -/
theorem tryMatch_len {c : Char} {r g1 key after : List Char}
    (h : tryMatch (c :: r) = some (g1, key, after)) :
    after.length ≤ r.length := by
  obtain ⟨hdec, hne⟩ := tryMatch_decomp h
  have := congrArg List.length hdec
  simp only [List.length_cons, List.length_append] at this
  have hg : 1 ≤ g1.length := by
    cases g1 with
    | nil => exact absurd rfl hne
    | cons x xs => simp
  omega

/-- Unmatched step of the Assigner's text scan. -/
theorem processText_cons_none {c : Char} {r : List Char}
    (h : tryMatch (c :: r) = none) : processText (c :: r) = c :: processText r := by
  simp only [processText, List.length_cons, goProcess, h]

/-- Matched step of the Assigner's text scan. -/
theorem processText_cons_some {c : Char} {r g1 key after : List Char}
    (h : tryMatch (c :: r) = some (g1, key, after)) :
    processText (c :: r) = addMnemText g1 key ++ processText after := by
  simp only [processText, List.length_cons, goProcess, h]
  rw [goProcess_fuel r.length after (tryMatch_len h)]

/-- The Assigner's piece decomposition does not depend on surplus fuel. -/
theorem goPiecesP_fuel : ∀ (n : Nat) (s : List Char), s.length ≤ n →
    goPiecesP n s = goPiecesP s.length s := by
  intro n
  induction n using Nat.strong_induction_on with
  | _ n ih =>
    intro s hle
    cases s with
    | nil => cases n <;> rfl
    | cons c r =>
      cases n with
      | zero => simp at hle
      | succ n =>
        have hr : r.length ≤ n := by simpa [Nat.succ_le_succ_iff] using hle
        cases ht : tryMatch (c :: r) with
        | some trip =>
          obtain ⟨g1, key, after⟩ := trip
          have hlen := tryMatch_len ht
          simp only [List.length_cons, goPiecesP, ht]
          rw [ih n (Nat.lt_succ_self n) after (le_trans hlen hr),
            ih r.length (Nat.lt_succ_of_le hr) after hlen]
        | none =>
          simp only [List.length_cons, goPiecesP, ht]
          rw [ih n (Nat.lt_succ_self n) r hr,
            ih r.length (Nat.lt_succ_of_le hr) r (le_refl _)]

/-- Unmatched step of the Assigner decomposition. -/
theorem piecesP_cons_none {c : Char} {r : List Char}
    (h : tryMatch (c :: r) = none) : piecesP (c :: r) = consPlainP c (piecesP r) := by
  simp only [piecesP, List.length_cons, goPiecesP, h]

/-- Matched step of the Assigner decomposition. -/
theorem piecesP_cons_some {c : Char} {r g1 key after : List Char}
    (h : tryMatch (c :: r) = some (g1, key, after)) :
    piecesP (c :: r) = .block g1 key :: piecesP after := by
  simp only [piecesP, List.length_cons, goPiecesP, h]
  rw [goPiecesP_fuel r.length after (tryMatch_len h)]

/-- `origAllP` over a prepended plain character. -/
theorem origAllP_consPlainP (c : Char) (ps : List PPiece) :
    origAllP (consPlainP c ps) = c :: origAllP ps := by
  cases ps with
  | nil => rfl
  | cons p ps =>
    cases p with
    | plain u => simp [consPlainP, origAllP, origPieceP]
    | block g1 key => simp [consPlainP, origAllP, origPieceP]

/-- `renderAllP` over a prepended plain character. -/
theorem renderAllP_consPlainP (c : Char) (ps : List PPiece) :
    renderAllP (consPlainP c ps) = c :: renderAllP ps := by
  cases ps with
  | nil => rfl
  | cons p ps =>
    cases p with
    | plain u => simp [consPlainP, renderAllP, renderPieceP]
    | block g1 key => simp [consPlainP, renderAllP, renderPieceP]

/-- The Assigner decomposition reconstructs its input. -/
theorem origAllP_piecesP : ∀ (s : List Char), origAllP (piecesP s) = s := by
  suffices h : ∀ (n : Nat) (s : List Char), s.length ≤ n → origAllP (piecesP s) = s by
    intro s
    exact h s.length s (le_refl _)
  intro n
  induction n using Nat.strong_induction_on with
  | _ n ih =>
    intro s hle
    cases s with
    | nil => rfl
    | cons c r =>
      have hr : r.length + 1 ≤ n := by simpa using hle
      cases ht : tryMatch (c :: r) with
      | some trip =>
        obtain ⟨g1, key, after⟩ := trip
        obtain ⟨hdec, -⟩ := tryMatch_decomp ht
        have hlen := tryMatch_len ht
        rw [piecesP_cons_some ht]
        have := ih r.length (by omega) after (by omega)
        simp only [origAllP, List.map_cons, List.flatten_cons, origPieceP]
        rw [show (List.map origPieceP (piecesP after)).flatten = origAllP (piecesP after)
          from rfl, this]
        exact hdec.symm
      | none =>
        rw [piecesP_cons_none ht, origAllP_consPlainP]
        have := ih r.length (by omega) r (le_refl _)
        rw [this]

/-- The rendered Assigner decomposition is exactly the Assigner's output. -/
theorem renderAllP_piecesP : ∀ (s : List Char),
    renderAllP (piecesP s) = processText s := by
  suffices h : ∀ (n : Nat) (s : List Char), s.length ≤ n →
      renderAllP (piecesP s) = processText s by
    intro s
    exact h s.length s (le_refl _)
  intro n
  induction n using Nat.strong_induction_on with
  | _ n ih =>
    intro s hle
    cases s with
    | nil => rfl
    | cons c r =>
      have hr : r.length + 1 ≤ n := by simpa using hle
      cases ht : tryMatch (c :: r) with
      | some trip =>
        obtain ⟨g1, key, after⟩ := trip
        have hlen := tryMatch_len ht
        rw [piecesP_cons_some ht, processText_cons_some ht]
        have := ih r.length (by omega) after (by omega)
        simp only [renderAllP, List.map_cons, List.flatten_cons, renderPieceP]
        rw [show (List.map renderPieceP (piecesP after)).flatten
            = renderAllP (piecesP after) from rfl, this]
      | none =>
        rw [piecesP_cons_none ht, renderAllP_consPlainP, processText_cons_none ht]
        have := ih r.length (by omega) r (le_refl _)
        rw [this]

/-- The field pattern fails at a comma. -/
theorem tryMatch_comma (t : List Char) : tryMatch (',' :: t) = none := by
  have hp : parseKeyHead (',' :: t) = none := by
    simp only [parseKeyHead]
    rw [if_neg (by decide)]
  simp only [tryMatch, hp]

/-- Prepending a failing plain character preserves Assigner well-formedness. -/
theorem wfPiecesP_consPlainP {c : Char} {ps : List PPiece}
    (h0 : tryMatch (c :: origAllP ps) = none) (h : wfPiecesP ps) :
    wfPiecesP (consPlainP c ps) := by
  cases ps with
  | nil =>
    refine ⟨by simp, ?_, Or.inl rfl, trivial⟩
    intro i hi
    have hi0 : i = 0 := by simpa using hi
    subst hi0
    simpa using h0
  | cons p ps2 =>
    cases p with
    | plain u =>
      obtain ⟨hne, hfail, hguard, hwf⟩ := h
      refine ⟨by simp, ?_, hguard, hwf⟩
      intro i hi
      cases i with
      | zero =>
        have : origAllP (PPiece.plain u :: ps2) = u ++ origAllP ps2 := by
          simp [origAllP, origPieceP]
        rw [this] at h0
        simpa using h0
      | succ j =>
        have hj : j < u.length := by simpa using hi
        simpa using hfail j hj
    | block g1 key =>
      obtain ⟨hstru, hcomma, hwf⟩ := h
      refine ⟨by simp, ?_, Or.inr ⟨g1, key, ps2, rfl⟩, hstru, hcomma, hwf⟩
      intro i hi
      have hi0 : i = 0 := by simpa using hi
      subst hi0
      simpa using h0

/-- The Assigner decomposition of any text is well formed. -/
theorem wfPiecesP_piecesP : ∀ (s : List Char), wfPiecesP (piecesP s) := by
  suffices h : ∀ (n : Nat) (s : List Char), s.length ≤ n → wfPiecesP (piecesP s) by
    intro s
    exact h s.length s (le_refl _)
  intro n
  induction n using Nat.strong_induction_on with
  | _ n ih =>
    intro s hle
    cases s with
    | nil => exact trivial
    | cons c r =>
      have hr : r.length + 1 ≤ n := by simpa using hle
      cases ht : tryMatch (c :: r) with
      | some trip =>
        obtain ⟨g1, key, after⟩ := trip
        obtain ⟨hd, b, t, w1, w2, q1, q2, hg, ha, hs, hh, hw1, hw2, hq1, hq2, hk, hkw, hnc⟩ :=
          tryMatch_decompS ht
        have hlen := tryMatch_len ht
        rw [piecesP_cons_some ht]
        refine ⟨⟨hd, b, w1, w2, q1, q2, hg, hh, hw1, hw2, hq1, hq2, hk, hkw, hnc⟩, ?_, ?_⟩
        · subst ha
          rw [piecesP_cons_none (tryMatch_comma t)]
          cases hpt : piecesP t with
          | nil => exact ⟨[], [], rfl⟩
          | cons p ps2 =>
            cases p with
            | plain u => exact ⟨u, ps2, rfl⟩
            | block g k => exact ⟨[], PPiece.block g k :: ps2, rfl⟩
        · subst ha
          exact ih r.length (by omega) (',' :: t) hlen
      | none =>
        rw [piecesP_cons_none ht]
        refine wfPiecesP_consPlainP ?_ (ih r.length (by omega) r (le_refl _))
        rw [origAllP_piecesP r]
        exact ht

/-- Peeling the head character off the first line commutes with joining. -/
theorem joinLines_cons_head (c : Char) (l : List Char) (ls : List (List Char)) :
    joinLines ((c :: l) :: ls) = c :: joinLines (l :: ls) := by
  cases ls <;> rfl

/-- Joining splits back to the original text. -/
theorem joinLines_splitLines : ∀ (s : List Char), joinLines (splitLines s) = s := by
  intro s
  induction s with
  | nil => rfl
  | cons c rest ih =>
    by_cases hc : c = nl
    · subst hc
      rw [splitLines_cons_nl]
      cases hs : splitLines rest with
      | nil => exact absurd hs (splitLines_ne_nil rest)
      | cons l ls =>
        rw [show joinLines ([] :: l :: ls) = [] ++ nl :: joinLines (l :: ls) from rfl,
          ← hs, ih]
        rfl
    · cases hs : splitLines rest with
      | nil => exact absurd hs (splitLines_ne_nil rest)
      | cons l ls =>
        rw [splitLines_cons_of_ne hc hs, joinLines_cons_head, ← hs, ih]

/-- `containsSub` characterised by a substring decomposition. -/
theorem containsSub_iff {pat : List Char} : ∀ {s : List Char},
    containsSub pat s = true ↔ ∃ x y, s = x ++ pat ++ y := by
  intro s
  induction s with
  | nil =>
    constructor
    · intro h
      obtain ⟨t, ht⟩ := startsWithL_iff.1 (show startsWithL pat [] = true from h)
      exact ⟨[], t, by simpa using ht⟩
    · rintro ⟨x, y, hxy⟩
      have hz := hxy.symm
      simp only [List.append_assoc, List.append_eq_nil] at hz
      show startsWithL pat [] = true
      rw [startsWithL_iff]
      exact ⟨[], by simp [hz.2.1]⟩
  | cons a s ih =>
    simp only [containsSub, Bool.or_eq_true]
    constructor
    · rintro (h | h)
      · obtain ⟨t, ht⟩ := startsWithL_iff.1 h
        exact ⟨[], t, by simpa using ht⟩
      · obtain ⟨x, y, hxy⟩ := ih.1 h
        exact ⟨a :: x, y, by simp [hxy]⟩
    · rintro ⟨x, y, hxy⟩
      cases x with
      | nil =>
        left
        rw [startsWithL_iff]
        exact ⟨y, by simpa using hxy⟩
      | cons b x' =>
        right
        refine ih.2 ⟨x', y, ?_⟩
        simpa using congrArg List.tail hxy

/-- A substring of the right part is a substring of the whole. -/
theorem containsSub_append_right {pat : List Char} (a b : List Char)
    (h : containsSub pat b = true) : containsSub pat (a ++ b) = true := by
  rw [containsSub_iff] at h ⊢
  obtain ⟨x, y, hxy⟩ := h
  exact ⟨a ++ x, y, by simp [hxy]⟩

/-- A substring of the left part is a substring of the whole. -/
theorem containsSub_append_left {pat : List Char} (a b : List Char)
    (h : containsSub pat a = true) : containsSub pat (a ++ b) = true := by
  rw [containsSub_iff] at h ⊢
  obtain ⟨x, y, hxy⟩ := h
  exact ⟨x, y ++ b, by simp [hxy]⟩

/-- A substring of some line is a substring of the joined text. -/
theorem containsSub_joinLines_of_mem {pat : List Char} :
    ∀ (L : List (List Char)) (l : List Char), l ∈ L → containsSub pat l = true →
    containsSub pat (joinLines L) = true := by
  intro L
  induction L with
  | nil => intro l hl _; simp at hl
  | cons l0 L2 ih =>
    intro l hl hc
    cases L2 with
    | nil =>
      simp at hl
      subst hl
      exact hc
    | cons l2 L3 =>
      rw [show joinLines (l0 :: l2 :: L3) = l0 ++ nl :: joinLines (l2 :: L3) from rfl]
      rcases List.mem_cons.1 hl with h1 | h2
      · subst h1
        exact containsSub_append_left _ _ hc
      · refine containsSub_append_right l0 _ ?_
        have hj := ih l h2 hc
        rw [containsSub_iff] at hj ⊢
        obtain ⟨x, y, hxy⟩ := hj
        exact ⟨nl :: x, y, by simp [hxy]⟩

/-- Characters of a line are characters of the split text. -/
theorem splitLines_chars : ∀ (s : List Char), ∀ l ∈ splitLines s, ∀ c ∈ l, c ∈ s := by
  intro s
  induction s with
  | nil =>
    intro l hl c hc
    simp [splitLines] at hl
    subst hl
    simp at hc
  | cons a rest ih =>
    intro l hl c hc
    by_cases ha : a = nl
    · subst ha
      rw [splitLines_cons_nl] at hl
      rcases List.mem_cons.1 hl with h1 | h2
      · subst h1; simp at hc
      · exact List.mem_cons_of_mem _ (ih l h2 c hc)
    · cases hs : splitLines rest with
      | nil => exact absurd hs (splitLines_ne_nil rest)
      | cons l1 ls =>
        rw [splitLines_cons_of_ne ha hs] at hl
        rcases List.mem_cons.1 hl with h1 | h2
        · subst h1
          rcases List.mem_cons.1 hc with hc1 | hc2
          · subst hc1; exact List.mem_cons_self _ _
          · exact List.mem_cons_of_mem _
              (ih l1 (by rw [hs]; exact List.mem_cons_self _ _) c hc2)
        · exact List.mem_cons_of_mem _
            (ih l (by rw [hs]; exact List.mem_cons_of_mem _ h2) c hc)

/-- A valid character stays within the BMP below the surrogate range. -/
theorem toNat_ofNat_small {n : Nat} (h1 : 65 ≤ n) (h2 : n ≤ 90) :
    (Char.ofNat n).toNat = n := by
  unfold Char.ofNat
  rw [dif_pos (Or.inl (by omega : n < 55296))]
  unfold Char.ofNatAux
  simp [Char.toNat, UInt32.toNat]

/-- `str.upper` maps word characters to word characters. -/
theorem pyUpper_word {c : Char} (h : isWordChar c = true) :
    isWordChar (pyUpper c) = true := by
  unfold pyUpper
  split
  case isTrue hlc =>
    simp only [Bool.and_eq_true, decide_eq_true_eq] at hlc
    obtain ⟨h1, h2⟩ := hlc
    have hv1 : 97 ≤ c.toNat := h1
    have hv2 : c.toNat ≤ 122 := h2
    have ht : (Char.ofNat (c.toNat - 32)).toNat = c.toNat - 32 :=
      toNat_ofNat_small (by omega) (by omega)
    have hA : 'A' ≤ Char.ofNat (c.toNat - 32) := by
      show (65 : Nat) ≤ (Char.ofNat (c.toNat - 32)).toNat
      omega
    have hZ : Char.ofNat (c.toNat - 32) ≤ 'Z' := by
      show (Char.ofNat (c.toNat - 32)).toNat ≤ 90
      omega
    simp [isWordChar, hA, hZ]
  case isFalse => exact h

/-- A list not containing the delimiter is close-pair-free. -/
theorem noClosePair_of_not_mem {cl : Char} : ∀ {u : List Char},
    cl ∉ u → noClosePair cl u = true := by
  intro u
  induction u with
  | nil => intro _; rfl
  | cons a u' ih =>
    intro h
    cases u' with
    | nil => rfl
    | cons b u'' =>
      simp only [noClosePair, Bool.and_eq_true]
      constructor
      · have ha : ¬ a = cl := fun he => h (he ▸ List.mem_cons_self _ _)
        simp [ha]
      · exact ih (fun hm => h (List.mem_cons_of_mem _ hm))

/-- Introduction rule for `noClosePair` on a cons. -/
theorem noClosePair_cons_intro {cl c : Char} {xs : List Char}
    (h1 : noClosePair cl xs = true)
    (h2 : ∀ b, xs.head? = some b → c = cl ∧ b = ',' → False) :
    noClosePair cl (c :: xs) = true := by
  cases xs with
  | nil => rfl
  | cons b xs' =>
    simp only [noClosePair, Bool.and_eq_true]
    refine ⟨?_, h1⟩
    by_cases h3 : c = cl
    · by_cases h4 : b = ','
      · exact (h2 b rfl ⟨h3, h4⟩).elim
      · simp [h4]
    · simp [h3]

/-- An adjacent close pair at the head refutes `noClosePair`. -/
theorem noClosePair_pair_false {cl c b : Char} {xs : List Char}
    (h : noClosePair cl (c :: b :: xs) = true) (hc : c = cl ∧ b = ',') : False := by
  simp only [noClosePair, Bool.and_eq_true] at h
  obtain ⟨h1, -⟩ := h
  rw [hc.1, hc.2] at h1
  simp at h1

/-- A prefix of a close-pair-free list is close-pair-free. -/
theorem noClosePair_append_left_of {cl : Char} : ∀ (x y : List Char),
    noClosePair cl (x ++ y) = true → noClosePair cl x = true := by
  intro x
  induction x with
  | nil => intro y _; rfl
  | cons a x' ih =>
    intro y h
    cases x' with
    | nil => rfl
    | cons b x'' =>
      simp only [List.cons_append, noClosePair, Bool.and_eq_true] at h ⊢
      exact ⟨h.1, ih y h.2⟩

/-- Gluing two close-pair-free lists with a safe seam. -/
theorem noClosePair_glue {cl : Char} : ∀ (u v : List Char),
    noClosePair cl u = true → noClosePair cl v = true →
    (∀ a b, u.getLast? = some a → v.head? = some b → ¬(a = cl ∧ b = ',')) →
    noClosePair cl (u ++ v) = true := by
  intro u
  induction u with
  | nil => intro v _ hv _; exact hv
  | cons a u' ih =>
    intro v hu hv hseam
    cases u' with
    | nil =>
      refine noClosePair_cons_intro (by simpa using hv) ?_
      intro b hb hab
      exact hseam a b (by simp) (by simpa using hb) hab
    | cons b u'' =>
      simp only [List.cons_append, noClosePair, Bool.and_eq_true] at hu ⊢
      refine ⟨by simpa using hu.1, ?_⟩
      have := ih v hu.2 hv (fun a2 b2 ha2 hb2 => hseam a2 b2 (by
        rw [List.getLast?_cons_cons]
        exact ha2) hb2)
      simpa using this

/-- A list with a known last element splits off that element. -/
theorem concat_getLast? {α : Type} {l : List α} {a : α} (h : l.getLast? = some a) :
    l.dropLast ++ [a] = l := by
  cases l with
  | nil => simp at h
  | cons x xs =>
    have hne : x :: xs ≠ [] := by simp
    rw [List.getLast?_eq_getLast _ hne, Option.some.injEq] at h
    have h2 := List.dropLast_append_getLast hne
    rw [h] at h2
    exact h2

/-- Dropping a cons head keeps the last element of a nonempty tail. -/
theorem getLast?_cons_of_ne_nil {c : Char} {l : List Char} (h : l ≠ []) :
    (c :: l).getLast? = l.getLast? := by
  rw [show c :: l = [c] ++ l from rfl]
  exact List.getLast?_append_of_ne_nil [c] h

/-- `Ins` preserves the head. -/
theorem Ins_head {s t : List Char} (h : Ins s t) : t.head? = s.head? := by
  cases h with
  | nil => rfl
  | cons c h => rfl
  | chunk hch h => rfl

/-- `Ins` out of the empty list is trivial. -/
theorem Ins_nil_left {t : List Char} (h : Ins [] t) : t = [] := by
  cases h
  rfl

/-- `Ins` preserves nonemptiness. -/
theorem Ins_ne_nil {s t : List Char} (h : Ins s t) (hs : s ≠ []) : t ≠ [] := by
  cases h with
  | nil => exact absurd rfl hs
  | cons c h => simp
  | chunk hch h => simp

/-- `Ins` is preserved by prepending a common prefix. -/
theorem Ins_append_left : ∀ (x : List Char) {s t : List Char},
    Ins s t → Ins (x ++ s) (x ++ t) := by
  intro x
  induction x with
  | nil => intro s t h; exact h
  | cons c x' ih => intro s t h; exact Ins.cons c (ih h)

/-- `Ins` preserves the last element. -/
theorem Ins_getLast {s t : List Char} (h : Ins s t) : t.getLast? = s.getLast? := by
  induction h with
  | nil => rfl
  | cons c hst ih =>
    rename_i s0 t0
    by_cases hs : s0 = []
    · subst hs
      rw [Ins_nil_left hst]
    · have ht : t0 ≠ [] := Ins_ne_nil hst hs
      rw [getLast?_cons_of_ne_nil ht, ih, getLast?_cons_of_ne_nil hs]
  | chunk hch hst ih =>
    rename_i s0 t0 ch
    obtain ⟨ch2, hche, -⟩ := hch
    by_cases hs : s0 = []
    · subst hs
      rw [Ins_nil_left hst, hche]
      rw [show nl :: ((ch2 ++ [nl]) ++ []) = (nl :: ch2) ++ [nl] from by simp]
      rw [List.getLast?_concat]
      rfl
    · have ht : t0 ≠ [] := Ins_ne_nil hst hs
      have hcht : ch ++ t0 ≠ [] := by rw [hche]; simp
      rw [getLast?_cons_of_ne_nil hcht,
        List.getLast?_append_of_ne_nil ch ht, ih,
        getLast?_cons_of_ne_nil hs]

/-- `Ins` preserves close-pair-freedom. -/
theorem Ins_noClosePair {s t : List Char} (h : Ins s t)
    (hs : noClosePair rbrace s = true) : noClosePair rbrace t = true := by
  induction h with
  | nil => exact hs
  | cons c hst ih =>
    rename_i s0 t0
    have hS : noClosePair rbrace s0 = true := noClosePair_tail hs
    refine noClosePair_cons_intro (ih hS) ?_
    intro b hb hcb
    rw [Ins_head hst] at hb
    cases s0 with
    | nil => simp at hb
    | cons a s1 =>
      simp only [List.head?_cons, Option.some.injEq] at hb
      subst hb
      exact noClosePair_pair_false hs hcb
  | chunk hch hst ih =>
    rename_i s0 t0 ch
    obtain ⟨ch2, hche, hch2⟩ := hch
    have hS : noClosePair rbrace s0 = true := noClosePair_tail hs
    have hT := ih hS
    rw [hche, show nl :: ((ch2 ++ [nl]) ++ t0) = nl :: (ch2 ++ nl :: t0) from by simp]
    refine noClosePair_cons_intro ?_ ?_
    · exact noClosePair_append_nl (by decide) ch2 t0 hch2 hT
    · intro b hb hcb
      exact absurd hcb.1 (by decide)

/-- Peeling a newline-free common prefix off an `Ins`. -/
theorem Ins_split_prefix : ∀ (x : List Char) {s t : List Char},
    x.all (fun c => c != nl) = true → Ins (x ++ s) t →
    ∃ t2, t = x ++ t2 ∧ Ins s t2 := by
  intro x
  induction x with
  | nil => intro s t _ h; exact ⟨t, rfl, h⟩
  | cons c x' ih =>
    intro s t hall h
    simp only [List.all_cons, Bool.and_eq_true] at hall
    have hc : ¬ c = nl := by simpa using hall.1
    cases h with
    | cons c h2 =>
      rename_i t2
      obtain ⟨t3, ht, hi⟩ := ih hall.2 h2
      exact ⟨t3, by rw [ht]; rfl, hi⟩
    | chunk hch h2 => exact absurd rfl hc

/-- The last element, as a member. -/
theorem mem_of_getLast? {α : Type} {l : List α} {a : α} (h : l.getLast? = some a) :
    a ∈ l := by
  rw [← concat_getLast? h]
  simp

/-- The resolved mnemonic of a word-character key is close-pair-free. -/
theorem noClosePair_resolveMnem {key : List Char} (hkw : key.all isWordChar = true) :
    noClosePair rbrace (resolveMnem key) = true := by
  have hfb : noClosePair rbrace (fallbackMnem key) = true := by
    refine noClosePair_of_not_mem ?_
    intro hmem
    have hmem2 : rbrace ∈ key.map pyUpper := List.take_subset 5 _ hmem
    obtain ⟨k, hk, hke⟩ := List.mem_map.1 hmem2
    have hw : isWordChar (pyUpper k) = true :=
      pyUpper_word (all_iff_mem.mp hkw k hk)
    rw [hke] at hw
    exact absurd hw (by decide)
  cases hg : pyGet mnemonicEntries key with
  | none => simp only [resolveMnem, hg]; exact hfb
  | some v =>
    simp only [resolveMnem, hg]
    split
    case isTrue => exact hfb
    case isFalse =>
      simp only [pyGet, Option.map_eq_some'] at hg
      obtain ⟨p, hp, hpe⟩ := hg
      have hmem : p ∈ mnemonicEntries :=
        List.mem_reverse.1 (List.mem_of_find?_eq_some hp)
      have hall : mnemonicEntries.all (fun q => noClosePair rbrace q.2) = true := by
        decide
      have hv := (List.all_eq_true.1 hall) p hmem
      rw [hpe] at hv
      exact hv

/-- The inserted mnemonic line is close-pair-free. -/
theorem noClosePair_mnemLineOf {m : List Char} (hM : noClosePair rbrace m = true)
    (line : List Char) : noClosePair rbrace (mnemLineOf line m) = true := by
  have h1 : noClosePair rbrace (m ++ [squote, ',']) = true := by
    refine noClosePair_glue m [squote, ','] hM (by decide) ?_
    intro a b ha hb hab
    simp only [List.head?_cons, Option.some.injEq] at hb
    rw [← hb] at hab
    exact absurd hab.2 (by decide)
  have h2 : noClosePair rbrace ([squote] ++ (m ++ [squote, ','])) = true := by
    refine noClosePair_glue [squote] _ (by decide) h1 ?_
    intro a b ha hb hab
    simp only [List.getLast?_singleton, Option.some.injEq] at ha
    rw [← ha] at hab
    exact absurd hab.1 (by decide)
  have h3 : noClosePair rbrace
      (("mnemonic: ").toList ++ ([squote] ++ (m ++ [squote, ',']))) = true := by
    refine noClosePair_glue _ _ (by decide) h2 ?_
    intro a b ha hb hab
    rw [show (("mnemonic: ").toList).getLast? = some ' ' from by decide,
      Option.some.injEq] at ha
    rw [← ha] at hab
    exact absurd hab.1 (by decide)
  have h4 : noClosePair rbrace
      (List.replicate (indentLen line) ' '
        ++ (("mnemonic: ").toList ++ ([squote] ++ (m ++ [squote, ','])))) = true := by
    refine noClosePair_glue _ _ (noClosePair_of_not_mem ?_) h3 ?_
    · intro hmem
      have := List.eq_of_mem_replicate hmem
      exact absurd this (by decide)
    · intro a b ha hb hab
      have hmem := mem_of_getLast? ha
      have := List.eq_of_mem_replicate hmem
      rw [this] at hab
      exact absurd hab.1 (by decide)
  show noClosePair rbrace
    (List.replicate (indentLen line) ' ' ++ ("mnemonic: ").toList ++ [squote] ++ m ++
      [squote, ',']) = true
  simpa [List.append_assoc] using h4

/-- `Ins` is reflexive. -/
theorem Ins_refl : ∀ (s : List Char), Ins s s := by
  intro s
  induction s with
  | nil => exact Ins.nil
  | cons c r ih => exact Ins.cons c ih

/-- `insertLines` keeps the first line. -/
theorem insertLines_cons_shape (m x : List Char) (xs : List (List Char)) :
    ∃ T, insertLines m (x :: xs) = x :: T := by
  cases xs with
  | nil => exact ⟨[], rfl⟩
  | cons x2 r =>
    by_cases h : containsSub labelMark x = true
    · exact ⟨mnemLineOf x m :: insertLines m (x2 :: r), by simp [insertLines, h]⟩
    · exact ⟨insertLines m (x2 :: r), by simp [insertLines, h]⟩

/-- The text after insertion relates to the original by chunk insertions. -/
theorem Ins_insertLines {m : List Char} (hM : noClosePair rbrace m = true) :
    ∀ (L : List (List Char)), Ins (joinLines L) (joinLines (insertLines m L)) := by
  intro L
  induction L with
  | nil => exact Ins.nil
  | cons l L2 ih =>
    cases L2 with
    | nil => exact Ins_refl l
    | cons l2 L3 =>
      obtain ⟨T, hT⟩ := insertLines_cons_shape m l2 L3
      by_cases hlab : containsSub labelMark l = true
      · rw [show insertLines m (l :: l2 :: L3)
            = l :: mnemLineOf l m :: insertLines m (l2 :: L3) from by
          simp [insertLines, hlab]]
        rw [show joinLines (l :: l2 :: L3) = l ++ nl :: joinLines (l2 :: L3) from rfl]
        rw [hT,
          show joinLines (l :: mnemLineOf l m :: l2 :: T)
            = l ++ nl :: (mnemLineOf l m ++ nl :: joinLines (l2 :: T)) from rfl,
          ← hT]
        rw [show mnemLineOf l m ++ nl :: joinLines (insertLines m (l2 :: L3))
            = (mnemLineOf l m ++ [nl]) ++ joinLines (insertLines m (l2 :: L3)) from by
          simp]
        exact Ins_append_left l
          (Ins.chunk ⟨mnemLineOf l m, rfl, noClosePair_mnemLineOf hM l⟩ ih)
      · rw [show insertLines m (l :: l2 :: L3) = l :: insertLines m (l2 :: L3) from by
          simp [insertLines, hlab]]
        rw [show joinLines (l :: l2 :: L3) = l ++ nl :: joinLines (l2 :: L3) from rfl]
        rw [hT,
          show joinLines (l :: l2 :: T) = l ++ nl :: joinLines (l2 :: T) from rfl,
          ← hT]
        exact Ins_append_left l (Ins.cons nl ih)

/-- The inserted line contains the `mnemonic:` marker. -/
theorem containsSub_mnemLineOf (line m : List Char) :
    containsSub mnemMark (mnemLineOf line m) = true := by
  rw [containsSub_iff]
  refine ⟨List.replicate (indentLen line) ' ',
    ' ' :: ([squote] ++ (m ++ [squote, ','])), ?_⟩
  show List.replicate (indentLen line) ' ' ++ ("mnemonic: ").toList ++ [squote] ++ m ++
      [squote, ','] = _
  rw [show ("mnemonic: ").toList = mnemMark ++ [' '] from by decide]
  simp [List.append_assoc]

/-- `insertLines` either changes nothing or leaves a line containing the
`mnemonic:` marker. -/
theorem insertLines_cases (m : List Char) : ∀ (L : List (List Char)),
    insertLines m L = L ∨
    ∃ l, l ∈ insertLines m L ∧ containsSub mnemMark l = true := by
  intro L
  induction L with
  | nil => exact Or.inl rfl
  | cons l L2 ih =>
    cases L2 with
    | nil => exact Or.inl rfl
    | cons l2 L3 =>
      by_cases h : containsSub labelMark l = true
      · right
        refine ⟨mnemLineOf l m, ?_, containsSub_mnemLineOf l m⟩
        rw [show insertLines m (l :: l2 :: L3)
            = l :: mnemLineOf l m :: insertLines m (l2 :: L3) from by
          simp [insertLines, h]]
        simp
      · rw [show insertLines m (l :: l2 :: L3) = l :: insertLines m (l2 :: L3) from by
          simp [insertLines, h]]
        rcases ih with h1 | ⟨x, hx, hc⟩
        · left
          rw [h1]
        · right
          exact ⟨x, List.mem_cons_of_mem _ hx, hc⟩

/-- The Assigner's block transform is idempotent. -/
theorem addMnemText_idem (g1 key : List Char) :
    addMnemText (addMnemText g1 key) key = addMnemText g1 key := by
  by_cases h1 : containsSub mnemMark g1 = true
  · rw [show addMnemText g1 key = g1 from by simp [addMnemText, h1]]
    simp [addMnemText, h1]
  · have hg1 : addMnemText g1 key
        = joinLines (insertLines (resolveMnem key) (splitLines g1)) := by
      simp [addMnemText, h1]
    rcases insertLines_cases (resolveMnem key) (splitLines g1) with heq | ⟨l, hl, hcl⟩
    · have hid : addMnemText g1 key = g1 := by rw [hg1, heq, joinLines_splitLines]
      rw [hid]
      exact hid
    · have hcont : containsSub mnemMark (addMnemText g1 key) = true := by
        rw [hg1]
        exact containsSub_joinLines_of_mem _ l hl hcl
      show (if containsSub mnemMark (addMnemText g1 key) = true then addMnemText g1 key
        else joinLines (insertLines (resolveMnem key)
          (splitLines (addMnemText g1 key)))) = addMnemText g1 key
      rw [if_pos hcont]

/-- A quote character is not whitespace. -/
theorem quote_not_ws {c : Char} (h : isQuoteChar c = true) : isWs c = false := by
  simp only [isQuoteChar, Bool.or_eq_true, decide_eq_true_eq] at h
  rcases h with h | h <;> subst h <;> decide

/-- A quote character is not a word character. -/
theorem quote_not_word {c : Char} (h : isQuoteChar c = true) : isWordChar c = false := by
  simp only [isQuoteChar, Bool.or_eq_true, decide_eq_true_eq] at h
  rcases h with h | h <;> subst h <;> decide

/-- Introduction rule for the field-pattern head. -/
theorem parseKeyHead_intro {w1 w2 key X : List Char} {q1 q2 : Char}
    (hw1 : w1.all isWs = true) (hw2 : w2.all isWs = true)
    (hq1 : isQuoteChar q1 = true) (hq2 : isQuoteChar q2 = true)
    (hk : key ≠ []) (hkw : key.all isWordChar = true) :
    parseKeyHead ((lbrace :: (w1 ++ keyLit ++ w2 ++ q1 :: (key ++ [q2, ',']))) ++ X)
      = some (lbrace :: (w1 ++ keyLit ++ w2 ++ q1 :: (key ++ [q2, ','])), key, X) := by
  have hw1mem := all_iff_mem.mp hw1
  have hw2mem := all_iff_mem.mp hw2
  have hkmem := all_iff_mem.mp hkw
  have hr0 : (w1 ++ keyLit ++ w2 ++ q1 :: (key ++ [q2, ','])) ++ X
      = w1 ++ (keyLit ++ (w2 ++ q1 :: (key ++ q2 :: ',' :: X))) := by
    simp [List.append_assoc]
  have hkey : keyLit ++ (w2 ++ q1 :: (key ++ q2 :: ',' :: X))
      = 'k' :: (("ey:").toList ++ (w2 ++ q1 :: (key ++ q2 :: ',' :: X))) := by
    rw [show keyLit = 'k' :: ("ey:").toList from by decide]
    rfl
  have htw1 : (w1 ++ (keyLit ++ (w2 ++ q1 :: (key ++ q2 :: ',' :: X)))).takeWhile isWs
      = w1 := by
    rw [hkey]
    exact takeWhile_append_not hw1mem (by decide)
  have hdw1 : (w1 ++ (keyLit ++ (w2 ++ q1 :: (key ++ q2 :: ',' :: X)))).dropWhile isWs
      = keyLit ++ (w2 ++ q1 :: (key ++ q2 :: ',' :: X)) := by
    rw [hkey]
    exact dropWhile_append_not hw1mem (by decide)
  have hsw : startsWithL keyLit
      (keyLit ++ (w2 ++ q1 :: (key ++ q2 :: ',' :: X))) = true :=
    startsWithL_iff.mpr ⟨_, rfl⟩
  have htw2 : (w2 ++ q1 :: (key ++ q2 :: ',' :: X)).takeWhile isWs = w2 :=
    takeWhile_append_not hw2mem (quote_not_ws hq1)
  have hdw2 : (w2 ++ q1 :: (key ++ q2 :: ',' :: X)).dropWhile isWs
      = q1 :: (key ++ q2 :: ',' :: X) :=
    dropWhile_append_not hw2mem (quote_not_ws hq1)
  have htwk : (key ++ q2 :: ',' :: X).takeWhile isWordChar = key :=
    takeWhile_append_not hkmem (quote_not_word hq2)
  have hdwk : (key ++ q2 :: ',' :: X).dropWhile isWordChar = q2 :: ',' :: X :=
    dropWhile_append_not hkmem (quote_not_word hq2)
  have hkem : key.isEmpty = false := by
    cases key with
    | nil => exact absurd rfl hk
    | cons a b => rfl
  simp only [parseKeyHead, List.cons_append, hr0, htw1, hdw1, hsw, if_true,
    List.drop_left, htw2, hdw2, hq1, htwk, hdwk, hkem, hq2, if_pos rfl,
    Bool.false_eq_true, if_false, Bool.and_true,
    show (decide (',' = ',') : Bool) = true from by decide]
  simp [List.append_assoc]

/-- Introduction rule for one field-pattern match. -/
theorem tryMatch_intro {w1 w2 key b Z : List Char} {q1 q2 : Char}
    (hw1 : w1.all isWs = true) (hw2 : w2.all isWs = true)
    (hq1 : isQuoteChar q1 = true) (hq2 : isQuoteChar q2 = true)
    (hk : key ≠ []) (hkw : key.all isWordChar = true)
    (hnb : noClosePair rbrace b = true) :
    tryMatch ((lbrace :: (w1 ++ keyLit ++ w2 ++ q1 :: (key ++ [q2, ','])))
        ++ (b ++ rbrace :: ',' :: Z))
      = some ((lbrace :: (w1 ++ keyLit ++ w2 ++ q1 :: (key ++ [q2, ','])))
          ++ b ++ [rbrace], key, ',' :: Z) := by
  simp only [tryMatch, parseKeyHead_intro hw1 hw2 hq1 hq2 hk hkw]
  rw [splitAtClose_intro (by decide) hnb]

/-- `joinLines` step for a nonempty tail. -/
theorem joinLines_cons_ne {z : List (List Char)} (a : List Char) (h : z ≠ []) :
    joinLines (a :: z) = a ++ nl :: joinLines z := by
  cases z with
  | nil => exact absurd rfl h
  | cons y r => rfl

/-- Joining with a prefix glued onto the first line. -/
theorem joinLines_cons_append (a x : List Char) (xs : List (List Char)) :
    joinLines ((a ++ x) :: xs) = a ++ joinLines (x :: xs) := by
  cases xs with
  | nil => rfl
  | cons y r => simp [joinLines_cons_ne _ (by simp : (y :: r : List (List Char)) ≠ [])]

/-- Flat form of `joinLines` over an append with nonempty right part: each
left line contributes itself plus a newline. -/
theorem joinLines_flat : ∀ (A B : List (List Char)), B ≠ [] →
    joinLines (A ++ B) = (A.map (fun l => l ++ [nl])).flatten ++ joinLines B := by
  intro A
  induction A with
  | nil => intro B _; rfl
  | cons a A' ih =>
    intro B hB
    have hne : A' ++ B ≠ [] := by
      cases A' <;> cases B <;> simp_all
    rw [List.cons_append, joinLines_cons_ne a hne, ih B hB]
    simp

/-- A word character is not the newline. -/
theorem word_ne_nl {c : Char} (h : isWordChar c = true) : (c != nl) = true := by
  simp only [bne_iff_ne, ne_eq]
  intro hc
  rw [hc] at h
  exact absurd h (by decide)

/-- The Assigner's block transform keeps the matched head and the closing
brace, and its new body is still close-pair-free. -/
theorem addMnemText_decomp {g1 key hd b w1 w2 : List Char} {q1 q2 : Char}
    (hg : g1 = hd ++ b ++ [rbrace])
    (hh : hd = lbrace :: (w1 ++ keyLit ++ w2 ++ q1 :: (key ++ [q2, ','])))
    (hw1 : w1.all isWs = true) (hw2 : w2.all isWs = true)
    (hq1 : isQuoteChar q1 = true) (hq2 : isQuoteChar q2 = true)
    (hk : key ≠ []) (hkw : key.all isWordChar = true)
    (hnc : noClosePair rbrace b = true) :
    ∃ b2, addMnemText g1 key = hd ++ b2 ++ [rbrace] ∧
      noClosePair rbrace b2 = true := by
  by_cases hskip : containsSub mnemMark g1 = true
  · exact ⟨b, by rw [show addMnemText g1 key = g1 from by simp [addMnemText, hskip], hg],
      hnc⟩
  · have hg1e : addMnemText g1 key
        = joinLines (insertLines (resolveMnem key) (splitLines g1)) := by
      simp [addMnemText, hskip]
    have hhd2 : hd = (lbrace :: (w1 ++ keyLit ++ w2)) ++ (q1 :: (key ++ [q2, ','])) := by
      rw [hh]
      simp [List.append_assoc]
    have hG : g1 = (lbrace :: (w1 ++ keyLit ++ w2))
        ++ ((q1 :: (key ++ [q2, ','])) ++ (b ++ [rbrace])) := by
      rw [hg, hhd2]
      simp [List.append_assoc]
    obtain ⟨lastA, hlastA⟩ := getLast?_some_of_ne_nil
      (splitLines (lbrace :: (w1 ++ keyLit ++ w2))) (splitLines_ne_nil _)
    obtain ⟨FL, hFL⟩ : ∃ FL,
        (((splitLines (lbrace :: (w1 ++ keyLit ++ w2))).dropLast).map
          (fun l => l ++ [nl])).flatten = FL := ⟨_, rfl⟩
    cases hSX : splitLines ((q1 :: (key ++ [q2, ','])) ++ (b ++ [rbrace])) with
    | nil => exact absurd hSX (splitLines_ne_nil _)
    | cons X0 Xs =>
    have hLsplit : splitLines g1
        = (splitLines (lbrace :: (w1 ++ keyLit ++ w2))).dropLast
          ++ (lastA ++ X0) :: Xs := by
      rw [hG, splitLines_append _ _, hSX, joinLL_eq hlastA]
    have hAlab : ∀ l ∈ (splitLines (lbrace :: (w1 ++ keyLit ++ w2))).dropLast,
        containsSub labelMark l = false := by
      intro l hl
      by_contra hcon
      rw [Bool.not_eq_false] at hcon
      obtain ⟨x, y, hxy⟩ := containsSub_iff.1 hcon
      have hlmem : 'l' ∈ l := by
        rw [hxy]
        refine List.mem_append.2 (Or.inl (List.mem_append.2 (Or.inr ?_)))
        rw [show labelMark = 'l' :: ("abel:").toList from by decide]
        exact List.mem_cons_self _ _
      have hlA : 'l' ∈ lbrace :: (w1 ++ keyLit ++ w2) :=
        splitLines_chars _ l (List.dropLast_subset _ hl) 'l' hlmem
      rcases List.mem_cons.1 hlA with h1 | h2
      · exact absurd h1 (by decide)
      · rcases List.mem_append.1 h2 with h3 | h4
        · rcases List.mem_append.1 h3 with h5 | h6
          · exact absurd (all_iff_mem.mp hw1 _ h5) (by decide)
          · exact absurd h6 (by decide)
        · exact absurd (all_iff_mem.mp hw2 _ h4) (by decide)
    have hIns : insertLines (resolveMnem key) (splitLines g1)
        = (splitLines (lbrace :: (w1 ++ keyLit ++ w2))).dropLast
          ++ insertLines (resolveMnem key) ((lastA ++ X0) :: Xs) := by
      rw [hLsplit]
      exact insertLines_append_of_no_label _ _ hAlab (by simp)
    obtain ⟨TI, hTI⟩ := insertLines_cons_shape (resolveMnem key) (lastA ++ X0) Xs
    have hg1P : addMnemText g1 key
        = FL ++ joinLines (insertLines (resolveMnem key) ((lastA ++ X0) :: Xs)) := by
      rw [hg1e, hIns, joinLines_flat _ _ (by rw [hTI]; simp), hFL]
    have hJH : joinLines ((lastA ++ X0) :: Xs)
        = lastA ++ ((q1 :: (key ++ [q2, ','])) ++ (b ++ [rbrace])) := by
      rw [joinLines_cons_append, show X0 :: Xs
          = splitLines ((q1 :: (key ++ [q2, ','])) ++ (b ++ [rbrace])) from hSX.symm,
        joinLines_splitLines]
    have hInsD : Ins (joinLines ((lastA ++ X0) :: Xs))
        (joinLines (insertLines (resolveMnem key) ((lastA ++ X0) :: Xs))) :=
      Ins_insertLines (noClosePair_resolveMnem hkw) _
    rw [hJH, show lastA ++ ((q1 :: (key ++ [q2, ','])) ++ (b ++ [rbrace]))
        = (lastA ++ (q1 :: (key ++ [q2, ',']))) ++ (b ++ [rbrace]) from by
      simp [List.append_assoc]] at hInsD
    have hpre_nl : (lastA ++ (q1 :: (key ++ [q2, ',']))).all (fun c => c != nl) = true := by
      rw [List.all_append, Bool.and_eq_true]
      refine ⟨?_, ?_⟩
      · exact splitLines_no_nl _ lastA (mem_of_getLast? hlastA)
      · rw [all_iff_mem]
        intro c hc
        rcases List.mem_cons.1 hc with h1 | h2
        · subst h1
          simp only [bne_iff_ne, ne_eq]
          intro hcn
          rw [hcn] at hq1
          exact absurd hq1 (by decide)
        · rcases List.mem_append.1 h2 with h3 | h4
          · exact word_ne_nl (all_iff_mem.mp hkw _ h3)
          · rcases List.mem_cons.1 h4 with h5 | h6
            · subst h5
              simp only [bne_iff_ne, ne_eq]
              intro hcn
              rw [hcn] at hq2
              exact absurd hq2 (by decide)
            · have : c = ',' := by simpa using h6
              subst this
              decide
    obtain ⟨E, hE, hInsE⟩ := Ins_split_prefix _ hpre_nl hInsD
    have hElast : E.getLast? = some rbrace := by
      rw [Ins_getLast hInsE]
      exact List.getLast?_concat b
    have hEdecomp : E.dropLast ++ [rbrace] = E := concat_getLast? hElast
    have hnbE : noClosePair rbrace E = true := by
      refine Ins_noClosePair hInsE ?_
      refine noClosePair_glue b [rbrace] hnc (by decide) ?_
      intro a c ha hc hac
      simp only [List.head?_cons, Option.some.injEq] at hc
      rw [← hc] at hac
      exact absurd hac.2 (by decide)
    have hnb2 : noClosePair rbrace E.dropLast = true := by
      refine noClosePair_append_left_of E.dropLast [rbrace] ?_
      rw [hEdecomp]
      exact hnbE
    refine ⟨E.dropLast, ?_, hnb2⟩
    have hAeq : lbrace :: (w1 ++ keyLit ++ w2) = FL ++ lastA := by
      conv_lhs => rw [← joinLines_splitLines (lbrace :: (w1 ++ keyLit ++ w2)),
        ← concat_getLast? hlastA]
      rw [joinLines_flat _ _ (by simp), hFL]
      rfl
    have hhd3 : hd = FL ++ (lastA ++ (q1 :: (key ++ [q2, ',']))) := by
      rw [hhd2, hAeq]
      simp [List.append_assoc]
    rw [hg1P, hE, hhd3,
      show (FL ++ (lastA ++ (q1 :: (key ++ [q2, ','])))) ++ E.dropLast ++ [rbrace]
        = FL ++ ((lastA ++ (q1 :: (key ++ [q2, ',']))) ++ (E.dropLast ++ [rbrace]))
      from by simp [List.append_assoc], hEdecomp]

/-- The Assigner's rewrites of later pieces cannot create a field match
starting inside a plain run where the original text had none. -/
theorem tryMatch_transfer {v : List Char} {ps2 : List PPiece}
    (hv : v ≠ [])
    (hgd : ps2 = [] ∨ ∃ g key ps3, ps2 = PPiece.block g key :: ps3)
    (hwf : wfPiecesP ps2)
    (hno : tryMatch (v ++ origAllP ps2) = none) :
    tryMatch (v ++ renderAllP ps2) = none := by
  rcases hgd with hnil | ⟨g, key, ps3, hsp⟩
  · subst hnil
    simpa [origAllP, renderAllP] using hno
  · subst hsp
    obtain ⟨⟨hd, b, w1, w2, q1, q2, hg, hh, hw1, hw2, hq1, hq2, hk, hkw, hnc⟩,
      ⟨u3, ps4, hps⟩, hwf3⟩ := hwf
    cases ht : tryMatch (v ++ renderAllP (PPiece.block g key :: ps3)) with
    | none => rfl
    | some trip =>
      exfalso
      obtain ⟨g2, key2, after2⟩ := trip
      obtain ⟨hd2, b2, t2, hp2, hs2, -, -, -⟩ := tryMatch_some_parts ht
      obtain ⟨w1a, w2a, q1a, q2a, hh2, hsplit2, hw1a, hw2a, hq1a, hq2a, hk2, hkw2⟩ :=
        parseKeyHead_decompS hp2
      have hv1 : 0 < v.length := List.length_pos.2 hv
      by_cases hlen : hd2.length ≤ v.length
      · obtain ⟨v2, hv2⟩ : ∃ v2, List.drop hd2.length v = v2 := ⟨_, rfl⟩
        have htake : v.take hd2.length = hd2 := by
          have hc := congrArg (List.take hd2.length) hsplit2
          rwa [List.take_append_of_le_length hlen, List.take_left] at hc
        have hvsplit : v = hd2 ++ v2 := by
          conv_lhs => rw [← List.take_append_drop hd2.length v]
          rw [htake, hv2]
        have hO : origAllP (PPiece.block g key :: ps3)
            = (hd ++ b) ++ rbrace :: ',' :: (u3 ++ origAllP ps4) := by
          rw [hps]
          simp [origAllP, origPieceP, hg, List.append_assoc]
        have hha : hasClosePair rbrace
            (v2 ++ origAllP (PPiece.block g key :: ps3)) = true := by
          rw [hO, show v2 ++ ((hd ++ b) ++ rbrace :: ',' :: (u3 ++ origAllP ps4))
              = (v2 ++ (hd ++ b)) ++ rbrace :: ',' :: (u3 ++ origAllP ps4) from by
            simp [List.append_assoc]]
          exact hasClosePair_of_pair rbrace _ _
        obtain ⟨⟨b1, t1⟩, hs1⟩ := splitAtClose_isSome hha
        have hshape : v ++ origAllP (PPiece.block g key :: ps3)
            = hd2 ++ (v2 ++ origAllP (PPiece.block g key :: ps3)) := by
          conv_lhs => rw [hvsplit]
          simp [List.append_assoc]
        rw [hshape, hh2] at hno
        simp only [tryMatch, parseKeyHead_intro hw1a hw2a hq1a hq2a hk2 hkw2] at hno
        rw [hs1] at hno
        exact Option.noConfusion hno
      · push_neg at hlen
        have hRrest : renderAllP (PPiece.block g key :: ps3)
            = List.drop v.length hd2 ++ (b2 ++ rbrace :: ',' :: t2) := by
          have hc := congrArg (List.drop v.length) hsplit2
          rw [List.drop_left, List.drop_append_of_le_length (le_of_lt hlen)] at hc
          exact hc
        have hrne : List.drop v.length hd2 ≠ [] := by
          intro hempty
          have hl2 := congrArg List.length hempty
          rw [List.length_drop] at hl2
          simp at hl2
          omega
        obtain ⟨b3, hb31, -⟩ := addMnemText_decomp hg hh hw1 hw2 hq1 hq2 hk hkw hnc
        obtain ⟨Rt, hRshape⟩ : ∃ Rt, renderAllP (PPiece.block g key :: ps3)
            = lbrace :: Rt := by
          refine ⟨(w1 ++ keyLit ++ w2 ++ q1 :: (key ++ [q2, ','])) ++ b3 ++ [rbrace]
            ++ renderAllP ps3, ?_⟩
          rw [show renderAllP (PPiece.block g key :: ps3)
              = addMnemText g key ++ renderAllP ps3 from by
            simp [renderAllP, renderPieceP], hb31, hh]
          simp [List.append_assoc]
        cases hdv : List.drop v.length hd2 with
        | nil => exact hrne hdv
        | cons c0 rh =>
          have hKey : c0 :: (rh ++ (b2 ++ rbrace :: ',' :: t2)) = lbrace :: Rt := by
            rw [← List.cons_append, ← hdv, ← hRrest, hRshape]
          injection hKey with hc0 hKey2
          have hmem0 : c0 ∈ List.drop v.length hd2 := by
            rw [hdv]
            exact List.mem_cons_self _ _
          have hdd : List.drop v.length hd2
              = List.drop (v.length - 1) (List.drop 1 hd2) := by
            rw [List.drop_drop]
            congr 1
            omega
          rw [hdd] at hmem0
          have hmem1 : c0 ∈ List.drop 1 hd2 := List.drop_subset _ _ hmem0
          rw [hh2] at hmem1
          have hmem2 : c0 ∈ w1a ++ keyLit ++ w2a ++ q1a :: (key2 ++ [q2a, ',']) := by
            simpa using hmem1
          subst hc0
          rcases List.mem_append.1 hmem2 with h3 | h4
          · rcases List.mem_append.1 h3 with h5 | h6
            · rcases List.mem_append.1 h5 with h7 | h8
              · exact absurd (all_iff_mem.mp hw1a _ h7) (by decide)
              · exact absurd h8 (by decide)
            · exact absurd (all_iff_mem.mp hw2a _ h6) (by decide)
          · rcases List.mem_cons.1 h4 with h5 | h6
            · rw [← h5] at hq1a
              exact absurd hq1a (by decide)
            · rcases List.mem_append.1 h6 with h7 | h8
              · exact absurd (all_iff_mem.mp hkw2 _ h7) (by decide)
              · rcases List.mem_cons.1 h8 with h9 | h10
                · rw [← h9] at hq2a
                  exact absurd hq2a (by decide)
                · have : lbrace = ',' := by simpa using h10
                  exact absurd this (by decide)

/-- A run on which every attempt of the field pattern fails is copied. -/
theorem processText_append_of_fail : ∀ (u R : List Char),
    (∀ i, i < u.length → tryMatch (u.drop i ++ R) = none) →
    processText (u ++ R) = u ++ processText R := by
  intro u
  induction u with
  | nil => intro R _; rfl
  | cons c u' ih =>
    intro R hfail
    have h0 : tryMatch (c :: (u' ++ R)) = none := by
      simpa using hfail 0 (by simp)
    rw [List.cons_append, processText_cons_none h0,
      ih R (fun i hi => by
        simpa [List.drop_succ_cons] using hfail (i + 1) (by simpa using Nat.succ_lt_succ hi))]
    rfl

/-- Matched step of the Assigner, for an arbitrary text. -/
theorem processText_some {s g1 key after : List Char}
    (h : tryMatch s = some (g1, key, after)) :
    processText s = addMnemText g1 key ++ processText after := by
  cases s with
  | nil =>
    rw [show tryMatch [] = none from by decide] at h
    exact absurd h (by simp)
  | cons c r => exact processText_cons_some h

/-- A second Assigner pass over the rendering of a well-formed decomposition
is the identity. -/
theorem processText_renderAllP : ∀ (ps : List PPiece), wfPiecesP ps →
    processText (renderAllP ps) = renderAllP ps := by
  intro ps
  induction ps with
  | nil => intro _; rfl
  | cons p ps2 ih =>
    intro hwf
    cases p with
    | plain u =>
      obtain ⟨hne, hfail, hguard, hwf2⟩ := hwf
      have hRA : renderAllP (PPiece.plain u :: ps2) = u ++ renderAllP ps2 := by
        simp [renderAllP, renderPieceP]
      have hdropne : ∀ i, i < u.length → u.drop i ≠ [] := by
        intro i hi hcon
        have hlen := congrArg List.length hcon
        rw [List.length_drop] at hlen
        simp at hlen
        omega
      rw [hRA, processText_append_of_fail u (renderAllP ps2)
        (fun i hi => tryMatch_transfer (hdropne i hi) hguard hwf2 (hfail i hi)),
        ih hwf2]
    | block g key =>
      obtain ⟨⟨hd, b, w1, w2, q1, q2, hg, hh, hw1, hw2, hq1, hq2, hk, hkw, hnc⟩,
        ⟨u3, ps4, hps⟩, hwf2⟩ := hwf
      obtain ⟨b3, hb31, hb32⟩ := addMnemText_decomp hg hh hw1 hw2 hq1 hq2 hk hkw hnc
      have hR2 : renderAllP ps2 = ',' :: (u3 ++ renderAllP ps4) := by
        rw [hps]
        simp [renderAllP, renderPieceP]
      have hgid : (lbrace :: (w1 ++ keyLit ++ w2 ++ q1 :: (key ++ [q2, ','])))
          ++ b3 ++ [rbrace] = addMnemText g key := by
        rw [hb31, hh]
      have hRA : renderAllP (PPiece.block g key :: ps2)
          = (lbrace :: (w1 ++ keyLit ++ w2 ++ q1 :: (key ++ [q2, ','])))
            ++ (b3 ++ rbrace :: ',' :: (u3 ++ renderAllP ps4)) := by
        rw [show renderAllP (PPiece.block g key :: ps2)
            = addMnemText g key ++ renderAllP ps2 from by
          simp [renderAllP, renderPieceP], hb31, hR2, hh]
        simp [List.append_assoc]
      have hstep : processText
          ((lbrace :: (w1 ++ keyLit ++ w2 ++ q1 :: (key ++ [q2, ','])))
            ++ (b3 ++ rbrace :: ',' :: (u3 ++ renderAllP ps4)))
          = addMnemText g key ++ renderAllP ps2 := by
        rw [processText_some (tryMatch_intro hw1 hw2 hq1 hq2 hk hkw hb32), hgid,
          addMnemText_idem g key]
        congr 1
        rw [← hR2]
        exact ih hwf2
      calc processText (renderAllP (PPiece.block g key :: ps2))
          = processText
            ((lbrace :: (w1 ++ keyLit ++ w2 ++ q1 :: (key ++ [q2, ','])))
              ++ (b3 ++ rbrace :: ',' :: (u3 ++ renderAllP ps4))) := by rw [hRA]
        _ = addMnemText g key ++ renderAllP ps2 := hstep
        _ = renderAllP (PPiece.block g key :: ps2) := by
            simp [renderAllP, renderPieceP]

/-- C4: applying the Assigner twice yields output identical to applying it
once. -/
theorem c4_assigner_idempotent (s : List Char) :
    processText (processText s) = processText s := by
  have h := processText_renderAllP (piecesP s) (wfPiecesP_piecesP s)
  rwa [renderAllP_piecesP s] at h

end Bmad
